import Mathlib

/-!
# hirzel::var and its JSON codec

A shallow embedding of `include/hirzel/var.h`: the tagged value `var`, its scalar
accessors, `to_string`, assignment, the two indexing operators, and `parse_json` with its
sanitization pass and the recursive-descent routines `parse_json_value`,
`parse_json_array` and `parse_json_object`.

Conventions of the embedding.

* A `std::string` is the list of its bytes, each byte a natural number below 256.
  `char` is the signed 8-bit type of the common x86-64 ABIs, so a byte of 128 or more
  compares below every ASCII character; `long long`, `intmax_t` and `size_t` are 64 bits.
* A routine returns `Except Fault _`: `Fault` lists the ways in which control leaves the
  C++ routine other than by `return` (an exception nobody catches, a write past a fixed
  scratch buffer, a read of `src` beyond `src.size()`, a read of the never written slot
  `pairs[0]`). An Error-kind value is an ordinary result, `var.ERROR`.
* The cursor `size_t& i` is threaded explicitly: a parser routine takes `i` and returns the
  value together with the new `i`. Reading `src[src.size()]` yields the terminating zero.
* `std::unordered_map` is an association list with unique keys; its unspecified
  iteration order is taken to be insertion order.
* The recursive descent carries a fuel argument; `parse_json` supplies it from the length
  of the sanitized text.
* Indexes and loop counters are natural numbers. The integer index operator computes
  `i + 1` in `size_t` (`size_succ`); a theorem that depends on the range of a machine type
  (`size_t`, `int`) says so in a hypothesis.
* `operator=`, the move constructor and the two indexing operators are embedded a second
  time over the heap objects behind a value (`Node`, `copy`, `move_ctor`, `exec`): there the
  payload pointer of a `var` object is the address of its heap object, and `next` is the
  address that the next `new` returns.
-/

namespace hirzel

/-- The bytes of a `std::string`. -/
abbrev Bytes := List Nat

/-- The bytes of an ASCII string literal of the source. -/
def txt (s : String) : Bytes := s.toList.map Char.toNat

/-- How control can leave a routine of the source other than by returning. -/
inductive Fault where
  /-- `std::invalid_argument` thrown by `std::stoll`, `std::stoull` or `std::stod`. -/
  | invalid_argument
  /-- `std::out_of_range` thrown by `std::stoll`, `std::stoull` or `std::stod`. -/
  | out_of_range
  /-- A write past the end of `tmp`, `label` or `pairs`. -/
  | buffer_overflow
  /-- A read of `src[i]` with `i > src.size()`. -/
  | bad_read
  /-- A read of `pairs[0]`, which no statement writes. -/
  | uninit_read
  /-- A conversion of a double to an integer type that cannot hold it. -/
  | float_cast
  /-- The fuel of the embedding ran out (not a behaviour of the source). -/
  | fuel
deriving DecidableEq, Repr

/-! ## Decimal text of integers (`std::to_string`) -/

/-- Digits of `n`, most significant first, pushed in front of `acc`. -/
def digits_of : Nat → Nat → Bytes → Bytes
  | 0, _, acc => acc
  | fuel + 1, n, acc =>
    if n < 10 then (48 + n) :: acc else digits_of fuel (n / 10) ((48 + n % 10) :: acc)

/-- `std::to_string` of an unsigned integer. -/
def to_string_nat (n : Nat) : Bytes := digits_of (n + 1) n []

/-- `std::to_string` of a signed integer. -/
def to_string_int (i : Int) : Bytes :=
  if i < 0 then 45 :: to_string_nat i.natAbs else to_string_nat i.natAbs

/-! ## `std::stoll` and `std::stoull` (C locale, base 10) -/

/-- The `isdigit` test. -/
def isdigit (c : Nat) : Bool := 48 ≤ c && c ≤ 57

/-- The `isspace` test. -/
def isspace (c : Nat) : Bool := c = 32 || (9 ≤ c && c ≤ 13)

/-- Value of a run of decimal digits. -/
def digits_value (ds : Bytes) : Nat := ds.foldl (fun a c => 10 * a + (c - 48)) 0

/-- What `strtoll` and `strtoull` take from a text: leading white space is skipped, then an
optional sign, then the longest run of digits. -/
def strto_split (s : Bytes) : Bool × Bytes :=
  match s.dropWhile isspace with
  | [] => (false, [])
  | c :: r =>
    if c = 45 then (true, r.takeWhile isdigit)
    else if c = 43 then (false, r.takeWhile isdigit)
    else (false, (c :: r).takeWhile isdigit)

/-- `std::stoll`: no digit is `std::invalid_argument`, a value outside `long long` is
`std::out_of_range`. -/
def stoll (s : Bytes) : Except Fault Int :=
  let p := strto_split s
  if p.2 = [] then .error .invalid_argument
  else if p.1 then
    (if digits_value p.2 ≤ 2 ^ 63 then .ok (-(digits_value p.2 : Int)) else .error .out_of_range)
  else
    (if digits_value p.2 < 2 ^ 63 then .ok (digits_value p.2 : Int) else .error .out_of_range)

/-- `std::stoull`: as `stoll`, with a negated value taken modulo `2 ^ 64`. -/
def stoull (s : Bytes) : Except Fault Nat :=
  let p := strto_split s
  if p.2 = [] then .error .invalid_argument
  else if digits_value p.2 < 2 ^ 64 then
    .ok (if p.1 then (2 ^ 64 - digits_value p.2) % 2 ^ 64 else digits_value p.2)
  else .error .out_of_range

/-! ## Doubles

The source never computes with a double: it obtains one from a numeral (`std::stod`) or an
integer and later renders or truncates it. A double is therefore kept as a decimal it is
the nearest double to, and rounded when it is consumed. -/

/-- The finite double nearest to `(-1) ^ neg * mant / 10 ^ frac`. -/
structure Double where
  neg : Bool
  mant : Nat
  frac : Nat
deriving DecidableEq, Repr

/-- Quotient of `n` by `d` rounded to nearest, ties to even. -/
def round_half_even (n d : Nat) : Nat :=
  if 2 * (n % d) > d ∨ (2 * (n % d) = d ∧ (n / d) % 2 = 1) then n / d + 1 else n / d

/-- Floor of the binary logarithm of `n / d`, for positive `n` and `d`. -/
def log2_ratio (n d : Nat) : Int :=
  let e : Int := (Nat.log2 n : Int) - (Nat.log2 d : Int)
  if e ≥ 0 then (if n ≥ d * 2 ^ e.toNat then e else e - 1)
  else (if n * 2 ^ (-e).toNat ≥ d then e else e - 1)

/-- The IEEE-754 binary64 value nearest to `n / d`, as `(q, p)` standing for `q * 2 ^ p`;
`none` when it rounds to infinity. -/
def nearest_double (n d : Nat) : Option (Nat × Int) :=
  if n = 0 then some (0, 0)
  else
    let p : Int := max (log2_ratio n d - 52) (-1074)
    let q := if p ≥ 0 then round_half_even n (d * 2 ^ p.toNat)
             else round_half_even (n * 2 ^ (-p).toNat) d
    if p > 971 ∨ (p = 971 ∧ q ≥ 2 ^ 53) then none else some (q, p)

/-- The exact value `q * 2 ^ p` of a double, `none` for an infinity. -/
def Double.value (x : Double) : Option (Nat × Int) := nearest_double x.mant (10 ^ x.frac)

/-- The magnitude of a double truncated toward zero. -/
def Double.trunc (x : Double) : Option Nat :=
  match x.value with
  | none => none
  | some (q, p) => some (if p ≥ 0 then q * 2 ^ p.toNat else q / 2 ^ (-p).toNat)

/-- Left-pads a digit string with zeros to a width. -/
def pad_zeros (w : Nat) (ds : Bytes) : Bytes := List.replicate (w - ds.length) 48 ++ ds

/-- `std::to_string(double)`, the `"%f"` rendering with six decimals. -/
def Double.to_string (x : Double) : Bytes :=
  (if x.neg then [45] else []) ++
  match x.value with
  | none => txt "inf"
  | some (q, p) =>
    let k := if p ≥ 0 then q * 2 ^ p.toNat * 10 ^ 6
             else round_half_even (q * 10 ^ 6) (2 ^ (-p).toNat)
    to_string_nat (k / 10 ^ 6) ++ [46] ++ pad_zeros 6 (to_string_nat (k % 10 ^ 6))

/-- The double of `std::stod` for a text made of an optional minus sign, digits and at most
one point, as `parse_json_value` accumulates it in its 128-byte buffer: the conversion
fails exactly when the text has no digit (a text this short neither overflows nor
underflows a double). -/
def stod_numeral (tmp : Bytes) : Except Fault Double :=
  let body := if tmp.head? = some 45 then tmp.tail else tmp
  if body.all (fun c => !isdigit c) then .error .invalid_argument
  else .ok
    { neg := tmp.head? = some 45
      mant := digits_value (body.filter isdigit)
      frac := ((body.dropWhile isdigit).filter isdigit).length }

/-! ## The value type -/

/-- The tagged value: one constructor per `Type` tag, carrying the live member of `Data`. -/
inductive var where
  | NULL
  | ERROR (msg : Bytes)
  | INT (i : Int)
  | UINT (u : Nat)
  | FLOAT (d : Double)
  | CHAR (c : Nat)
  | BOOL (b : Bool)
  | STR (s : Bytes)
  | ARRAY (xs : List var)
  | MAP (m : List (Bytes × var))
deriving Repr

/-- The constructor `var::error`. -/
def error (msg : Bytes) : var := .ERROR msg

/-- The accessor `var::is_error`. -/
def var.is_error : var → Bool
  | .ERROR _ => true
  | _ => false

/-- The constructor `var(char*)`: the bytes of the buffer up to the first zero byte. -/
def c_str (tmp : Bytes) : Bytes := tmp.takeWhile (fun c => c ≠ 0)

/-! ## Scalar accessors -/

/-- Conversion of an integer to `long long` (`intmax_t`). -/
def wrap_int64 (n : Int) : Int := (n + 2 ^ 63) % 2 ^ 64 - 2 ^ 63

/-- Conversion of an integer to `unsigned long long` (`uintmax_t`). -/
def wrap_uint64 (n : Int) : Nat := (n % 2 ^ 64).toNat

/-- The value of a `char` holding the byte `c`. -/
def char_value (c : Nat) : Int := if c < 128 then (c : Int) else (c : Int) - 256

/-- The byte of a `char` converted from an integer. -/
def wrap_char (n : Int) : Nat := (n % 256).toNat

/-- A double as a signed integer after truncation, `none` for an infinity. -/
def Double.to_integer (x : Double) : Option Int :=
  match x.trunc with
  | none => none
  | some t => some (if x.neg then -(t : Int) else (t : Int))

/-- The accessor `var::to_int`. Only `std::invalid_argument` is caught. -/
def to_int : var → Except Fault Int
  | .INT i => .ok i
  | .UINT u => .ok (wrap_int64 u)
  | .BOOL b => .ok (if b then 1 else 0)
  | .CHAR c => .ok (char_value c)
  | .FLOAT d =>
    match d.to_integer with
    | some t => if -(2 ^ 63 : Int) ≤ t ∧ t < 2 ^ 63 then .ok t else .error .float_cast
    | none => .error .float_cast
  | .STR s =>
    match stoll s with
    | .ok v => .ok v
    | .error .invalid_argument => .ok 0
    | .error f => .error f
  | _ => .ok 0

/-- The accessor `var::to_uint`. Only `std::invalid_argument` is caught. -/
def to_uint : var → Except Fault Nat
  | .INT i => .ok (wrap_uint64 i)
  | .UINT u => .ok u
  | .BOOL b => .ok (if b then 1 else 0)
  | .CHAR c => .ok (wrap_uint64 (char_value c))
  | .FLOAT d =>
    match d.to_integer with
    | some t => if -1 < t ∧ t < 2 ^ 64 then .ok t.toNat else .error .float_cast
    | none => .error .float_cast
  | .STR s =>
    match stoull s with
    | .ok v => .ok v
    | .error .invalid_argument => .ok 0
    | .error f => .error f
  | _ => .ok 0

/-- The accessor `var::to_char`, as the byte of the returned `char`. -/
def to_char : var → Except Fault Nat
  | .INT i => .ok (wrap_char i)
  | .UINT u => .ok (wrap_char u)
  | .BOOL b => .ok (if b then 1 else 0)
  | .CHAR c => .ok c
  | .FLOAT d =>
    match d.to_integer with
    | some t => if -129 < t ∧ t < 128 then .ok (wrap_char t) else .error .float_cast
    | none => .error .float_cast
  | .STR s => .ok (match s with | [] => 0 | c :: _ => c)
  | _ => .ok 0

/-- The accessor `var::to_bool`. -/
def to_bool : var → Bool
  | .INT i => i ≠ 0
  | .UINT u => u ≠ 0
  | .BOOL b => b
  | .CHAR c => c ≠ 0
  | .FLOAT d => (match d.value with | some (q, _) => q ≠ 0 | none => true)
  | .STR s => !s.isEmpty
  | _ => false

/-! ## `to_string` -/

/-- The inner loop of the `MAP_TYPE` case: a tab is inserted after every newline of the
text just appended. -/
def indent : Bytes → Bytes
  | [] => []
  | c :: cs => if c = 10 then 10 :: 9 :: indent cs else c :: indent cs

mutual
/-- The method `var::to_string`. -/
def to_string : var → Bytes
  | .NULL => txt "null"
  | .INT i => to_string_int i
  | .UINT u => to_string_nat u
  | .BOOL b => if b then txt "true" else txt "false"
  | .CHAR c => [c]
  | .FLOAT d => d.to_string
  | .ERROR s => s
  | .STR s => s
  | .ARRAY xs => txt "[" ++ to_string_array xs 0 ++ txt "]"
  | .MAP m => txt "\x7b\n" ++ to_string_map m 0 m.length ++ txt "\x7d"
/-- The loop of the `ARRAY_TYPE` case, from index `i` on. -/
def to_string_array : List var → Nat → Bytes
  | [], _ => []
  | x :: xs, i => (if i > 0 then txt ", " else []) ++ to_string x ++ to_string_array xs (i + 1)
/-- The loop of the `MAP_TYPE` case, with its counters `curr` and `size`. -/
def to_string_map : List (Bytes × var) → Nat → Nat → Bytes
  | [], _, _ => []
  | (k, v) :: es, curr, size =>
    txt "\t\"" ++ k ++ txt "\": " ++ indent (to_string v)
      ++ (if curr + 1 < size then txt "," else []) ++ txt "\n"
      ++ to_string_map es (curr + 1) size
end

/-! ## Assignment and the indexing operators -/

/-- The element of an `unordered_map` under a key, if any. -/
def map_find : List (Bytes × var) → Bytes → Option var
  | [], _ => none
  | (k, v) :: es, key => if k = key then some v else map_find es key

/-- The map after `m[key] = x`: the entry of `key` is overwritten, or added. -/
def map_assign : List (Bytes × var) → Bytes → var → List (Bytes × var)
  | [], key, x => [(key, x)]
  | (k, v) :: es, key, x => if k = key then (k, x) :: es else (k, v) :: map_assign es key x

/-- The map after `m[key]` was evaluated: a missing key is added with a Null value. -/
def map_touch (m : List (Bytes × var)) (key : Bytes) : List (Bytes × var) :=
  match map_find m key with
  | some _ => m
  | none => m ++ [(key, var.NULL)]

/-- The loop of `operator[](const std::string&)` for an Array: element `i` is stored
under the decimal text of `i`. -/
def rekey : List var → Nat → List (Bytes × var) → List (Bytes × var)
  | [], _, m => m
  | x :: xs, i, m => rekey xs (i + 1) (map_assign m (to_string_nat i) x)

/-- The map that `operator[](const std::string&)` works on, by the kind of the value. -/
def as_map : var → List (Bytes × var)
  | .ARRAY xs => rekey xs 0 []
  | .MAP m => m
  | _ => []

/-- The value after `v[key]` was evaluated (`operator[](const std::string&)`). -/
def subscript_str (v : var) (key : Bytes) : var := .MAP (map_touch (as_map v) key)

/-- The value after `v[key] = x`. -/
def assign_str (v : var) (key : Bytes) (x : var) : var := .MAP (map_assign (as_map v) key x)

/-- The slot that `v[key]` refers to. -/
def get_str (v : var) (key : Bytes) : var := (map_find (as_map v) key).getD .NULL

/-- The vector after `resize(i + 1)` when `i` is not a valid index, for an index below
`2 ^ 64 - 1`, where `i + 1` does not wrap (the counter of the array parser, the index of an
assignment `v[i] = x` that has a slot to write to). `subscript_nat` covers every index. -/
def grow (xs : List var) (i : Nat) : List var :=
  if i ≥ xs.length then xs ++ List.replicate (i + 1 - xs.length) var.NULL else xs

/-- The sum `i + 1` as `operator[](size_t)` computes it, in `size_t`: it is 0 for the
largest index `2 ^ 64 - 1`. -/
def size_succ (i : Nat) : Nat := (i + 1) % 2 ^ 64

/-- The vector after `resize(n)`: cut down to `n` elements, or filled up with Null values. -/
def resize (xs : List var) (n : Nat) : List var :=
  xs.take n ++ List.replicate (n - xs.length) var.NULL

/-- The value after `v[i]` was evaluated (`operator[](size_t)`), for an index `i` of type
`size_t`. The operator returns a reference to element `i` of the vector; for the index
`2 ^ 64 - 1` the vector is empty and there is no such element. -/
def subscript_nat (v : var) (i : Nat) : var :=
  match v with
  | .ARRAY xs => .ARRAY (if i ≥ xs.length then resize xs (size_succ i) else xs)
  | .MAP m => .MAP (map_touch m (to_string_nat i))
  | _ => .ARRAY (List.replicate (size_succ i) var.NULL)

/-- The value after `v[i] = x`, for an index below `2 ^ 64 - 1`: for the largest index the
reference that `operator[]` returns has no element to refer to (see `subscript_nat`). -/
def assign_nat (v : var) (i : Nat) (x : var) : var :=
  match v with
  | .ARRAY xs => .ARRAY ((grow xs i).set i x)
  | .MAP m => .MAP (map_assign m (to_string_nat i) x)
  | _ => .ARRAY ((List.replicate (i + 1) var.NULL).set i x)

/-- The slot that `v[i]` refers to, for an index below `2 ^ 64 - 1`. -/
def get_nat (v : var) (i : Nat) : var :=
  match v with
  | .ARRAY xs => xs.getD i .NULL
  | .MAP m => (map_find m (to_string_nat i)).getD .NULL
  | _ => .NULL

/-! ## The sanitization pass of `parse_json` -/

/-- The test `src[i] < 33` on a `char`. -/
def below33 (c : Nat) : Bool := c < 33 || 128 ≤ c

/-- What the scan of `parse_json` has produced when it stops: a fault, the Error value it
returns, or the bytes written to `src_mod` with the stack `pairs` (top first). -/
abbrev Pass := Except Fault (Except var (Bytes × List Nat))

/-- The statement `src_mod[oi++] = c`, ahead of the rest of the scan. -/
def emit (c : Nat) : Pass → Pass
  | .ok (.ok (out, st)) => .ok (.ok (c :: out, st))
  | r => r

mutual
/-- The `for` loop of `parse_json` over the bytes from position `i` on, outside a string
literal; `st` holds the slots of `pairs` above `pairs[0]`. -/
def sanitize_loop : Bytes → Nat → List Nat → Pass
  | [], _, st => .ok (.ok ([], st))
  | c :: rest, i, st =>
    if below33 c then sanitize_loop rest (i + 1) st
    else if c = 34 then emit c (sanitize_string rest (i + 1) c st)
    else if c = 91 then
      (if st.length ≥ 127 then .error .buffer_overflow
       else emit c (sanitize_loop rest (i + 1) (93 :: st)))
    else if c = 123 then
      (if st.length ≥ 127 then .error .buffer_overflow
       else emit c (sanitize_loop rest (i + 1) (125 :: st)))
    else if c = 93 ∨ c = 125 then
      match st with
      | [] => .error .uninit_read
      | top :: below =>
        if top = c then emit c (sanitize_loop rest (i + 1) below)
        else .ok (.error (error (txt "JSON: stray \x27" ++ [c] ++ txt "\x27 at position: "
          ++ to_string_nat i)))
    else emit c (sanitize_loop rest (i + 1) st)
/-- The inner `while` loop of the string case; `prev` is `src[i - 1]`. -/
def sanitize_string : Bytes → Nat → Nat → List Nat → Pass
  | [], i, _, _ =>
    .ok (.error (error (txt "JSON: unterminated string at position: " ++ to_string_nat (i - 1))))
  | c :: rest, i, prev, st =>
    if c = 34 ∧ prev ≠ 92 then emit c (sanitize_loop rest (i + 1) st)
    else emit c (sanitize_string rest (i + 1) c st)
end

/-- The sanitization pass: the scan, then the two checks on its outcome. It yields the
Error value that `parse_json` returns, or the sanitized text `src_mod`. -/
def sanitize (src : Bytes) : Except Fault (Except var Bytes) :=
  match sanitize_loop src 0 [] with
  | .error f => .error f
  | .ok (.error e) => .ok (.error e)
  | .ok (.ok (src_mod, st)) =>
    if src_mod = [] then .ok (.error (error (txt "JSON: source string was empty")))
    else
      match st with
      | [] => .ok (.ok src_mod)
      | top :: _ =>
        .ok (.error (error (txt "JSON: unterminated "
          ++ (if top = 93 then txt "array" else txt "object") ++ txt " definition")))

/-! ## The structural parser -/

/-- The read `src[i]`. -/
def char_at (src : Bytes) (i : Nat) : Except Fault Nat :=
  match src[i]? with
  | some c => .ok c
  | none => if i = src.length then .ok 0 else .error .bad_read

/-- The `while` loop of the number branch over the bytes from position `i` on. It stops
with the Error value returned and the cursor, or with `tmp`, `dec` and the cursor. -/
def number_loop : Bytes → Nat → Bool → Bytes →
    Except Fault (Except (var × Nat) (Bytes × Bool × Nat))
  | [], i, dec, tmp => .ok (.ok (tmp, dec, i))
  | c :: rest, i, dec, tmp =>
    if c = 46 then
      if dec then
        .ok (.error (error (txt "JSON: stray \x27.\x27 found in number literal at position: "
          ++ to_string_nat i), i))
      else if tmp.length ≥ 128 then .error .buffer_overflow
      else number_loop rest (i + 1) true (tmp ++ [c])
    else if c < 48 ∨ c > 57 then .ok (.ok (tmp, dec, i))
    else if tmp.length ≥ 128 then .error .buffer_overflow
    else number_loop rest (i + 1) dec (tmp ++ [c])

/-- The end of the number branch: `*pos = 0` and the conversion of `tmp`. -/
def finish_number (tmp : Bytes) (dec neg : Bool) (i : Nat) : Except Fault (var × Nat) :=
  if tmp.length ≥ 128 then .error .buffer_overflow
  else if dec then (stod_numeral tmp).map (fun d => (var.FLOAT d, i))
  else if neg then (stoll tmp).map (fun v => (var.INT v, i))
  else (stoull tmp).map (fun v => (var.UINT v, i))

/-- The number branch of `parse_json_value`. -/
def parse_number (src : Bytes) (i : Nat) (first : Nat) : Except Fault (var × Nat) :=
  match number_loop (src.drop (i + 1)) (i + 1) false [first] with
  | .error f => .error f
  | .ok (.error r) => .ok r
  | .ok (.ok (tmp, dec, j)) => finish_number tmp dec (first = 45) j

/-- The loop `while (src[i] != quote) *pos++ = src[i++];` followed by `i++; *pos = 0;`, over
the bytes from position `i` on, for a buffer of `cap` bytes. At the end of `src` the
terminating zero is copied and the next read is out of bounds. -/
def scan_quoted (cap : Nat) : Bytes → Nat → Bytes → Except Fault (Bytes × Nat)
  | [], _, tmp => if tmp.length ≥ cap then .error .buffer_overflow else .error .bad_read
  | c :: rest, i, tmp =>
    if c = 34 then (if tmp.length ≥ cap then .error .buffer_overflow else .ok (tmp, i + 1))
    else if tmp.length ≥ cap then .error .buffer_overflow
    else scan_quoted cap rest (i + 1) (tmp ++ [c])

/-- The string branch of `parse_json_value`. -/
def parse_string (src : Bytes) (i : Nat) : Except Fault (var × Nat) :=
  match scan_quoted 256 (src.drop (i + 1)) (i + 1) [] with
  | .error f => .error f
  | .ok (tmp, j) => .ok (var.STR (c_str tmp), j)

/-- The matching loop of the literal branch: `expect` is what remains of `match` at `c`. -/
def match_literal : Bytes → Bytes → Nat → Nat → Except Fault (Except (var × Nat) Nat)
  | [], _, i, _ => .ok (.ok i)
  | m :: ms, src, i, start =>
    if i = src.length then
      .ok (.error (error (txt "unexpected token \x27" ++ [src.getD start 0]
        ++ txt "\x27 in primitive literal at position: " ++ to_string_nat start), i))
    else
      match char_at src i with
      | .error f => .error f
      | .ok c =>
        if c ≠ m then
          .ok (.error (error (txt "unexpected token \x27" ++ [ms.headD 0]
            ++ txt "\x27 in primitive literal at position: " ++ to_string_nat (i + 1)), i + 1))
        else match_literal ms src (i + 1) start

/-- The literal branch of `parse_json_value` for the word `first :: expect`. -/
def parse_literal (src : Bytes) (i : Nat) (expect : Bytes) (v : var) :
    Except Fault (var × Nat) :=
  match match_literal expect src (i + 1) i with
  | .error f => .error f
  | .ok (.error r) => .ok r
  | .ok (.ok j) => .ok (v, j)

mutual
/-- The routine `var::parse_json_value`. -/
def parse_json_value : Nat → Bytes → Nat → Except Fault (var × Nat)
  | 0, _, _ => .error .fuel
  | fuel + 1, src, i =>
    match char_at src i with
    | .error f => .error f
    | .ok first =>
      if (48 ≤ first ∧ first ≤ 57) ∨ first = 45 then parse_number src i first
      else if first = 34 then parse_string src i
      else if first = 123 then parse_json_object fuel src i
      else if first = 91 then parse_json_array fuel src i
      else if first = 116 then parse_literal src i (txt "rue") (.BOOL true)
      else if first = 102 then parse_literal src i (txt "alse") (.BOOL false)
      else if first = 110 then parse_literal src i (txt "ull") .NULL
      else .ok (error (txt "JSON: invalid token \x27" ++ [first] ++ txt "\x27 at position: "
        ++ to_string_nat i), i)
termination_by structural fuel _ _ => fuel
/-- The routine `var::parse_json_array`. -/
def parse_json_array : Nat → Bytes → Nat → Except Fault (var × Nat)
  | 0, _, _ => .error .fuel
  | fuel + 1, src, i =>
    match char_at src (i + 1) with
    | .error f => .error f
    | .ok c =>
      if c = 93 then .ok (.ARRAY [], i + 1)
      else parse_json_array_loop fuel src (i + 1) (.ARRAY []) 0
termination_by structural fuel _ _ => fuel
/-- The `while (new_elem)` loop of `parse_json_array` and the `i++` after it. -/
def parse_json_array_loop : Nat → Bytes → Nat → var → Nat → Except Fault (var × Nat)
  | 0, _, _, _, _ => .error .fuel
  | fuel + 1, src, i, arr, index =>
    match parse_json_value fuel src i with
    | .error f => .error f
    | .ok (v, j) =>
      match char_at src j with
      | .error f => .error f
      | .ok c =>
        if c = 44 then parse_json_array_loop fuel src (j + 1) (assign_nat arr index v) (index + 1)
        else .ok (assign_nat arr index v, j + 1)
termination_by structural fuel _ _ _ _ => fuel
/-- The routine `var::parse_json_object`. -/
def parse_json_object : Nat → Bytes → Nat → Except Fault (var × Nat)
  | 0, _, _ => .error .fuel
  | fuel + 1, src, i =>
    match char_at src (i + 1) with
    | .error f => .error f
    | .ok c =>
      if c = 125 then .ok (.MAP [], i + 1)
      else parse_json_object_loop fuel src (i + 1) (.MAP [])
termination_by structural fuel _ _ => fuel
/-- The `while (new_member)` loop of `parse_json_object`. -/
def parse_json_object_loop : Nat → Bytes → Nat → var → Except Fault (var × Nat)
  | 0, _, _, _ => .error .fuel
  | fuel + 1, src, i, obj =>
    match char_at src i with
    | .error f => .error f
    | .ok c =>
      if c ≠ 34 then
        .ok (error (txt "JSON: invalid label given for member at position: "
          ++ to_string_nat i), i)
      else
        match scan_quoted 128 (src.drop (i + 1)) (i + 1) [] with
        | .error f => .error f
        | .ok (label, j) =>
          if j = src.length then
            .ok (error (txt "JSON: stray string at position: " ++ to_string_nat j), j)
          else
            match char_at src j with
            | .error f => .error f
            | .ok colon =>
              if colon ≠ 58 then
                .ok (error (txt "JSON: stray string at position: " ++ to_string_nat j), j)
              else
                match parse_json_value fuel src (j + 1) with
                | .error f => .error f
                | .ok (m, k) =>
                  if m.is_error then .ok (m, k)
                  else
                    match char_at src k with
                    | .error f => .error f
                    | .ok c2 =>
                      if c2 ≠ 44 then
                        if c2 ≠ 125 then
                          .ok (error (txt "JSON: unexpected token \x27" ++ [c2]
                            ++ txt "\x27 at position: " ++ to_string_nat k), k)
                        else .ok (assign_str obj (c_str label) m, k)
                      else parse_json_object_loop fuel src (k + 1) (assign_str obj (c_str label) m)
termination_by structural fuel _ _ _ => fuel
end

/-- The routine `var::parse_json`: the sanitization pass, then `parse_json_value` on the
sanitized text from position 0. The fuel covers every call the descent can make on a text of
that length. -/
def parse_json (src : Bytes) : Except Fault var :=
  match sanitize src with
  | .error f => .error f
  | .ok (.error e) => .ok e
  | .ok (.ok src_mod) =>
    match parse_json_value (3 * src_mod.length + 3) src_mod 0 with
    | .error f => .error f
    | .ok (v, _) => .ok v

/-! ## The texts the structural parser is built for

`Json` lists the value texts whose parse ends with the cursor behind the text: the three
literals, numerals, string literals, and arrays of such texts. The claims about arrays,
objects and the round trip are stated over these trees. -/

/-- A value text, as a syntax tree. -/
inductive Json where
  | null
  | bool (b : Bool)
  /-- A run of digits. -/
  | uint (d : Bytes)
  /-- A minus sign and a run of digits. -/
  | nint (d : Bytes)
  /-- An optional minus sign, digits, a point, digits. -/
  | float (neg : Bool) (a b : Bytes)
  /-- A quote, the bytes of the string, a quote. -/
  | str (s : Bytes)
  /-- A bracket, the elements separated by commas, a bracket. -/
  | arr (xs : List Json)
deriving Repr

/-- A text between quotes that both passes of `parse_json` end at its closing quote and
that a buffer of `cap` bytes holds: no quote, no zero byte, no backslash at the end, fewer
than `cap` bytes. -/
def quotable (cap : Nat) (s : Bytes) : Bool :=
  s.all (fun c => c ≠ 34 && c ≠ 0) && (s.getLast? ≠ some 92) && (s.length < cap)

mutual
/-- The text of a tree, without white space. -/
def Json.render : Json → Bytes
  | .null => txt "null"
  | .bool b => if b then txt "true" else txt "false"
  | .uint d => d
  | .nint d => 45 :: d
  | .float neg a b => (if neg then [45] else []) ++ (a ++ 46 :: b)
  | .str s => 34 :: (s ++ [34])
  | .arr xs => 91 :: (Json.render_list xs ++ [93])
/-- The elements of an array text. -/
def Json.render_list : List Json → Bytes
  | [] => []
  | x :: xs => x.render ++ Json.render_tail xs
/-- The elements after the first, each behind its comma. -/
def Json.render_tail : List Json → Bytes
  | [] => []
  | x :: xs => 44 :: (x.render ++ Json.render_tail xs)
end

mutual
/-- The value a text stands for. -/
def Json.denote : Json → var
  | .null => .NULL
  | .bool b => .BOOL b
  | .uint d => .UINT (digits_value d)
  | .nint d => .INT (-(digits_value d : Int))
  | .float neg a b => .FLOAT { neg := neg, mant := digits_value (a ++ b), frac := b.length }
  | .str s => .STR s
  | .arr xs => .ARRAY (Json.denote_list xs)
/-- The values of a list of texts. -/
def Json.denote_list : List Json → List var
  | [] => []
  | x :: xs => x.denote :: Json.denote_list xs
end

mutual
/-- The texts in scope: numerals of at most 127 bytes, which fit the 128-byte buffer, and
within their integer type (a decimal has at least one digit and starts with a digit or the
minus sign), string literals that fit the 256-byte buffer and are `quotable`, and non-empty
arrays of texts in scope. -/
def Json.closed : Json → Bool
  | .null => true
  | .bool _ => true
  | .uint d => d ≠ [] && d.all isdigit && d.length ≤ 127 && digits_value d < 2 ^ 64
  | .nint d => d ≠ [] && d.all isdigit && d.length ≤ 126 && digits_value d ≤ 2 ^ 63
  | .float neg a b =>
    a.all isdigit && b.all isdigit && (neg || a ≠ []) && (a ≠ [] || b ≠ [])
      && a.length + b.length ≤ (if neg then 125 else 126)
  | .str s => quotable 256 s
  | .arr xs => !xs.isEmpty && Json.closed_list xs
/-- Every text of a list is in scope. -/
def Json.closed_list : List Json → Bool
  | [] => true
  | x :: xs => x.closed && Json.closed_list xs
end

mutual
/-- The bracket nesting of a text. -/
def Json.depth : Json → Nat
  | .arr xs => Json.depth_list xs + 1
  | _ => 0
/-- The deepest bracket nesting among the texts of a list. -/
def Json.depth_list : List Json → Nat
  | [] => 0
  | x :: xs => max x.depth (Json.depth_list xs)
end

/-- The members of an object text: each label between quotes, a colon, the value text,
with commas in between. -/
def render_members : List (Bytes × Json) → Bytes
  | [] => []
  | (k, x) :: ms =>
    34 :: (k ++ 34 :: 58 :: (x.render ++ (if ms.isEmpty then [] else 44 :: render_members ms)))

/-- The entries that the members of an object text stand for. -/
def denote_members : List (Bytes × Json) → List (Bytes × var)
  | [] => []
  | (k, x) :: ms => (k, x.denote) :: denote_members ms

/-! ## The value trees of the round trip -/

mutual
/-- The trees built from Null, Bool, UInt below `2 ^ 64`, negative Int from `-2 ^ 63` on, and
non-empty Arrays of such trees. -/
def var.closed : var → Bool
  | .NULL => true
  | .BOOL _ => true
  | .UINT u => u < 2 ^ 64
  | .INT i => -(2 ^ 63 : Int) ≤ i && i < 0
  | .ARRAY xs => !xs.isEmpty && var.closed_list xs
  | _ => false
/-- Every tree of a list is `closed`. -/
def var.closed_list : List var → Bool
  | [] => true
  | x :: xs => x.closed && var.closed_list xs
end

mutual
/-- The Array nesting of a tree. -/
def var.depth : var → Nat
  | .ARRAY xs => var.depth_list xs + 1
  | _ => 0
/-- The deepest Array nesting among the trees of a list. -/
def var.depth_list : List var → Nat
  | [] => 0
  | x :: xs => max x.depth (var.depth_list xs)
end

mutual
/-- The text, without white space, of a `closed` tree. -/
def var.syn : var → Json
  | .NULL => .null
  | .BOOL b => .bool b
  | .UINT u => .uint (to_string_nat u)
  | .INT i => .nint (to_string_nat i.natAbs)
  | .ARRAY xs => .arr (var.syn_list xs)
  | _ => .null
/-- The texts of a list of trees. -/
def var.syn_list : List var → List Json
  | [] => []
  | x :: xs => x.syn :: var.syn_list xs
end

/-- The entries of a Map in scope of the round trip: `quotable` keys that fit the 128-byte
label buffer, no key twice, `closed` values of Array nesting at most `d`. -/
def entries_ok (d : Nat) : List (Bytes × var) → Bool
  | [] => true
  | (k, v) :: es =>
    quotable 128 k && v.closed && v.depth ≤ d && es.all (fun e => e.1 ≠ k) && entries_ok d es

/-- The trees in scope of the round trip: a `closed` tree of Array nesting at most 127, the
empty Array, or a Map with `entries_ok 126`. -/
def var.round_trips : var → Bool
  | .ARRAY [] => true
  | .MAP m => entries_ok 126 m
  | v => v.closed && v.depth ≤ 127

/-- The members of an object text in scope: labels that are `quotable` in the 128-byte
label buffer, no label twice, value texts in scope with bracket nesting at most 126. -/
def members_ok : List (Bytes × Json) → Bool
  | [] => true
  | (k, x) :: ms =>
    quotable 128 k && x.closed && x.depth ≤ 126 && ms.all (fun e => e.1 ≠ k) && members_ok ms

/-- The text of one member: the label between quotes, a colon, the value text. -/
def render_member (m : Bytes × Json) : Bytes := 34 :: (m.1 ++ 34 :: 58 :: m.2.render)

/-! ## Termination of the descent -/

/-- A result of a parser routine entered at position `i`: the fuel did not run out, and a
returned cursor is not before `i`. -/
def advances (i : Nat) (r : Except Fault (var × Nat)) : Prop :=
  r ≠ .error .fuel ∧ ∀ v j, r = .ok (v, j) → i ≤ j


/-! ## The brackets of a text, as the sanitization pass is described -/

mutual
/-- The bracket bytes of a text that stand outside its string literals, in order. A string
literal runs from a quote to the next quote that does not follow a backslash byte. -/
def brackets_outside : Bytes → List Nat
  | [] => []
  | c :: rest =>
    if c = 34 then brackets_inside rest c
    else if c = 91 ∨ c = 93 ∨ c = 123 ∨ c = 125 then c :: brackets_outside rest
    else brackets_outside rest
/-- The same from a position inside a string literal, `prev` being the byte before. -/
def brackets_inside : Bytes → Nat → List Nat
  | [], _ => []
  | c :: rest, prev =>
    if c = 34 ∧ prev ≠ 92 then brackets_outside rest else brackets_inside rest c
end

mutual
/-- Whether a text ends inside a string literal, that is, some literal is never closed. -/
def ends_in_literal : Bytes → Bool
  | [] => false
  | c :: rest => if c = 34 then ends_inside rest c else ends_in_literal rest
/-- The same from a position inside a string literal, `prev` being the byte before. -/
def ends_inside : Bytes → Nat → Bool
  | [], _ => true
  | c :: rest, prev =>
    if c = 34 ∧ prev ≠ 92 then ends_in_literal rest else ends_inside rest c
end

/-- The properly nested and matched sequences of the brackets `[`, `]`, `{`, `}`. -/
inductive Balanced : List Nat → Prop
  | nil : Balanced []
  | square {w : List Nat} : Balanced w → Balanced (91 :: (w ++ [93]))
  | curly {w : List Nat} : Balanced w → Balanced (123 :: (w ++ [125]))
  | append {u w : List Nat} : Balanced u → Balanced w → Balanced (u ++ w)

/-- A bracket sequence read at nesting depth `d` keeps its nesting below 128 and has no
closing bracket at depth 0. -/
def nesting_within : List Nat → Nat → Bool
  | [], _ => true
  | c :: bs, d =>
    if c = 91 ∨ c = 123 then decide (d + 1 < 128) && nesting_within bs (d + 1)
    else decide (1 ≤ d) && nesting_within bs (d - 1)

/-- The stack of expected closing brackets (top first) after a bracket sequence was read on
the stack `st`; `none` when a closing bracket meets another bracket or no bracket. -/
def match_brackets : List Nat → List Nat → Option (List Nat)
  | [], st => some st
  | c :: bs, st =>
    if c = 91 then match_brackets bs (93 :: st)
    else if c = 123 then match_brackets bs (125 :: st)
    else
      match st with
      | [] => none
      | top :: below => if top = c then match_brackets bs below else none

/-- What a result of the scan says about the text read: it is no fault; it is an Error value
only when the text ends inside a literal or a closing bracket does not match; and the stack
it leaves is the one the brackets of the text leave. -/
def scan_meets (r : Pass) (unclosed : Bool) (m : Option (List Nat)) : Prop :=
  match r with
  | .error _ => False
  | .ok (.error e) => e.is_error = true ∧ (unclosed = true ∨ m = none)
  | .ok (.ok (_, st)) => unclosed = false ∧ m = some st

/-- The members of an object text whose labels are `quotable` in the 128-byte label buffer
and whose value texts are in scope with bracket nesting at most 126; a label may come
twice. -/
def members_fit : List (Bytes × Json) → Bool
  | [] => true
  | (k, x) :: ms => quotable 128 k && x.closed && decide (x.depth ≤ 126) && members_fit ms

/-! ## The rendering of a Map, as it is described -/

/-- The text with one tab inserted after every newline it contains. -/
def tab_after_newlines (s : Bytes) : Bytes :=
  s.flatMap (fun c => if c = 10 then [10, 9] else [c])

/-- The text as it stands under `d` enclosing Maps: a tab after every newline, `d` times. -/
def nested (d : Nat) (s : Bytes) : Bytes := Nat.iterate tab_after_newlines d s

/-- The line of one entry of a Map that lies under `d` enclosing Maps: `d + 1` tabs, the key
in double quotes, a colon and a blank, the text of the value, a comma unless the entry is
the last one, and a newline. -/
def entry_line (d : Nat) (key value_text : Bytes) (last : Bool) : Bytes :=
  List.replicate (d + 1) 9 ++ [34] ++ nested d key ++ [34] ++ txt ": "
    ++ nested (d + 1) value_text ++ (if last then [] else txt ",") ++ [10]

/-- The lines of the entries of a Map, given as keys with the texts of their values, in
order. -/
def entry_lines (d : Nat) : List (Bytes × Bytes) → Bytes
  | [] => []
  | e :: es => entry_line d e.1 e.2 es.isEmpty ++ entry_lines d es

/-- The text of a Map that lies under `d` enclosing Maps: an opening brace and a newline,
the lines of the entries, `d` tabs and the closing brace. -/
def map_text (d : Nat) (es : List (Bytes × Bytes)) : Bytes :=
  txt "\x7b" ++ [10] ++ entry_lines d es ++ List.replicate d 9 ++ txt "\x7d"

/-! ## The heap objects behind a value

The payload of a String, Error, Array or Map is an object made by `new` and held through a
pointer in `_data`. Every such pointer is stored in one `var` object, so the memory that a
variable reaches is a tree of heap objects; it is drawn here with the address of each
object. Two variables share an object when its address occurs in both. -/

/-- A `var` object with the heap objects it reaches: `p` is the address held in `_data`. -/
inductive Node where
  | NULL : Node
  | ERROR (p : Nat) (msg : Bytes) : Node
  | INT (i : Int) : Node
  | UINT (u : Nat) : Node
  | FLOAT (d : Double) : Node
  | CHAR (c : Nat) : Node
  | BOOL (b : Bool) : Node
  | STR (p : Nat) (s : Bytes) : Node
  | ARRAY (p : Nat) (xs : List Node) : Node
  | MAP (p : Nat) (m : List (Bytes × Node)) : Node

mutual
/-- The value that a `var` object stands for. -/
def Node.value : Node → var
  | .NULL => .NULL
  | .ERROR _ msg => .ERROR msg
  | .INT i => .INT i
  | .UINT u => .UINT u
  | .FLOAT d => .FLOAT d
  | .CHAR c => .CHAR c
  | .BOOL b => .BOOL b
  | .STR _ s => .STR s
  | .ARRAY _ xs => .ARRAY (Node.values xs)
  | .MAP _ m => .MAP (Node.entries m)
/-- The values of the elements of a vector. -/
def Node.values : List Node → List var
  | [] => []
  | x :: xs => x.value :: Node.values xs
/-- The values of the entries of a map. -/
def Node.entries : List (Bytes × Node) → List (Bytes × var)
  | [] => []
  | (k, x) :: m => (k, x.value) :: Node.entries m
end

mutual
/-- The addresses of the heap objects that a `var` object reaches. -/
def Node.addrs : Node → List Nat
  | .ERROR p _ => [p]
  | .STR p _ => [p]
  | .ARRAY p xs => p :: Node.addrs_list xs
  | .MAP p m => p :: Node.addrs_entries m
  | _ => []
/-- The addresses reached from the elements of a vector. -/
def Node.addrs_list : List Node → List Nat
  | [] => []
  | x :: xs => x.addrs ++ Node.addrs_list xs
/-- The addresses reached from the entries of a map. -/
def Node.addrs_entries : List (Bytes × Node) → List Nat
  | [] => []
  | (_, x) :: m => x.addrs ++ Node.addrs_entries m
end

mutual
/-- The assignment `*this = other` of `var::operator=`, which the copy constructor runs as
well: what `*this` holds afterwards, and the next free address. `next` is the address that
the next `new` returns. A vector or map is copied element by element, each element through
the copy constructor. -/
def copy : Node → Nat → Node × Nat
  | .ARRAY _ xs, next => (.ARRAY next (copy_list xs (next + 1)).1, (copy_list xs (next + 1)).2)
  | .MAP _ m, next => (.MAP next (copy_entries m (next + 1)).1, (copy_entries m (next + 1)).2)
  | .ERROR _ msg, next => (.ERROR next msg, next + 1)
  | .STR _ s, next => (.STR next s, next + 1)
  | .NULL, next => (.NULL, next)
  | .INT i, next => (.INT i, next)
  | .UINT u, next => (.UINT u, next)
  | .FLOAT d, next => (.FLOAT d, next)
  | .CHAR c, next => (.CHAR c, next)
  | .BOOL b, next => (.BOOL b, next)
/-- The copy of the elements of a vector. -/
def copy_list : List Node → Nat → List Node × Nat
  | [], next => ([], next)
  | x :: xs, next =>
    ((copy x next).1 :: (copy_list xs (copy x next).2).1, (copy_list xs (copy x next).2).2)
/-- The copy of the entries of a map. -/
def copy_entries : List (Bytes × Node) → Nat → List (Bytes × Node) × Nat
  | [], next => ([], next)
  | (k, x) :: m, next =>
    ((k, (copy x next).1) :: (copy_entries m (copy x next).2).1,
      (copy_entries m (copy x next).2).2)
end

/-- The element of a map object under a key, if any. -/
def slot_find : List (Bytes × Node) → Bytes → Option Node
  | [], _ => none
  | (k, x) :: m, key => if k = key then some x else slot_find m key

/-- The map object after the `var` object under `key` was replaced by `x`, or added. -/
def slot_assign : List (Bytes × Node) → Bytes → Node → List (Bytes × Node)
  | [], key, x => [(key, x)]
  | (k, y) :: m, key, x => if k = key then (k, x) :: m else (k, y) :: slot_assign m key x

/-- The map object after `m[key]` was evaluated: a missing key is added with a Null. -/
def slot_touch (m : List (Bytes × Node)) (key : Bytes) : List (Bytes × Node) :=
  match slot_find m key with
  | some _ => m
  | none => m ++ [(key, Node.NULL)]

/-- The vector object after `resize(n)`: cut down to `n` elements, or filled up with Null
objects. Where the vector carries its elements over into new storage it does so by their
copy constructor; they are drawn as staying where they are, with the same values. -/
def resize_nodes (xs : List Node) (n : Nat) : List Node :=
  xs.take n ++ List.replicate (n - xs.length) Node.NULL

/-- The loop of `operator[](const std::string&)` for an Array: element `i` is assigned, by
`operator=`, to the entry of the new map under the decimal text of `i`. -/
def rekey_nodes : List Node → Nat → List (Bytes × Node) → Nat → List (Bytes × Node) × Nat
  | [], _, m, next => (m, next)
  | x :: xs, i, m, next =>
    rekey_nodes xs (i + 1) (slot_assign m (to_string_nat i) (copy x next).1) (copy x next).2

/-- The `var` object after `operator[](size_t)` was applied to it, and the next free
address. The sum `i + 1` is computed in `size_t` (`size_succ`). -/
def Node.subscript_nat (x : Node) (i : Nat) (next : Nat) : Node × Nat :=
  match x with
  | .ARRAY p xs => (.ARRAY p (if i ≥ xs.length then resize_nodes xs (size_succ i) else xs), next)
  | .MAP p m => (.MAP p (slot_touch m (to_string_nat i)), next)
  | _ => (.ARRAY next (List.replicate (size_succ i) Node.NULL), next + 1)

/-- The `var` object after `operator[](const std::string&)` was applied to it, and the next
free address. -/
def Node.subscript_str (x : Node) (key : Bytes) (next : Nat) : Node × Nat :=
  match x with
  | .ARRAY _ xs =>
    (.MAP next (slot_touch (rekey_nodes xs 0 [] (next + 1)).1 key),
      (rekey_nodes xs 0 [] (next + 1)).2)
  | .MAP p m => (.MAP p (slot_touch m key), next)
  | _ => (.MAP next (slot_touch [] key), next + 1)

/-- An index of a statement `b[...]...[...]`: an integer of type `size_t` or a string. -/
inductive Index where
  | nat (i : Nat) : Index
  | key (k : Bytes) : Index

/-- What a statement does with the `var` object that its indexes lead to: nothing more, or
the assignment of another `var` object. -/
inductive Action where
  | touch : Action
  | assign (src : Node) : Action

/-- The statement `x[i1]...[in]` or `x[i1]...[in] = src` run on the `var` object `x`: each
index applies its operator to the object reached so far and leads to one of its slots; the
result is `x` afterwards and the next free address. There is no result when an integer
index operator returns `(*_data._array)[i]` for an `i` that is no index of the vector: the
reference lies outside the heap objects of `x`. -/
def exec : List Index → Action → Node → Nat → Option (Node × Nat)
  | [], .touch, x, next => some (x, next)
  | [], .assign src, _, next => some (copy src next)
  | .nat i :: rest, act, x, next =>
    match x.subscript_nat i next with
    | (.ARRAY p xs, n) =>
      match xs[i]? with
      | none => none
      | some y =>
        match exec rest act y n with
        | none => none
        | some r => some (.ARRAY p (xs.set i r.1), r.2)
    | (.MAP p m, n) =>
      match exec rest act ((slot_find m (to_string_nat i)).getD .NULL) n with
      | none => none
      | some r => some (.MAP p (slot_assign m (to_string_nat i) r.1), r.2)
    | r => some r
  | .key k :: rest, act, x, next =>
    match x.subscript_str k next with
    | (.MAP p m, n) =>
      match exec rest act ((slot_find m k).getD .NULL) n with
      | none => none
      | some r => some (.MAP p (slot_assign m k r.1), r.2)
    | r => some r

mutual
/-- The heap object at address `p` as the variable reaches it, if it does. -/
def Node.find (p : Nat) : Node → Option Node
  | .ERROR q msg => if q = p then some (.ERROR q msg) else none
  | .STR q s => if q = p then some (.STR q s) else none
  | .ARRAY q xs => if q = p then some (.ARRAY q xs) else Node.find_list p xs
  | .MAP q m => if q = p then some (.MAP q m) else Node.find_entries p m
  | _ => none
/-- The same among the elements of a vector. -/
def Node.find_list (p : Nat) : List Node → Option Node
  | [] => none
  | x :: xs => (Node.find p x).orElse (fun _ => Node.find_list p xs)
/-- The same among the entries of a map. -/
def Node.find_entries (p : Nat) : List (Bytes × Node) → Option Node
  | [] => none
  | (_, x) :: m => (Node.find p x).orElse (fun _ => Node.find_entries p m)
end

mutual
/-- A variable as it is seen after a statement ran on the variable `b`: a heap object that
`b` reaches as well is what `b` holds there, every other object is as it was. -/
def Node.sync (b : Node) : Node → Node
  | .ERROR p msg => (b.find p).getD (.ERROR p msg)
  | .STR p s => (b.find p).getD (.STR p s)
  | .ARRAY p xs => (b.find p).getD (.ARRAY p (Node.sync_list b xs))
  | .MAP p m => (b.find p).getD (.MAP p (Node.sync_entries b m))
  | .NULL => .NULL
  | .INT i => .INT i
  | .UINT u => .UINT u
  | .FLOAT d => .FLOAT d
  | .CHAR c => .CHAR c
  | .BOOL v => .BOOL v
/-- The same for the elements of a vector. -/
def Node.sync_list (b : Node) : List Node → List Node
  | [] => []
  | x :: xs => Node.sync b x :: Node.sync_list b xs
/-- The same for the entries of a map. -/
def Node.sync_entries (b : Node) : List (Bytes × Node) → List (Bytes × Node)
  | [] => []
  | (k, x) :: m => (k, Node.sync b x) :: Node.sync_entries b m
end

/-- Two variables `a` and `b` and the next free address. -/
structure Vars where
  next : Nat
  a : Node
  b : Node

/-- One statement on the variable `b`; the variable `a` sees the heap as it is left. -/
def step (s : Vars) (stmt : List Index × Action) : Option Vars :=
  match exec stmt.1 stmt.2 s.b s.next with
  | none => none
  | some r => some (Vars.mk r.2 (Node.sync r.1 s.a) r.1)

/-- A sequence of statements on the variable `b`. -/
def run : List (List Index × Action) → Vars → Option Vars
  | [], s => some s
  | stmt :: rest, s =>
    match step s stmt with
    | none => none
    | some s1 => run rest s1

/-- Every heap object that the `var` object reaches has its address from `lo` on and below
`hi`. -/
def Node.within (x : Node) (lo hi : Nat) : Prop := ∀ p ∈ x.addrs, lo ≤ p ∧ p < hi
/-! ## The sanitization pass -/

theorem emit_ok {c : Nat} {r : Pass} {out : Bytes} {st : List Nat}
    (h : emit c r = .ok (.ok (out, st))) :
    ∃ tl, out = c :: tl ∧ r = .ok (.ok (tl, st)) := by
  match r, h with
  | .ok (.ok (o, s)), h =>
    simp only [emit, Except.ok.injEq, Prod.mk.injEq] at h
    exact ⟨o, h.1.symm, by rw [h.2]⟩

theorem emit_of_ok (c : Nat) (tl : Bytes) (st : List Nat) :
    emit c (.ok (.ok (tl, st))) = .ok (.ok (c :: tl, st)) := rfl

theorem sanitize_loop_cons (c : Nat) (rest : Bytes) (i : Nat) (st : List Nat) :
    sanitize_loop (c :: rest) i st =
      if below33 c then sanitize_loop rest (i + 1) st
      else if c = 34 then emit c (sanitize_string rest (i + 1) c st)
      else if c = 91 then
        (if st.length ≥ 127 then .error .buffer_overflow
         else emit c (sanitize_loop rest (i + 1) (93 :: st)))
      else if c = 123 then
        (if st.length ≥ 127 then .error .buffer_overflow
         else emit c (sanitize_loop rest (i + 1) (125 :: st)))
      else if c = 93 ∨ c = 125 then
        match st with
        | [] => .error .uninit_read
        | top :: below =>
          if top = c then emit c (sanitize_loop rest (i + 1) below)
          else .ok (.error (error (txt "JSON: stray \x27" ++ [c] ++ txt "\x27 at position: "
            ++ to_string_nat i)))
      else emit c (sanitize_loop rest (i + 1) st) := by
  rw [sanitize_loop.eq_def]

theorem sanitize_string_cons (c : Nat) (rest : Bytes) (i prev : Nat) (st : List Nat) :
    sanitize_string (c :: rest) i prev st =
      if c = 34 ∧ prev ≠ 92 then emit c (sanitize_loop rest (i + 1) st)
      else emit c (sanitize_string rest (i + 1) c st) := by
  rw [sanitize_string.eq_def]

/-- Scanning the output of a scan reproduces it, outside and inside a string literal. -/
theorem sanitize_rescan (rest : Bytes) :
    (∀ i st out st', sanitize_loop rest i st = .ok (.ok (out, st')) →
      ∀ j, sanitize_loop out j st = .ok (.ok (out, st'))) ∧
    (∀ i prev st out st', sanitize_string rest i prev st = .ok (.ok (out, st')) →
      ∀ j, sanitize_string out j prev st = .ok (.ok (out, st'))) := by
  induction rest with
  | nil =>
    refine ⟨fun i st out st' h j => ?_, fun i prev st out st' h j => ?_⟩
    · simp only [sanitize_loop, Except.ok.injEq, Prod.mk.injEq] at h
      obtain ⟨rfl, rfl⟩ := h
      simp [sanitize_loop]
    · simp [sanitize_string] at h
  | cons c rest ih =>
    obtain ⟨ihL, ihS⟩ := ih
    refine ⟨fun i st out st' h j => ?_, fun i prev st out st' h j => ?_⟩
    · rw [sanitize_loop_cons] at h
      by_cases hw : below33 c = true
      · rw [if_pos hw] at h
        exact ihL _ _ _ _ h j
      rw [if_neg hw] at h
      by_cases hq : c = 34
      · rw [if_pos hq] at h
        obtain ⟨tl, rfl, htl⟩ := emit_ok h
        rw [sanitize_loop_cons, if_neg hw, if_pos hq, ihS _ _ _ _ _ htl (j + 1)]
        rfl
      rw [if_neg hq] at h
      by_cases hb : c = 91
      · rw [if_pos hb] at h
        by_cases hd : st.length ≥ 127
        · rw [if_pos hd] at h; cases h
        rw [if_neg hd] at h
        obtain ⟨tl, rfl, htl⟩ := emit_ok h
        rw [sanitize_loop_cons, if_neg hw, if_neg hq, if_pos hb, if_neg hd, ihL _ _ _ _ htl (j + 1)]
        rfl
      rw [if_neg hb] at h
      by_cases hc : c = 123
      · rw [if_pos hc] at h
        by_cases hd : st.length ≥ 127
        · rw [if_pos hd] at h; cases h
        rw [if_neg hd] at h
        obtain ⟨tl, rfl, htl⟩ := emit_ok h
        rw [sanitize_loop_cons, if_neg hw, if_neg hq, if_neg hb, if_pos hc, if_neg hd,
          ihL _ _ _ _ htl (j + 1)]
        rfl
      rw [if_neg hc] at h
      by_cases he : c = 93 ∨ c = 125
      · rw [if_pos he] at h
        match st, h with
        | top :: below, h =>
          simp only at h
          by_cases ht : top = c
          · rw [if_pos ht] at h
            obtain ⟨tl, rfl, htl⟩ := emit_ok h
            rw [sanitize_loop_cons, if_neg hw, if_neg hq, if_neg hb, if_neg hc, if_pos he]
            simp only
            rw [if_pos ht, ihL _ _ _ _ htl (j + 1)]
            rfl
          · rw [if_neg ht] at h; cases h
      rw [if_neg he] at h
      obtain ⟨tl, rfl, htl⟩ := emit_ok h
      rw [sanitize_loop_cons, if_neg hw, if_neg hq, if_neg hb, if_neg hc, if_neg he,
        ihL _ _ _ _ htl (j + 1)]
      rfl
    · rw [sanitize_string_cons] at h
      by_cases hq : c = 34 ∧ prev ≠ 92
      · rw [if_pos hq] at h
        obtain ⟨tl, rfl, htl⟩ := emit_ok h
        rw [sanitize_string_cons, if_pos hq, ihL _ _ _ _ htl (j + 1)]
        rfl
      · rw [if_neg hq] at h
        obtain ⟨tl, rfl, htl⟩ := emit_ok h
        rw [sanitize_string_cons, if_neg hq, ihS _ _ _ _ _ htl (j + 1)]
        rfl

/-- What a successful pass says about the scan. -/
theorem sanitize_ok_iff (src t : Bytes) :
    sanitize src = .ok (.ok t) ↔ sanitize_loop src 0 [] = .ok (.ok (t, [])) ∧ t ≠ [] := by
  unfold sanitize
  constructor
  · intro h
    split at h
    · cases h
    · cases h
    · rename_i src_mod st heq
      split at h
      · cases h
      · split at h
        · simp only [Except.ok.injEq] at h
          subst h
          exact ⟨heq, by assumption⟩
        · cases h
  · rintro ⟨h, hne⟩
    rw [h]
    simp [hne]

/-- A run of bytes that are neither dropped nor special is copied by the scan. -/
theorem sanitize_loop_plain (t : Bytes)
    (ht : ∀ c ∈ t, below33 c = false ∧ c ≠ 34 ∧ c ≠ 91 ∧ c ≠ 93 ∧ c ≠ 123 ∧ c ≠ 125)
    (rest : Bytes) (i : Nat) (st : List Nat) (out : Bytes) (st' : List Nat)
    (h : sanitize_loop rest (i + t.length) st = .ok (.ok (out, st'))) :
    sanitize_loop (t ++ rest) i st = .ok (.ok (t ++ out, st')) := by
  induction t generalizing i with
  | nil => simpa using h
  | cons c t ih =>
    obtain ⟨h1, h2, h3, h4, h5, h6⟩ := ht c (List.mem_cons_self _ _)
    have hrec := ih (fun x hx => ht x (List.mem_cons_of_mem _ hx)) (i + 1)
      (by rw [← h]; congr 1; simp only [List.length_cons]; omega)
    rw [List.cons_append, sanitize_loop_cons, h1]
    simp only [Bool.false_eq_true, if_false, if_neg h2, if_neg h3, if_neg h5,
      if_neg (not_or.mpr ⟨h4, h6⟩)]
    rw [hrec]
    rfl

/-- Inside a string literal the scan copies up to the closing quote, which is the first
quote when the literal holds none and its last byte is not a backslash. -/
theorem sanitize_string_body (s : Bytes) (hs : ∀ c ∈ s, c ≠ 34)
    (rest : Bytes) (i prev : Nat) (st : List Nat) (out : Bytes) (st' : List Nat)
    (hl : (prev :: s).getLast? ≠ some 92)
    (h : sanitize_loop rest (i + s.length + 1) st = .ok (.ok (out, st'))) :
    sanitize_string (s ++ 34 :: rest) i prev st = .ok (.ok (s ++ 34 :: out, st')) := by
  induction s generalizing i prev with
  | nil =>
    have hp : prev ≠ 92 := by simpa using hl
    rw [List.nil_append, sanitize_string_cons, if_pos ⟨rfl, hp⟩]
    simp only [List.length_nil, Nat.add_zero] at h
    rw [h]
    rfl
  | cons c s ih =>
    have hc : c ≠ 34 := hs c (List.mem_cons_self _ _)
    have hrec := ih (fun x hx => hs x (List.mem_cons_of_mem _ hx)) (i + 1) c
      (by simpa [List.getLast?_cons_cons] using hl)
      (by rw [← h]; congr 1; simp only [List.length_cons]; omega)
    rw [List.cons_append, sanitize_string_cons, if_neg (fun hq => hc hq.1), hrec]
    rfl

/-! ## The scanning loops of the structural parser -/

theorem char_at_of_drop {src : Bytes} {i c : Nat} {r : Bytes} (h : src.drop i = c :: r) :
    char_at src i = .ok c := by
  have : src[i]? = some c := by
    have := congrArg List.head? h
    simpa [List.head?_drop] using this
  simp [char_at, this]

theorem drop_succ_of_drop {src : Bytes} {i c : Nat} {r : Bytes} (h : src.drop i = c :: r) :
    src.drop (i + 1) = r := by
  have := congrArg List.tail h
  simpa [List.tail_drop] using this

theorem drop_add_of_drop {src : Bytes} {i : Nat} (t r : Bytes) (h : src.drop i = t ++ r) :
    src.drop (i + t.length) = r := by
  rw [← List.drop_drop, h, List.drop_left]

theorem length_of_drop_nil_cons {src : Bytes} {i c : Nat} {r : Bytes} (h : src.drop i = c :: r) :
    i < src.length := by
  by_contra hge
  rw [List.drop_eq_nil_of_le (by omega)] at h
  cases h

theorem isdigit_iff (c : Nat) : isdigit c = true ↔ 48 ≤ c ∧ c ≤ 57 := by
  simp [isdigit]

/-- The number loop takes a run of digits into `tmp`. -/
theorem number_loop_digits (ds : Bytes) (hd : ∀ c ∈ ds, isdigit c = true)
    (rest : Bytes) (i : Nat) (dec : Bool) (tmp : Bytes) (hlen : tmp.length + ds.length ≤ 128) :
    number_loop (ds ++ rest) i dec tmp = number_loop rest (i + ds.length) dec (tmp ++ ds) := by
  induction ds generalizing i tmp with
  | nil => simp
  | cons c ds ih =>
    have hc := (isdigit_iff c).mp (hd c (List.mem_cons_self _ _))
    simp only [List.length_cons] at hlen
    rw [List.cons_append, number_loop, if_neg (by omega), if_neg (by omega), if_neg (by omega),
      ih (fun x hx => hd x (List.mem_cons_of_mem _ hx)) (i + 1) (tmp ++ [c])
        (by simp only [List.length_append, List.length_singleton]; omega)]
    simp only [List.length_cons, List.append_assoc, List.singleton_append]
    congr 1
    omega

/-- The quoted scan copies the bytes before the first quote and steps over it. -/
theorem scan_quoted_body (cap : Nat) (s : Bytes) (hs : ∀ c ∈ s, c ≠ 34)
    (rest : Bytes) (i : Nat) (tmp : Bytes) (hlen : tmp.length + s.length < cap) :
    scan_quoted cap (s ++ 34 :: rest) i tmp = .ok (tmp ++ s, i + s.length + 1) := by
  induction s generalizing i tmp with
  | nil =>
    simp only [List.length_nil, Nat.add_zero] at hlen
    simp [scan_quoted, Nat.not_le.mpr hlen]
  | cons c s ih =>
    have hc : c ≠ 34 := hs c (List.mem_cons_self _ _)
    simp only [List.length_cons] at hlen
    rw [List.cons_append, scan_quoted, if_neg hc, if_neg (by omega),
      ih (fun x hx => hs x (List.mem_cons_of_mem _ hx)) (i + 1) (tmp ++ [c])
        (by simp only [List.length_append, List.length_singleton]; omega)]
    simp only [List.length_cons, List.append_assoc, List.singleton_append]
    congr 2
    omega

theorem c_str_of_no_zero (s : Bytes) (hs : ∀ c ∈ s, c ≠ 0) : c_str s = s := by
  unfold c_str
  rw [List.takeWhile_eq_self_iff]
  intro c hc
  simpa using hs c hc

theorem not_isspace_of_isdigit {c : Nat} (h : isdigit c = true) : isspace c = false := by
  have := (isdigit_iff c).mp h
  simp only [isspace, Bool.or_eq_false_iff, decide_eq_false_iff_not, Bool.and_eq_false_imp,
    decide_eq_true_eq]
  omega

theorem takeWhile_isdigit_self (ds : Bytes) (hd : ∀ c ∈ ds, isdigit c = true) :
    ds.takeWhile isdigit = ds := by
  rw [List.takeWhile_eq_self_iff]
  exact hd

theorem strto_split_digits (ds : Bytes) (hne : ds ≠ []) (hd : ∀ c ∈ ds, isdigit c = true) :
    strto_split ds = (false, ds) := by
  match ds, hne, hd with
  | c :: r, _, hd =>
    have hc := hd c (List.mem_cons_self _ _)
    have h1 := (isdigit_iff c).mp hc
    have hsp := not_isspace_of_isdigit hc
    unfold strto_split
    rw [List.dropWhile_cons_of_neg (by simp [hsp])]
    simp only
    rw [if_neg (by omega), if_neg (by omega), takeWhile_isdigit_self _ hd]

theorem strto_split_minus (ds : Bytes) (hd : ∀ c ∈ ds, isdigit c = true) :
    strto_split (45 :: ds) = (true, ds) := by
  unfold strto_split
  rw [List.dropWhile_cons_of_neg (by decide)]
  simp only [if_true, takeWhile_isdigit_self _ hd]

theorem stoull_digits (ds : Bytes) (hne : ds ≠ []) (hd : ∀ c ∈ ds, isdigit c = true)
    (hv : digits_value ds < 2 ^ 64) : stoull ds = .ok (digits_value ds) := by
  unfold stoull
  simp only [strto_split_digits ds hne hd, if_neg hne, if_pos hv]
  rfl

theorem stoll_minus_digits (ds : Bytes) (hne : ds ≠ []) (hd : ∀ c ∈ ds, isdigit c = true)
    (hv : digits_value ds ≤ 2 ^ 63) : stoll (45 :: ds) = .ok (-(digits_value ds : Int)) := by
  unfold stoll
  simp only [strto_split_minus ds hd, if_neg hne, if_pos hv]
  rfl

/-- The number loop stops, without consuming, at the end of the text and at a byte that is
neither a digit nor the point. -/
theorem number_loop_stop (rest : Bytes) (i : Nat) (dec : Bool) (tmp : Bytes)
    (hstop : ∀ c r, rest = c :: r → c ≠ 46 ∧ isdigit c = false) :
    number_loop rest i dec tmp = .ok (.ok (tmp, dec, i)) := by
  match rest, hstop with
  | [], _ => rfl
  | c :: r, hstop =>
    obtain ⟨h1, h2⟩ := hstop c r rfl
    have h3 : c < 48 ∨ c > 57 := by
      by_contra hcon
      have : isdigit c = true := (isdigit_iff c).mpr (by omega)
      rw [this] at h2
      cases h2
    rw [number_loop, if_neg h1, if_pos h3]

/-- The number branch on a text of digits after its first byte. -/
theorem parse_number_digits {src : Bytes} {i first : Nat} (ds rest : Bytes)
    (hsrc : src.drop i = first :: (ds ++ rest)) (hd : ∀ c ∈ ds, isdigit c = true)
    (hstop : ∀ c r, rest = c :: r → c ≠ 46 ∧ isdigit c = false) (hlen : ds.length ≤ 126) :
    parse_number src i first
      = finish_number (first :: ds) false (first = 45) (i + 1 + ds.length) := by
  unfold parse_number
  rw [drop_succ_of_drop hsrc, number_loop_digits ds hd rest (i + 1) false [first]
    (by simp only [List.length_singleton]; omega), number_loop_stop _ _ _ _ hstop]
  rfl

theorem parse_json_value_succ (fuel : Nat) (src : Bytes) (i : Nat) :
    parse_json_value (fuel + 1) src i =
      match char_at src i with
      | .error f => .error f
      | .ok first =>
        if (48 ≤ first ∧ first ≤ 57) ∨ first = 45 then parse_number src i first
        else if first = 34 then parse_string src i
        else if first = 123 then parse_json_object fuel src i
        else if first = 91 then parse_json_array fuel src i
        else if first = 116 then parse_literal src i (txt "rue") (.BOOL true)
        else if first = 102 then parse_literal src i (txt "alse") (.BOOL false)
        else if first = 110 then parse_literal src i (txt "ull") .NULL
        else .ok (error (txt "JSON: invalid token \x27" ++ [first] ++ txt "\x27 at position: "
          ++ to_string_nat i), i) := by
  rw [parse_json_value]

/-- The value routine at a digit or a minus sign runs the number branch. -/
theorem parse_json_value_number {src : Bytes} {i first : Nat} {r : Bytes} (fuel : Nat)
    (hsrc : src.drop i = first :: r) (hf : isdigit first = true ∨ first = 45) :
    parse_json_value (fuel + 1) src i = parse_number src i first := by
  have hf' : (48 ≤ first ∧ first ≤ 57) ∨ first = 45 := by
    rcases hf with h | h
    · exact Or.inl ((isdigit_iff first).mp h)
    · exact Or.inr h
  rw [parse_json_value_succ, char_at_of_drop hsrc]
  simp only [if_pos hf']

/-- The value routine at a quote runs the string branch. -/
theorem parse_json_value_string {src : Bytes} {i : Nat} {r : Bytes} (fuel : Nat)
    (hsrc : src.drop i = 34 :: r) :
    parse_json_value (fuel + 1) src i = parse_string src i := by
  rw [parse_json_value_succ, char_at_of_drop hsrc]
  simp

/-- The string branch on a literal that holds no quote and fits the buffer. -/
theorem parse_string_body {src : Bytes} {i : Nat} (s rest : Bytes)
    (hsrc : src.drop i = 34 :: (s ++ 34 :: rest)) (hs : ∀ c ∈ s, c ≠ 34)
    (hlen : s.length ≤ 255) :
    parse_string src i = .ok (.STR (c_str s), i + s.length + 2) := by
  unfold parse_string
  rw [drop_succ_of_drop hsrc, scan_quoted_body 256 s hs rest (i + 1) []
    (by simp only [List.length_nil]; omega)]
  simp only [List.nil_append]
  rw [show i + 1 + s.length + 1 = i + s.length + 2 by omega]

/-- What `parse_json` returns once the sanitization pass has succeeded. -/
theorem parse_json_of_sanitize {src t : Bytes} (h : sanitize src = .ok (.ok t)) :
    parse_json src =
      match parse_json_value (3 * t.length + 3) t 0 with
      | .error f => .error f
      | .ok (v, _) => .ok v := by
  unfold parse_json
  rw [h]

theorem plain_of_isdigit {c : Nat} (h : isdigit c = true) :
    below33 c = false ∧ c ≠ 34 ∧ c ≠ 91 ∧ c ≠ 93 ∧ c ≠ 123 ∧ c ≠ 125 := by
  have := (isdigit_iff c).mp h
  refine ⟨?_, by omega, by omega, by omega, by omega, by omega⟩
  simp only [below33, Bool.or_eq_false_iff, decide_eq_false_iff_not]
  omega

theorem plain_of_numeral {c : Nat} (h : isdigit c = true ∨ c = 45 ∨ c = 46) :
    below33 c = false ∧ c ≠ 34 ∧ c ≠ 91 ∧ c ≠ 93 ∧ c ≠ 123 ∧ c ≠ 125 := by
  rcases h with h | h | h
  · exact plain_of_isdigit h
  · subst h; decide
  · subst h; decide

/-- The pass leaves a non-empty text of plain bytes as it is. -/
theorem sanitize_plain (t : Bytes) (hne : t ≠ [])
    (ht : ∀ c ∈ t, below33 c = false ∧ c ≠ 34 ∧ c ≠ 91 ∧ c ≠ 93 ∧ c ≠ 123 ∧ c ≠ 125) :
    sanitize t = .ok (.ok t) := by
  rw [sanitize_ok_iff]
  have := sanitize_loop_plain t ht [] 0 [] [] [] (by rw [sanitize_loop])
  simp only [List.append_nil] at this
  exact ⟨this, hne⟩

/-- The pass leaves a lone string literal as it is. -/
theorem sanitize_quoted (s : Bytes) (hs : ∀ c ∈ s, c ≠ 34) (hl : s.getLast? ≠ some 92) :
    sanitize (34 :: (s ++ [34])) = .ok (.ok (34 :: (s ++ [34]))) := by
  rw [sanitize_ok_iff]
  refine ⟨?_, by simp⟩
  have hl' : (34 :: s).getLast? ≠ some 92 := by
    cases s with
    | nil => simp
    | cons c s => simpa [List.getLast?_cons_cons] using hl
  rw [sanitize_loop_cons]
  simp only [show below33 34 = false by decide, Bool.false_eq_true, if_false, if_true]
  rw [sanitize_string_body s hs [] 1 34 [] [] [] hl' (by rw [sanitize_loop])]
  rfl

theorem finish_number_uint (ds : Bytes) (i : Nat) (hne : ds ≠ [])
    (hd : ∀ c ∈ ds, isdigit c = true) (hlen : ds.length ≤ 127)
    (hv : digits_value ds < 2 ^ 64) :
    finish_number ds false false i = .ok (.UINT (digits_value ds), i) := by
  unfold finish_number
  rw [if_neg (by omega), stoull_digits ds hne hd hv]
  rfl

theorem finish_number_int (ds : Bytes) (i : Nat) (hne : ds ≠ [])
    (hd : ∀ c ∈ ds, isdigit c = true) (hlen : ds.length ≤ 126)
    (hv : digits_value ds ≤ 2 ^ 63) :
    finish_number (45 :: ds) false true i = .ok (.INT (-(digits_value ds : Int)), i) := by
  unfold finish_number
  rw [if_neg (by simp only [List.length_cons]; omega), stoll_minus_digits ds hne hd hv]
  rfl

theorem stod_numeral_ok (tmp : Bytes) (h : ∃ c ∈ tmp, isdigit c = true) :
    ∃ x, stod_numeral tmp = .ok x := by
  obtain ⟨c, hc, hdc⟩ := h
  unfold stod_numeral
  have hbody : c ∈ (if tmp.head? = some 45 then tmp.tail else tmp) := by
    split
    · rename_i hh
      match tmp, hc, hh with
      | x :: r, hc, hh =>
        simp only [List.head?_cons, Option.some.injEq] at hh
        subst hh
        rcases List.mem_cons.mp hc with h1 | h1
        · subst h1; cases hdc
        · simpa using h1
    · exact hc
  have : (if tmp.head? = some 45 then tmp.tail else tmp).all (fun c => !isdigit c) = false := by
    rw [List.all_eq_false]
    exact ⟨c, hbody, by simp [hdc]⟩
  simp only [this, Bool.false_eq_true, if_false]
  exact ⟨_, rfl⟩

theorem finish_number_float (tmp : Bytes) (neg : Bool) (i : Nat) (hlen : tmp.length ≤ 127)
    (h : ∃ c ∈ tmp, isdigit c = true) :
    ∃ x, finish_number tmp true neg i = .ok (.FLOAT x, i) := by
  obtain ⟨x, hx⟩ := stod_numeral_ok tmp h
  refine ⟨x, ?_⟩
  unfold finish_number
  rw [if_neg (by omega), if_pos rfl, hx]
  rfl

/-- The number branch on a text with one point. -/
theorem parse_number_point {src : Bytes} {i first : Nat} (a b rest : Bytes)
    (hsrc : src.drop i = first :: (a ++ 46 :: (b ++ rest)))
    (ha : ∀ c ∈ a, isdigit c = true) (hb : ∀ c ∈ b, isdigit c = true)
    (hstop : ∀ c r, rest = c :: r → c ≠ 46 ∧ isdigit c = false)
    (hlen : a.length + b.length ≤ 125) :
    parse_number src i first
      = finish_number (first :: (a ++ 46 :: b)) true (first = 45)
          (i + 1 + a.length + 1 + b.length) := by
  unfold parse_number
  rw [drop_succ_of_drop hsrc, number_loop_digits a ha _ (i + 1) false [first]
    (by simp only [List.length_singleton]; omega), number_loop, if_pos rfl]
  simp only [Bool.false_eq_true, if_false]
  rw [if_neg (by simp only [List.length_append, List.length_singleton]; omega),
    number_loop_digits b hb _ _ true _
      (by simp only [List.length_append, List.length_singleton]; omega),
    number_loop_stop _ _ _ _ hstop]
  simp only [List.singleton_append, List.cons_append, List.append_assoc, List.nil_append]

/-- The number branch returns an Error at a second point. -/
theorem parse_number_second_point {src : Bytes} {i first : Nat} (a b rest : Bytes)
    (hsrc : src.drop i = first :: (a ++ 46 :: (b ++ 46 :: rest)))
    (ha : ∀ c ∈ a, isdigit c = true) (hb : ∀ c ∈ b, isdigit c = true)
    (hlen : a.length + b.length ≤ 126) :
    ∃ msg, parse_number src i first
      = .ok (.ERROR msg, i + 1 + a.length + 1 + b.length) := by
  unfold parse_number
  rw [drop_succ_of_drop hsrc, number_loop_digits a ha _ (i + 1) false [first]
    (by simp only [List.length_singleton]; omega), number_loop, if_pos rfl]
  simp only [Bool.false_eq_true, if_false]
  rw [if_neg (by simp only [List.length_append, List.length_singleton]; omega),
    number_loop_digits b hb _ _ true _
      (by simp only [List.length_append, List.length_singleton]; omega),
    number_loop, if_pos rfl, if_pos rfl]
  exact ⟨_, rfl⟩

/-- The conversion `std::stoll` finds no numeral exactly when the text has no digit after
its white space and sign. -/
theorem stoll_invalid_iff (s : Bytes) :
    stoll s = .error .invalid_argument ↔ (strto_split s).2 = [] := by
  unfold stoll
  constructor
  · intro h
    by_contra hne
    simp only [if_neg hne] at h
    split at h
    · split at h <;> cases h
    · split at h <;> cases h
  · intro h
    simp only [if_pos h]

theorem stoull_invalid_of (s : Bytes) (h : (strto_split s).2 = []) :
    stoull s = .error .invalid_argument := by
  unfold stoull
  simp only [if_pos h]

/-! ## The structural parser on the texts in scope -/

theorem assign_nat_push (acc : List var) (v : var) :
    assign_nat (.ARRAY acc) acc.length v = .ARRAY (acc ++ [v]) := by
  simp only [assign_nat, grow, ge_iff_le, Nat.le_refl, if_true]
  congr 1
  rw [show acc.length + 1 - acc.length = 1 by omega]
  simp [List.replicate]

theorem map_assign_fresh (m : List (Bytes × var)) (k : Bytes) (v : var)
    (h : ∀ e ∈ m, e.1 ≠ k) : map_assign m k v = m ++ [(k, v)] := by
  induction m with
  | nil => rfl
  | cons e m ih =>
    obtain ⟨k', v'⟩ := e
    have hk : k' ≠ k := h (k', v') (List.mem_cons_self _ _)
    simp only [map_assign, if_neg hk, List.cons_append]
    rw [ih (fun e he => h e (List.mem_cons_of_mem _ he))]

theorem assign_str_fresh (m : List (Bytes × var)) (k : Bytes) (v : var)
    (h : ∀ e ∈ m, e.1 ≠ k) : assign_str (.MAP m) k v = .MAP (m ++ [(k, v)]) := by
  simp only [assign_str, as_map, map_assign_fresh m k v h]

theorem quotable_iff (cap : Nat) (s : Bytes) :
    quotable cap s = true ↔
      (∀ c ∈ s, c ≠ 34) ∧ (∀ c ∈ s, c ≠ 0) ∧ s.getLast? ≠ some 92 ∧ s.length < cap := by
  simp only [quotable, Bool.and_eq_true, List.all_eq_true, decide_eq_true_eq, ne_eq]
  constructor
  · rintro ⟨⟨h1, h2⟩, h3⟩
    exact ⟨fun c hc => (h1 c hc).1, fun c hc => (h1 c hc).2, h2, h3⟩
  · rintro ⟨h1, h2, h3, h4⟩
    exact ⟨⟨fun c hc => ⟨h1 c hc, h2 c hc⟩, h3⟩, h4⟩

/-- The matching loop runs through a word that the text holds. -/
theorem match_literal_word (expect : Bytes) {src : Bytes} {i : Nat} (start : Nat) (suf : Bytes)
    (hsrc : src.drop i = expect ++ suf) :
    match_literal expect src i start = .ok (.ok (i + expect.length)) := by
  induction expect generalizing i with
  | nil => rfl
  | cons m ms ih =>
    have hlt := length_of_drop_nil_cons hsrc
    rw [match_literal, if_neg (by omega), char_at_of_drop hsrc]
    simp only [ne_eq, not_true_eq_false, if_false]
    rw [ih (drop_succ_of_drop hsrc)]
    simp only [List.length_cons]
    rw [show i + 1 + ms.length = i + (ms.length + 1) by omega]

/-- The literal branch on a text that holds the word. -/
theorem parse_literal_word (expect : Bytes) {src : Bytes} {i first : Nat} (v : var)
    (suf : Bytes) (hsrc : src.drop i = first :: (expect ++ suf)) :
    parse_literal src i expect v = .ok (v, i + 1 + expect.length) := by
  unfold parse_literal
  rw [match_literal_word expect i suf (drop_succ_of_drop hsrc)]

theorem parse_json_array_succ (fuel : Nat) (src : Bytes) (i : Nat) :
    parse_json_array (fuel + 1) src i =
      match char_at src (i + 1) with
      | .error f => .error f
      | .ok c =>
        if c = 93 then .ok (.ARRAY [], i + 1)
        else parse_json_array_loop fuel src (i + 1) (.ARRAY []) 0 := by
  rw [parse_json_array]

theorem parse_json_array_loop_succ (fuel : Nat) (src : Bytes) (i : Nat) (arr : var)
    (index : Nat) :
    parse_json_array_loop (fuel + 1) src i arr index =
      match parse_json_value fuel src i with
      | .error f => .error f
      | .ok (v, j) =>
        match char_at src j with
        | .error f => .error f
        | .ok c =>
          if c = 44 then
            parse_json_array_loop fuel src (j + 1) (assign_nat arr index v) (index + 1)
          else .ok (assign_nat arr index v, j + 1) := by
  rw [parse_json_array_loop]

theorem parse_json_object_succ (fuel : Nat) (src : Bytes) (i : Nat) :
    parse_json_object (fuel + 1) src i =
      match char_at src (i + 1) with
      | .error f => .error f
      | .ok c =>
        if c = 125 then .ok (.MAP [], i + 1)
        else parse_json_object_loop fuel src (i + 1) (.MAP []) := by
  rw [parse_json_object]

theorem parse_json_object_loop_succ (fuel : Nat) (src : Bytes) (i : Nat) (obj : var) :
    parse_json_object_loop (fuel + 1) src i obj =
      match char_at src i with
      | .error f => .error f
      | .ok c =>
        if c ≠ 34 then
          .ok (error (txt "JSON: invalid label given for member at position: "
            ++ to_string_nat i), i)
        else
          match scan_quoted 128 (src.drop (i + 1)) (i + 1) [] with
          | .error f => .error f
          | .ok (label, j) =>
            if j = src.length then
              .ok (error (txt "JSON: stray string at position: " ++ to_string_nat j), j)
            else
              match char_at src j with
              | .error f => .error f
              | .ok colon =>
                if colon ≠ 58 then
                  .ok (error (txt "JSON: stray string at position: " ++ to_string_nat j), j)
                else
                  match parse_json_value fuel src (j + 1) with
                  | .error f => .error f
                  | .ok (m, k) =>
                    if m.is_error then .ok (m, k)
                    else
                      match char_at src k with
                      | .error f => .error f
                      | .ok c2 =>
                        if c2 ≠ 44 then
                          if c2 ≠ 125 then
                            .ok (error (txt "JSON: unexpected token \x27" ++ [c2]
                              ++ txt "\x27 at position: " ++ to_string_nat k), k)
                          else .ok (assign_str obj (c_str label) m, k)
                        else
                          parse_json_object_loop fuel src (k + 1)
                            (assign_str obj (c_str label) m) := by
  rw [parse_json_object_loop]

theorem filter_isdigit_self (ds : Bytes) (hd : ∀ c ∈ ds, isdigit c = true) :
    ds.filter isdigit = ds := by
  rw [List.filter_eq_self]
  exact hd

theorem dropWhile_isdigit_point (a b : Bytes) (ha : ∀ c ∈ a, isdigit c = true) :
    (a ++ 46 :: b).dropWhile isdigit = 46 :: b := by
  induction a with
  | nil => rw [List.nil_append, List.dropWhile_cons_of_neg (by decide)]
  | cons c a ih =>
    rw [List.cons_append, List.dropWhile_cons_of_pos (ha c (List.mem_cons_self _ _)),
      ih (fun x hx => ha x (List.mem_cons_of_mem _ hx))]

/-- The double that `std::stod` yields for digits, a point and digits. -/
theorem stod_numeral_point (neg : Bool) (a b : Bytes) (ha : ∀ c ∈ a, isdigit c = true)
    (hb : ∀ c ∈ b, isdigit c = true) (hfirst : neg = true ∨ a ≠ []) (hdig : a ≠ [] ∨ b ≠ []) :
    stod_numeral ((if neg then [45] else []) ++ (a ++ 46 :: b))
      = .ok { neg := neg, mant := digits_value (a ++ b), frac := b.length } := by
  have hbody : (if ((if neg then [45] else []) ++ (a ++ 46 :: b)).head? = some 45
      then ((if neg then [45] else []) ++ (a ++ 46 :: b)).tail
      else (if neg then [45] else []) ++ (a ++ 46 :: b)) = a ++ 46 :: b := by
    cases neg with
    | true => simp
    | false =>
      rcases hfirst with h | h
      · cases h
      · obtain ⟨c, r, rfl⟩ := List.exists_cons_of_ne_nil h
        have := (isdigit_iff c).mp (ha c (List.mem_cons_self _ _))
        simp only [Bool.false_eq_true, if_false, List.nil_append, List.cons_append,
          List.head?_cons, Option.some.injEq]
        rw [if_neg (by omega)]
  have hhead : (((if neg then [45] else []) ++ (a ++ 46 :: b)).head? = some 45) ↔ neg = true := by
    cases neg with
    | true => simp
    | false =>
      rcases hfirst with h | h
      · cases h
      · obtain ⟨c, r, rfl⟩ := List.exists_cons_of_ne_nil h
        have := (isdigit_iff c).mp (ha c (List.mem_cons_self _ _))
        simp only [Bool.false_eq_true, if_false, List.nil_append, List.cons_append,
          List.head?_cons, Option.some.injEq, iff_false]
        omega
  have hall : (a ++ 46 :: b).all (fun c => !isdigit c) = false := by
    rw [List.all_eq_false]
    rcases hdig with h | h
    · obtain ⟨c, r, rfl⟩ := List.exists_cons_of_ne_nil h
      exact ⟨c, by simp, by simp [ha c (List.mem_cons_self _ _)]⟩
    · obtain ⟨c, r, rfl⟩ := List.exists_cons_of_ne_nil h
      exact ⟨c, by simp, by simp [hb c (List.mem_cons_self _ _)]⟩
  have hfil : (a ++ 46 :: b).filter isdigit = a ++ b := by
    rw [List.filter_append, filter_isdigit_self a ha, List.filter_cons_of_neg (by decide),
      filter_isdigit_self b hb]
  unfold stod_numeral
  simp only [hbody, hall, Bool.false_eq_true, if_false, hfil, dropWhile_isdigit_point a b ha,
    List.filter_cons_of_neg (show ¬ (isdigit 46 = true) by decide), filter_isdigit_self b hb]
  congr 2
  cases neg with
  | true => exact decide_eq_true (hhead.mpr rfl)
  | false => exact decide_eq_false (fun hh => by cases hhead.mp hh)

theorem parse_value_uint (d : Bytes) (hne : d ≠ []) (hd : ∀ c ∈ d, isdigit c = true)
    (hlen : d.length ≤ 127) (hv : digits_value d < 2 ^ 64) (fuel : Nat) {src : Bytes} {i : Nat}
    (suf : Bytes) (hsrc : src.drop i = d ++ suf)
    (hstop : ∀ c r, suf = c :: r → c ≠ 46 ∧ isdigit c = false) :
    parse_json_value (fuel + 1) src i = .ok (.UINT (digits_value d), i + d.length) := by
  match d, hne, hd, hlen, hv, hsrc with
  | c :: ds, hne, hd, hlen, hv, hsrc =>
    have hc := hd c (List.mem_cons_self _ _)
    have hc' := (isdigit_iff c).mp hc
    simp only [List.length_cons] at hlen
    rw [parse_json_value_number _ hsrc (Or.inl hc),
      parse_number_digits ds suf hsrc (fun x hx => hd x (List.mem_cons_of_mem _ hx))
        hstop (by omega),
      show decide (c = 45) = false from decide_eq_false (by omega),
      finish_number_uint (c :: ds) _ hne hd (by simp only [List.length_cons]; omega) hv]
    simp only [List.length_cons]
    rw [show i + 1 + ds.length = i + (ds.length + 1) by omega]

theorem parse_value_nint (d : Bytes) (hne : d ≠ []) (hd : ∀ c ∈ d, isdigit c = true)
    (hlen : d.length ≤ 126) (hv : digits_value d ≤ 2 ^ 63) (fuel : Nat) {src : Bytes} {i : Nat}
    (suf : Bytes) (hsrc : src.drop i = 45 :: (d ++ suf))
    (hstop : ∀ c r, suf = c :: r → c ≠ 46 ∧ isdigit c = false) :
    parse_json_value (fuel + 1) src i
      = .ok (.INT (-(digits_value d : Int)), i + (d.length + 1)) := by
  rw [parse_json_value_number _ hsrc (Or.inr rfl), parse_number_digits d suf hsrc hd hstop hlen,
    show decide (45 = 45) = true from rfl, finish_number_int d _ hne hd hlen hv,
    show i + 1 + d.length = i + (d.length + 1) by omega]

theorem parse_value_float (neg : Bool) (a b : Bytes) (ha : ∀ c ∈ a, isdigit c = true)
    (hb : ∀ c ∈ b, isdigit c = true) (hfirst : neg = true ∨ a ≠ []) (hdig : a ≠ [] ∨ b ≠ [])
    (hlen : a.length + b.length ≤ (if neg then 125 else 126)) (fuel : Nat) {src : Bytes}
    {i : Nat} (suf : Bytes)
    (hsrc : src.drop i = ((if neg then [45] else []) ++ (a ++ 46 :: b)) ++ suf)
    (hstop : ∀ c r, suf = c :: r → c ≠ 46 ∧ isdigit c = false) :
    parse_json_value (fuel + 1) src i
      = .ok (.FLOAT { neg := neg, mant := digits_value (a ++ b), frac := b.length },
          i + ((if neg then [45] else []) ++ (a ++ 46 :: b)).length) := by
  have hstod := stod_numeral_point neg a b ha hb hfirst hdig
  cases neg with
  | true =>
    simp only [if_true] at hlen
    simp only [if_true, List.singleton_append, List.cons_append, List.append_assoc,
      List.nil_append] at hsrc hstod ⊢
    rw [parse_json_value_number _ hsrc (Or.inr rfl),
      parse_number_point a b suf hsrc ha hb hstop hlen]
    unfold finish_number
    rw [if_neg (by simp only [List.length_cons, List.length_append]; omega), if_pos rfl, hstod]
    simp only [List.length_cons, List.length_append]
    rw [show i + 1 + a.length + 1 + b.length = i + (a.length + (b.length + 1) + 1) by omega]
    rfl
  | false =>
    rcases hfirst with h | h
    · cases h
    · obtain ⟨c, r, rfl⟩ := List.exists_cons_of_ne_nil h
      have hc := ha c (List.mem_cons_self _ _)
      simp only [Bool.false_eq_true, if_false, List.nil_append, List.cons_append,
        List.append_assoc] at hsrc hstod ⊢
      simp only [List.length_cons, Bool.false_eq_true, if_false] at hlen
      rw [parse_json_value_number _ hsrc (Or.inl hc),
        parse_number_point r b suf hsrc (fun x hx => ha x (List.mem_cons_of_mem _ hx)) hb
          hstop (by omega)]
      unfold finish_number
      rw [if_neg (by simp only [List.length_cons, List.length_append]; omega), if_pos rfl,
        hstod]
      simp only [List.length_cons, List.length_append]
      rw [show i + 1 + r.length + 1 + b.length = i + (r.length + (b.length + 1) + 1) by omega]
      rfl

theorem parse_value_str (s : Bytes) (hq : quotable 256 s = true) (fuel : Nat) {src : Bytes}
    {i : Nat} (suf : Bytes) (hsrc : src.drop i = 34 :: (s ++ [34]) ++ suf) :
    parse_json_value (fuel + 1) src i = .ok (.STR s, i + (34 :: (s ++ [34])).length) := by
  obtain ⟨h1, h2, _, h4⟩ := (quotable_iff 256 s).mp hq
  have hsrc' : src.drop i = 34 :: (s ++ 34 :: suf) := by simpa using hsrc
  rw [parse_json_value_string _ hsrc', parse_string_body s suf hsrc' h1 (by omega),
    c_str_of_no_zero s h2]
  simp only [List.length_cons, List.length_append, List.length_nil]
  rw [show i + (s.length + (0 + 1) + 1) = i + s.length + 2 by omega]

theorem parse_value_null (fuel : Nat) {src : Bytes} {i : Nat} (suf : Bytes)
    (hsrc : src.drop i = txt "null" ++ suf) :
    parse_json_value (fuel + 1) src i = .ok (.NULL, i + 4) := by
  have hsrc' : src.drop i = 110 :: (txt "ull" ++ suf) := hsrc
  rw [parse_json_value_succ, char_at_of_drop hsrc']
  simp only [show ¬ ((48 ≤ 110 ∧ 110 ≤ 57) ∨ 110 = 45) by omega, if_false,
    show ¬ (110 = 34) by omega, show ¬ (110 = 123) by omega, show ¬ (110 = 91) by omega,
    show ¬ (110 = 116) by omega, show ¬ (110 = 102) by omega, if_true]
  rw [parse_literal_word (txt "ull") .NULL suf hsrc']
  rfl

theorem parse_value_true (fuel : Nat) {src : Bytes} {i : Nat} (suf : Bytes)
    (hsrc : src.drop i = txt "true" ++ suf) :
    parse_json_value (fuel + 1) src i = .ok (.BOOL true, i + 4) := by
  have hsrc' : src.drop i = 116 :: (txt "rue" ++ suf) := hsrc
  rw [parse_json_value_succ, char_at_of_drop hsrc']
  simp only [show ¬ ((48 ≤ 116 ∧ 116 ≤ 57) ∨ 116 = 45) by omega, if_false,
    show ¬ (116 = 34) by omega, show ¬ (116 = 123) by omega, show ¬ (116 = 91) by omega,
    if_true]
  rw [parse_literal_word (txt "rue") (.BOOL true) suf hsrc']
  rfl

theorem parse_value_false (fuel : Nat) {src : Bytes} {i : Nat} (suf : Bytes)
    (hsrc : src.drop i = txt "false" ++ suf) :
    parse_json_value (fuel + 1) src i = .ok (.BOOL false, i + 5) := by
  have hsrc' : src.drop i = 102 :: (txt "alse" ++ suf) := hsrc
  rw [parse_json_value_succ, char_at_of_drop hsrc']
  simp only [show ¬ ((48 ≤ 102 ∧ 102 ≤ 57) ∨ 102 = 45) by omega, if_false,
    show ¬ (102 = 34) by omega, show ¬ (102 = 123) by omega, show ¬ (102 = 91) by omega,
    show ¬ (102 = 116) by omega, if_true]
  rw [parse_literal_word (txt "alse") (.BOOL false) suf hsrc']
  rfl

theorem closed_uint_iff (d : Bytes) :
    (Json.uint d).closed = true ↔
      d ≠ [] ∧ (∀ c ∈ d, isdigit c = true) ∧ d.length ≤ 127 ∧ digits_value d < 2 ^ 64 := by
  simp [Json.closed, and_assoc]

theorem closed_nint_iff (d : Bytes) :
    (Json.nint d).closed = true ↔
      d ≠ [] ∧ (∀ c ∈ d, isdigit c = true) ∧ d.length ≤ 126 ∧ digits_value d ≤ 2 ^ 63 := by
  simp [Json.closed, and_assoc]

theorem closed_float_iff (neg : Bool) (a b : Bytes) :
    (Json.float neg a b).closed = true ↔
      (∀ c ∈ a, isdigit c = true) ∧ (∀ c ∈ b, isdigit c = true) ∧ (neg = true ∨ a ≠ []) ∧
        (a ≠ [] ∨ b ≠ []) ∧ a.length + b.length ≤ (if neg then 125 else 126) := by
  simp [Json.closed, and_assoc]

theorem closed_arr_iff (xs : List Json) :
    (Json.arr xs).closed = true ↔ xs ≠ [] ∧ Json.closed_list xs = true := by
  cases xs <;> simp [Json.closed]

theorem closed_list_cons_iff (x : Json) (xs : List Json) :
    Json.closed_list (x :: xs) = true ↔ x.closed = true ∧ Json.closed_list xs = true := by
  simp [Json.closed_list]

/-- A text in scope starts with a byte other than a closing bracket, a closing brace, a
comma or a byte that the sanitization pass drops. -/
theorem render_head (j : Json) (h : j.closed = true) :
    ∃ c r, j.render = c :: r ∧ c ≠ 93 ∧ c ≠ 125 ∧ c ≠ 44 := by
  match j, h with
  | .null, _ => exact ⟨110, txt "ull", rfl, by omega, by omega, by omega⟩
  | .bool true, _ => exact ⟨116, txt "rue", rfl, by omega, by omega, by omega⟩
  | .bool false, _ => exact ⟨102, txt "alse", rfl, by omega, by omega, by omega⟩
  | .uint d, h =>
    obtain ⟨hne, hd, _, _⟩ := (closed_uint_iff d).mp h
    obtain ⟨c, r, rfl⟩ := List.exists_cons_of_ne_nil hne
    have := (isdigit_iff c).mp (hd c (List.mem_cons_self _ _))
    exact ⟨c, r, rfl, by omega, by omega, by omega⟩
  | .nint d, _ => exact ⟨45, d, rfl, by omega, by omega, by omega⟩
  | .float true a b, _ => exact ⟨45, a ++ 46 :: b, rfl, by omega, by omega, by omega⟩
  | .float false a b, h =>
    obtain ⟨ha, _, hfirst, _, _⟩ := (closed_float_iff false a b).mp h
    rcases hfirst with h' | h'
    · cases h'
    · obtain ⟨c, r, rfl⟩ := List.exists_cons_of_ne_nil h'
      have := (isdigit_iff c).mp (ha c (List.mem_cons_self _ _))
      exact ⟨c, r ++ 46 :: b, rfl, by omega, by omega, by omega⟩
  | .str s, _ => exact ⟨34, s ++ [34], rfl, by omega, by omega, by omega⟩
  | .arr xs, _ => exact ⟨91, Json.render_list xs ++ [93], by rw [Json.render], by omega,
      by omega, by omega⟩

theorem render_list_cons (x : Json) (xs : List Json) :
    Json.render_list (x :: xs) = x.render ++ Json.render_tail xs := by
  rw [Json.render_list]

theorem render_tail_cons (x : Json) (xs : List Json) :
    Json.render_tail (x :: xs) = 44 :: Json.render_list (x :: xs) := by
  rw [Json.render_tail, Json.render_list]

theorem render_arr (xs : List Json) :
    (Json.arr xs).render = 91 :: (Json.render_list xs ++ [93]) := by
  rw [Json.render]

theorem denote_arr (xs : List Json) :
    (Json.arr xs).denote = .ARRAY (Json.denote_list xs) := by
  rw [Json.denote]

theorem denote_list_cons (x : Json) (xs : List Json) :
    Json.denote_list (x :: xs) = x.denote :: Json.denote_list xs := by
  rw [Json.denote_list]

mutual
/-- The value routine reads a text in scope as the value it stands for and leaves the
cursor behind the text. -/
theorem parse_value_closed : ∀ (j : Json), j.closed = true →
    ∀ (fuel : Nat) (src : Bytes) (i : Nat) (suf : Bytes), src.drop i = j.render ++ suf →
    (∀ c r, suf = c :: r → c ≠ 46 ∧ isdigit c = false) → 3 * j.render.length ≤ fuel →
    parse_json_value fuel src i = .ok (j.denote, i + j.render.length)
  | .null, _, fuel, src, i, suf, hsrc, _, hfuel => by
    obtain ⟨f, rfl⟩ : ∃ f, fuel = f + 1 := ⟨fuel - 1, by
      simp only [Json.render, txt] at hfuel; simp at hfuel; omega⟩
    exact parse_value_null f suf hsrc
  | .bool true, _, fuel, src, i, suf, hsrc, _, hfuel => by
    obtain ⟨f, rfl⟩ : ∃ f, fuel = f + 1 := ⟨fuel - 1, by
      simp only [Json.render, txt] at hfuel; simp at hfuel; omega⟩
    exact parse_value_true f suf hsrc
  | .bool false, _, fuel, src, i, suf, hsrc, _, hfuel => by
    obtain ⟨f, rfl⟩ : ∃ f, fuel = f + 1 := ⟨fuel - 1, by
      simp only [Json.render, txt] at hfuel; simp at hfuel; omega⟩
    exact parse_value_false f suf hsrc
  | .uint d, h, fuel, src, i, suf, hsrc, hstop, hfuel => by
    obtain ⟨hne, hd, hlen, hv⟩ := (closed_uint_iff d).mp h
    have : 0 < d.length := List.length_pos.mpr hne
    obtain ⟨f, rfl⟩ : ∃ f, fuel = f + 1 := ⟨fuel - 1, by
      simp only [Json.render] at hfuel; omega⟩
    exact parse_value_uint d hne hd hlen hv f suf hsrc hstop
  | .nint d, h, fuel, src, i, suf, hsrc, hstop, hfuel => by
    obtain ⟨hne, hd, hlen, hv⟩ := (closed_nint_iff d).mp h
    obtain ⟨f, rfl⟩ : ∃ f, fuel = f + 1 := ⟨fuel - 1, by
      simp only [Json.render, List.length_cons] at hfuel; omega⟩
    exact parse_value_nint d hne hd hlen hv f suf hsrc hstop
  | .float neg a b, h, fuel, src, i, suf, hsrc, hstop, hfuel => by
    obtain ⟨ha, hb, hfirst, hdig, hlen⟩ := (closed_float_iff neg a b).mp h
    obtain ⟨f, rfl⟩ : ∃ f, fuel = f + 1 := ⟨fuel - 1, by
      simp only [Json.render, List.length_cons, List.length_append] at hfuel; omega⟩
    exact parse_value_float neg a b ha hb hfirst hdig hlen f suf hsrc hstop
  | .str s, h, fuel, src, i, suf, hsrc, _, hfuel => by
    obtain ⟨f, rfl⟩ : ∃ f, fuel = f + 1 := ⟨fuel - 1, by
      simp only [Json.render, List.length_cons] at hfuel; omega⟩
    exact parse_value_str s h f suf hsrc
  | .arr xs, h, fuel, src, i, suf, hsrc, _, hfuel => by
    obtain ⟨hne, hcl⟩ := (closed_arr_iff xs).mp h
    rw [render_arr] at hsrc hfuel ⊢
    simp only [List.length_cons, List.length_append, List.length_singleton, List.length_nil,
      Nat.zero_add] at hfuel ⊢
    obtain ⟨f, rfl⟩ : ∃ f, fuel = f + 2 := ⟨fuel - 2, by omega⟩
    have hsrc' : src.drop i = 91 :: (Json.render_list xs ++ 93 :: suf) := by
      simpa using hsrc
    have hsrc1 := drop_succ_of_drop hsrc'
    obtain ⟨x, xs', rfl⟩ := List.exists_cons_of_ne_nil hne
    obtain ⟨c, r, hcr, hc93, _, _⟩ := render_head x ((closed_list_cons_iff x xs').mp hcl).1
    have hsrc2 : src.drop (i + 1) = c :: (r ++ Json.render_tail xs' ++ 93 :: suf) := by
      rw [hsrc1, render_list_cons, hcr]; simp
    rw [parse_json_value_succ, char_at_of_drop hsrc']
    simp only [show ¬ ((48 ≤ 91 ∧ 91 ≤ 57) ∨ 91 = 45) by omega, if_false,
      show ¬ (91 = 34) by omega, show ¬ (91 = 123) by omega, if_true]
    rw [parse_json_array_succ, char_at_of_drop hsrc2]
    simp only [if_neg hc93]
    have := parse_loop_closed (x :: xs') hcl (by simp) f src (i + 1) suf [] hsrc1 (by omega)
    simp only [List.length_nil, List.nil_append] at this
    rw [this, denote_arr]
    rw [show i + 1 + (Json.render_list (x :: xs')).length + 1
      = i + ((Json.render_list (x :: xs')).length + 1 + 1) by omega]
/-- The element loop reads the elements of an array text in scope, appends their values to
the array and leaves the cursor behind the closing bracket. -/
theorem parse_loop_closed : ∀ (l : List Json), Json.closed_list l = true → l ≠ [] →
    ∀ (fuel : Nat) (src : Bytes) (i : Nat) (suf : Bytes) (acc : List var),
    src.drop i = Json.render_list l ++ 93 :: suf → 3 * (Json.render_list l).length + 1 ≤ fuel →
    parse_json_array_loop fuel src i (.ARRAY acc) acc.length
      = .ok (.ARRAY (acc ++ Json.denote_list l), i + (Json.render_list l).length + 1)
  | [], _, hne, _, _, _, _, _, _, _ => absurd rfl hne
  | x :: xs, hcl, _, fuel, src, i, suf, acc, hsrc, hfuel => by
    obtain ⟨hx, hxs⟩ := (closed_list_cons_iff x xs).mp hcl
    rw [render_list_cons] at hsrc hfuel ⊢
    simp only [List.length_append] at hfuel ⊢
    obtain ⟨f, rfl⟩ : ∃ f, fuel = f + 1 := ⟨fuel - 1, by omega⟩
    have hsrc' : src.drop i = x.render ++ (Json.render_tail xs ++ 93 :: suf) := by
      simpa using hsrc
    have hafter := drop_add_of_drop _ _ hsrc'
    rw [parse_json_array_loop_succ]
    match xs, hxs, hsrc, hfuel, hsrc', hafter with
    | [], _, hsrc, hfuel, hsrc', hafter =>
      have hafter' : src.drop (i + x.render.length) = 93 :: suf := by
        simpa [Json.render_tail] using hafter
      rw [parse_value_closed x hx f src i _ hsrc'
        (by intro c r hcr; simp only [Json.render_tail, List.nil_append, List.cons.injEq] at hcr
            rw [← hcr.1]; decide) (by omega)]
      simp only
      rw [char_at_of_drop hafter']
      simp only [show ¬ (93 = 44) by omega, if_false, assign_nat_push, Json.denote_list,
        Json.render_tail, List.length_nil, Nat.add_zero]
    | y :: ys, hxs, hsrc, hfuel, hsrc', hafter =>
      rw [render_tail_cons] at hsrc' hafter hfuel ⊢
      simp only [List.length_cons] at hfuel ⊢
      have hafter' : src.drop (i + x.render.length)
          = 44 :: (Json.render_list (y :: ys) ++ 93 :: suf) := by
        simpa using hafter
      rw [parse_value_closed x hx f src i _ hsrc'
        (by intro c r hcr; simp only [List.cons_append, List.cons.injEq] at hcr
            rw [← hcr.1]; decide) (by omega)]
      simp only
      rw [char_at_of_drop hafter']
      simp only [if_true, assign_nat_push]
      have := parse_loop_closed (y :: ys) hxs (by simp) f src (i + x.render.length + 1) suf
        (acc ++ [x.denote]) (drop_succ_of_drop hafter') (by omega)
      simp only [List.length_append, List.length_singleton] at this
      rw [this, denote_list_cons x (y :: ys)]
      simp only [List.append_assoc, List.singleton_append]
      rw [show i + x.render.length + 1 + (Json.render_list (y :: ys)).length + 1
        = i + (x.render.length + ((Json.render_list (y :: ys)).length + 1)) + 1 by omega]
end

/-! ## The sanitization pass on the texts in scope -/

theorem sanitize_loop_close (c : Nat) (hc : c = 93 ∨ c = 125) (rest : Bytes) (i : Nat)
    (st : List Nat) (out : Bytes) (st' : List Nat)
    (h : sanitize_loop rest (i + 1) st = .ok (.ok (out, st'))) :
    sanitize_loop (c :: rest) i (c :: st) = .ok (.ok (c :: out, st')) := by
  rw [sanitize_loop_cons]
  rcases hc with rfl | rfl
  · simp only [show below33 93 = false by decide, Bool.false_eq_true, if_false,
      show ¬ (93 = 34) by omega, show ¬ (93 = 91) by omega, show ¬ (93 = 123) by omega,
      true_or, if_true, h]
    rfl
  · simp only [show below33 125 = false by decide, Bool.false_eq_true, if_false,
      show ¬ (125 = 34) by omega, show ¬ (125 = 91) by omega, show ¬ (125 = 123) by omega,
      or_true, if_true, h]
    rfl

theorem sanitize_loop_open_bracket (rest : Bytes) (i : Nat) (st : List Nat) (out : Bytes)
    (st' : List Nat) (hd : st.length < 127)
    (h : sanitize_loop rest (i + 1) (93 :: st) = .ok (.ok (out, st'))) :
    sanitize_loop (91 :: rest) i st = .ok (.ok (91 :: out, st')) := by
  rw [sanitize_loop_cons]
  simp only [show below33 91 = false by decide, Bool.false_eq_true, if_false,
    show ¬ (91 = 34) by omega, if_true, if_neg (Nat.not_le.mpr hd), h]
  rfl

theorem sanitize_loop_open_brace (rest : Bytes) (i : Nat) (st : List Nat) (out : Bytes)
    (st' : List Nat) (hd : st.length < 127)
    (h : sanitize_loop rest (i + 1) (125 :: st) = .ok (.ok (out, st'))) :
    sanitize_loop (123 :: rest) i st = .ok (.ok (123 :: out, st')) := by
  rw [sanitize_loop_cons]
  simp only [show below33 123 = false by decide, Bool.false_eq_true, if_false,
    show ¬ (123 = 34) by omega, show ¬ (123 = 91) by omega, if_true,
    if_neg (Nat.not_le.mpr hd), h]
  rfl

theorem sanitize_loop_drop (c : Nat) (hc : below33 c = true) (rest : Bytes) (i : Nat)
    (st : List Nat) : sanitize_loop (c :: rest) i st = sanitize_loop rest (i + 1) st := by
  rw [sanitize_loop_cons, if_pos hc]

/-- A string literal with a `quotable` text is copied by the scan. -/
theorem sanitize_loop_quoted (cap : Nat) (s : Bytes) (hq : quotable cap s = true)
    (rest : Bytes) (st : List Nat) (out : Bytes) (st' : List Nat)
    (h : ∀ k, sanitize_loop rest k st = .ok (.ok (out, st'))) (i : Nat) :
    sanitize_loop (34 :: (s ++ 34 :: rest)) i st = .ok (.ok (34 :: (s ++ 34 :: out), st')) := by
  obtain ⟨h1, _, h3, _⟩ := (quotable_iff cap s).mp hq
  have hl' : (34 :: s).getLast? ≠ some 92 := by
    cases s with
    | nil => simp
    | cons c s => simpa [List.getLast?_cons_cons] using h3
  rw [sanitize_loop_cons]
  simp only [show below33 34 = false by decide, Bool.false_eq_true, if_false, if_true]
  rw [sanitize_string_body s h1 rest (i + 1) 34 st out st' hl' (h _)]
  rfl

theorem sanitize_loop_plain_all (t : Bytes)
    (ht : ∀ c ∈ t, below33 c = false ∧ c ≠ 34 ∧ c ≠ 91 ∧ c ≠ 93 ∧ c ≠ 123 ∧ c ≠ 125)
    (rest : Bytes) (st : List Nat) (out : Bytes) (st' : List Nat)
    (h : ∀ k, sanitize_loop rest k st = .ok (.ok (out, st'))) (i : Nat) :
    sanitize_loop (t ++ rest) i st = .ok (.ok (t ++ out, st')) :=
  sanitize_loop_plain t ht rest i st out st' (h _)

theorem depth_arr (xs : List Json) : (Json.arr xs).depth = Json.depth_list xs + 1 := by
  rw [Json.depth]

theorem depth_list_cons (x : Json) (xs : List Json) :
    Json.depth_list (x :: xs) = max x.depth (Json.depth_list xs) := by
  rw [Json.depth_list]

mutual
/-- The scan copies a text in scope when the stack has room for its brackets. -/
theorem sanitize_render : ∀ (j : Json), j.closed = true →
    ∀ (rest : Bytes) (st : List Nat) (out : Bytes) (st' : List Nat),
    st.length + j.depth ≤ 127 → (∀ k, sanitize_loop rest k st = .ok (.ok (out, st'))) →
    ∀ i, sanitize_loop (j.render ++ rest) i st = .ok (.ok (j.render ++ out, st'))
  | .null, _, rest, st, out, st', _, h => by
    intro i
    exact sanitize_loop_plain_all _ (by decide) rest st out st' h i
  | .bool true, _, rest, st, out, st', _, h => by
    intro i
    exact sanitize_loop_plain_all _ (by decide) rest st out st' h i
  | .bool false, _, rest, st, out, st', _, h => by
    intro i
    exact sanitize_loop_plain_all _ (by decide) rest st out st' h i
  | .uint d, hc, rest, st, out, st', _, h => by
    intro i
    obtain ⟨_, hd, _, _⟩ := (closed_uint_iff d).mp hc
    exact sanitize_loop_plain_all d (fun c hcd => plain_of_isdigit (hd c hcd)) rest st out st' h i
  | .nint d, hc, rest, st, out, st', _, h => by
    intro i
    obtain ⟨_, hd, _, _⟩ := (closed_nint_iff d).mp hc
    refine sanitize_loop_plain_all (45 :: d) (fun c hcd => ?_) rest st out st' h i
    rcases List.mem_cons.mp hcd with h1 | h1
    · subst h1; decide
    · exact plain_of_isdigit (hd c h1)
  | .float neg a b, hc, rest, st, out, st', _, h => by
    intro i
    obtain ⟨ha, hb, _, _, _⟩ := (closed_float_iff neg a b).mp hc
    refine sanitize_loop_plain_all _ (fun c hcd => ?_) rest st out st' h i
    apply plain_of_numeral
    have hmem : c = 45 ∨ c ∈ a ∨ c = 46 ∨ c ∈ b := by
      cases neg with
      | true => simpa [Json.render] using hcd
      | false =>
        have : c ∈ a ∨ c = 46 ∨ c ∈ b := by simpa [Json.render] using hcd
        exact Or.inr this
    rcases hmem with h1 | h1 | h1 | h1
    · exact Or.inr (Or.inl h1)
    · exact Or.inl (ha c h1)
    · exact Or.inr (Or.inr h1)
    · exact Or.inl (hb c h1)
  | .str s, hc, rest, st, out, st', _, h => by
    intro i
    have := sanitize_loop_quoted 256 s hc rest st out st' h i
    simpa [Json.render] using this
  | .arr xs, hc, rest, st, out, st', hdepth, h => by
    intro i
    obtain ⟨_, hcl⟩ := (closed_arr_iff xs).mp hc
    rw [depth_arr] at hdepth
    rw [render_arr]
    have hin := sanitize_render_list xs hcl (93 :: rest) (93 :: st) (93 :: out) st'
      (by simp only [List.length_cons]; omega)
      (fun k => sanitize_loop_close 93 (Or.inl rfl) rest k st out st' (h _)) (i + 1)
    have := sanitize_loop_open_bracket _ i st _ st' (by omega) hin
    simpa using this
/-- The scan copies the elements of an array text in scope. -/
theorem sanitize_render_list : ∀ (l : List Json), Json.closed_list l = true →
    ∀ (rest : Bytes) (st : List Nat) (out : Bytes) (st' : List Nat),
    st.length + Json.depth_list l ≤ 127 → (∀ k, sanitize_loop rest k st = .ok (.ok (out, st'))) →
    ∀ i, sanitize_loop (Json.render_list l ++ rest) i st
      = .ok (.ok (Json.render_list l ++ out, st'))
  | [], _, rest, st, out, st', _, h => by
    intro i
    simpa [Json.render_list] using h i
  | x :: xs, hcl, rest, st, out, st', hdepth, h => by
    intro i
    obtain ⟨hx, hxs⟩ := (closed_list_cons_iff x xs).mp hcl
    rw [depth_list_cons] at hdepth
    rw [render_list_cons, List.append_assoc, List.append_assoc]
    exact sanitize_render x hx _ st _ st' (by omega)
      (sanitize_render_tail xs hxs rest st out st' (by omega) h) i
/-- The scan copies the elements after the first, with their commas. -/
theorem sanitize_render_tail : ∀ (l : List Json), Json.closed_list l = true →
    ∀ (rest : Bytes) (st : List Nat) (out : Bytes) (st' : List Nat),
    st.length + Json.depth_list l ≤ 127 → (∀ k, sanitize_loop rest k st = .ok (.ok (out, st'))) →
    ∀ i, sanitize_loop (Json.render_tail l ++ rest) i st
      = .ok (.ok (Json.render_tail l ++ out, st'))
  | [], _, rest, st, out, st', _, h => by
    intro i
    simpa [Json.render_tail] using h i
  | x :: xs, hcl, rest, st, out, st', hdepth, h => by
    intro i
    obtain ⟨hx, hxs⟩ := (closed_list_cons_iff x xs).mp hcl
    rw [depth_list_cons] at hdepth
    rw [Json.render_tail]
    have hin := sanitize_render x hx _ st _ st' (by omega)
      (sanitize_render_tail xs hxs rest st out st' (by omega) h)
    have := sanitize_loop_plain_all [44] (by decide) _ st _ st' hin i
    simpa using this
end

/-- The pass leaves a text in scope as it is. -/
theorem sanitize_closed (j : Json) (hc : j.closed = true) (hd : j.depth ≤ 127) :
    sanitize j.render = .ok (.ok j.render) := by
  rw [sanitize_ok_iff]
  have := sanitize_render j hc [] [] [] [] (by simpa using hd) (fun k => by rw [sanitize_loop]) 0
  simp only [List.append_nil] at this
  obtain ⟨c, r, hcr, _⟩ := render_head j hc
  exact ⟨this, by rw [hcr]; simp⟩

/-- A text in scope parses to the value it stands for. -/
theorem parse_json_closed (j : Json) (hc : j.closed = true) (hd : j.depth ≤ 127) :
    parse_json j.render = .ok j.denote := by
  rw [parse_json_of_sanitize (sanitize_closed j hc hd),
    parse_value_closed j hc _ j.render 0 [] (by simp) (by simp) (by omega)]

/-- The elements of an array text are the element texts with commas in between. -/
theorem render_list_eq_intercalate (l : List Json) :
    Json.render_list l = [44].intercalate (l.map Json.render) := by
  induction l with
  | nil => simp [Json.render_list, List.intercalate]
  | cons x xs ih =>
    cases xs with
    | nil => simp [render_list_cons, Json.render_tail, List.intercalate]
    | cons y ys =>
      rw [render_list_cons, render_tail_cons, ih]
      simp [List.intercalate]

theorem forall₂_parse_closed (ts : List Json) (hcl : Json.closed_list ts = true)
    (hd : Json.depth_list ts ≤ 127) :
    List.Forall₂ (fun t v => parse_json t.render = .ok v) ts (Json.denote_list ts) := by
  induction ts with
  | nil => simp [Json.denote_list]
  | cons x xs ih =>
    obtain ⟨hx, hxs⟩ := (closed_list_cons_iff x xs).mp hcl
    rw [depth_list_cons] at hd
    rw [denote_list_cons]
    exact List.Forall₂.cons (parse_json_closed x hx (by omega)) (ih hxs (by omega))

/-! ## Objects whose values are texts in scope -/

theorem denote_not_error (j : Json) : j.denote.is_error = false := by
  cases j <;> simp [Json.denote, var.is_error]

theorem members_ok_cons_iff (k : Bytes) (x : Json) (ms : List (Bytes × Json)) :
    members_ok ((k, x) :: ms) = true ↔
      quotable 128 k = true ∧ x.closed = true ∧ x.depth ≤ 126 ∧ (∀ e ∈ ms, e.1 ≠ k) ∧
        members_ok ms = true := by
  simp [members_ok, and_assoc]

theorem render_members_cons (k : Bytes) (x : Json) (ms : List (Bytes × Json)) :
    render_members ((k, x) :: ms)
      = 34 :: (k ++ 34 :: 58 :: (x.render ++ (if ms.isEmpty then [] else 44 :: render_members ms)))
    := rfl

/-- The member loop reads the members of an object text whose values are in scope, stores
each value under its label and leaves the cursor on the closing brace. -/
theorem parse_object_loop_members (ms : List (Bytes × Json)) (hne : ms ≠ [])
    (hok : members_ok ms = true) (fuel : Nat) (src : Bytes) (i : Nat) (suf : Bytes)
    (acc : List (Bytes × var)) (hfresh : ∀ e ∈ acc, ∀ m ∈ ms, e.1 ≠ m.1)
    (hsrc : src.drop i = render_members ms ++ 125 :: suf)
    (hfuel : 3 * (render_members ms).length + 1 ≤ fuel) :
    parse_json_object_loop fuel src i (.MAP acc)
      = .ok (.MAP (acc ++ denote_members ms), i + (render_members ms).length) := by
  induction ms generalizing fuel i acc with
  | nil => exact absurd rfl hne
  | cons m ms ih =>
    obtain ⟨k, x⟩ := m
    obtain ⟨hk, hx, _, hdist, hms⟩ := (members_ok_cons_iff k x ms).mp hok
    obtain ⟨hk1, hk2, _, hk4⟩ := (quotable_iff 128 k).mp hk
    rw [render_members_cons] at hsrc hfuel ⊢
    simp only [List.length_cons, List.length_append] at hfuel ⊢
    obtain ⟨f, rfl⟩ : ∃ f, fuel = f + 1 := ⟨fuel - 1, by omega⟩
    have hsrc0 : src.drop i = 34 :: (k ++ 34 :: (58 :: (x.render
        ++ ((if ms.isEmpty then [] else 44 :: render_members ms) ++ 125 :: suf)))) := by
      simpa using hsrc
    have hsrc1 := drop_succ_of_drop hsrc0
    have hsrc2 : src.drop (i + 1 + k.length + 1) = 58 :: (x.render
        ++ ((if ms.isEmpty then [] else 44 :: render_members ms) ++ 125 :: suf)) :=
      drop_succ_of_drop (drop_add_of_drop _ _ hsrc1)
    have hsrc3 := drop_succ_of_drop hsrc2
    have hsrc4 := drop_add_of_drop _ _ hsrc3
    have hstop : ∀ c r, ((if ms.isEmpty then [] else 44 :: render_members ms) ++ 125 :: suf)
        = c :: r → c ≠ 46 ∧ isdigit c = false := by
      intro c r hcr
      cases ms with
      | nil =>
        simp only [List.isEmpty_nil, if_true, List.nil_append, List.cons.injEq] at hcr
        rw [← hcr.1]; decide
      | cons m' ms' =>
        simp only [List.isEmpty_cons, Bool.false_eq_true, if_false, List.cons_append,
          List.cons.injEq] at hcr
        rw [← hcr.1]; decide
    rw [parse_json_object_loop_succ, char_at_of_drop hsrc0]
    simp only [ne_eq, not_true_eq_false, if_false]
    rw [hsrc1, scan_quoted_body 128 k hk1 _ (i + 1) [] (by simpa using hk4)]
    simp only [List.nil_append]
    rw [if_neg (Nat.ne_of_lt (length_of_drop_nil_cons hsrc2)), char_at_of_drop hsrc2]
    simp only [ne_eq, not_true_eq_false, if_false]
    rw [parse_value_closed x hx f src _ _ hsrc3 hstop (by omega)]
    simp only [denote_not_error, Bool.false_eq_true, if_false]
    cases ms with
    | nil =>
      have hsrc5 : src.drop (i + 1 + k.length + 1 + 1 + x.render.length) = 125 :: suf := by
        simpa using hsrc4
      rw [char_at_of_drop hsrc5]
      simp only [ne_eq, show ¬ (125 = 44) by omega, not_false_eq_true, if_true,
        not_true_eq_false, if_false, c_str_of_no_zero k hk2,
        assign_str_fresh acc k x.denote (fun e he => hfresh e he (k, x) (List.mem_cons_self _ _)),
        denote_members, List.isEmpty_nil, List.length_nil]
      rw [show i + 1 + k.length + 1 + 1 + x.render.length
        = i + (k.length + (x.render.length + 0 + 1 + 1) + 1) by omega]
    | cons m' ms' =>
      have hsrc5 : src.drop (i + 1 + k.length + 1 + 1 + x.render.length)
          = 44 :: (render_members (m' :: ms') ++ 125 :: suf) := by
        simpa using hsrc4
      simp only [List.isEmpty_cons, Bool.false_eq_true, if_false, List.length_cons] at hfuel ⊢
      rw [char_at_of_drop hsrc5]
      simp only [ne_eq, not_true_eq_false, if_false, c_str_of_no_zero k hk2,
        assign_str_fresh acc k x.denote (fun e he => hfresh e he (k, x) (List.mem_cons_self _ _))]
      rw [ih (by simp) hms f _ (acc ++ [(k, x.denote)]) ?_ (drop_succ_of_drop hsrc5) (by omega)]
      · simp only [denote_members, List.append_assoc, List.singleton_append]
        rw [show i + 1 + k.length + 1 + 1 + x.render.length + 1
            + (render_members (m' :: ms')).length
          = i + (k.length + (x.render.length + ((render_members (m' :: ms')).length + 1) + 1 + 1)
            + 1) by omega]
      · intro e he m hm
        rcases List.mem_append.mp he with h1 | h1
        · exact hfresh e h1 m (List.mem_cons_of_mem _ hm)
        · simp only [List.mem_singleton] at h1
          subst h1
          exact fun heq => hdist m hm heq.symm

/-- The scan copies the members of an object text whose values are in scope. -/
theorem sanitize_members (ms : List (Bytes × Json)) (hok : members_ok ms = true)
    (rest : Bytes) (st : List Nat) (out : Bytes) (st' : List Nat) (hst : st.length ≤ 1)
    (h : ∀ k, sanitize_loop rest k st = .ok (.ok (out, st'))) (i : Nat) :
    sanitize_loop (render_members ms ++ rest) i st
      = .ok (.ok (render_members ms ++ out, st')) := by
  induction ms generalizing i with
  | nil => simpa [render_members] using h i
  | cons m ms ih =>
    obtain ⟨k, x⟩ := m
    obtain ⟨hk, hx, hdx, _, hms⟩ := (members_ok_cons_iff k x ms).mp hok
    have htail : ∀ p, sanitize_loop ((if ms.isEmpty then [] else 44 :: render_members ms) ++ rest)
        p st = .ok (.ok ((if ms.isEmpty then [] else 44 :: render_members ms) ++ out, st')) := by
      intro p
      cases ms with
      | nil => simpa using h p
      | cons m' ms' =>
        have := sanitize_loop_plain_all [44] (by decide) _ st _ st' (fun q => ih hms q) p
        simpa using this
    have hval := sanitize_render x hx _ st _ st' (by omega) htail
    have hcolon : ∀ p, sanitize_loop (58 :: (x.render
        ++ ((if ms.isEmpty then [] else 44 :: render_members ms) ++ rest))) p st
        = .ok (.ok (58 :: (x.render
        ++ ((if ms.isEmpty then [] else 44 :: render_members ms) ++ out)), st')) := by
      intro p
      have := sanitize_loop_plain_all [58] (by decide) _ st _ st' hval p
      simpa using this
    have := sanitize_loop_quoted 128 k hk _ st _ st' hcolon i
    rw [render_members_cons]
    simpa using this

/-- The pass leaves an object text whose values are in scope as it is. -/
theorem sanitize_object (ms : List (Bytes × Json)) (hok : members_ok ms = true) :
    sanitize (123 :: (render_members ms ++ [125]))
      = .ok (.ok (123 :: (render_members ms ++ [125]))) := by
  rw [sanitize_ok_iff]
  refine ⟨?_, by simp⟩
  have hclose : ∀ k, sanitize_loop [125] k [125] = .ok (.ok ([125], [])) := fun k =>
    sanitize_loop_close 125 (Or.inr rfl) [] k [] [] [] (by rw [sanitize_loop])
  exact sanitize_loop_open_brace _ 0 [] _ [] (by simp)
    (sanitize_members ms hok [125] [125] [125] [] (by simp) hclose 1)

/-- An object text whose values are in scope parses to the Map of its members. -/
theorem parse_json_object_text (ms : List (Bytes × Json)) (hne : ms ≠ [])
    (hok : members_ok ms = true) :
    parse_json (123 :: (render_members ms ++ [125])) = .ok (.MAP (denote_members ms)) := by
  have hsrc0 : (123 :: (render_members ms ++ [125])).drop 0
      = 123 :: (render_members ms ++ [125]) := rfl
  have hsrc1 := drop_succ_of_drop hsrc0
  obtain ⟨m, ms', rfl⟩ := List.exists_cons_of_ne_nil hne
  obtain ⟨k, x⟩ := m
  have hsrc1' : (123 :: (render_members ((k, x) :: ms') ++ [125])).drop (0 + 1)
      = 34 :: ((k ++ 34 :: 58 :: (x.render
        ++ (if ms'.isEmpty then [] else 44 :: render_members ms'))) ++ [125]) := by
    rw [hsrc1, render_members_cons]; simp
  rw [parse_json_of_sanitize (sanitize_object _ hok), parse_json_value_succ,
    char_at_of_drop hsrc0]
  simp only [show ¬ ((48 ≤ 123 ∧ 123 ≤ 57) ∨ 123 = 45) by omega, if_false,
    show ¬ (123 = 34) by omega, if_true]
  rw [show 3 * (123 :: (render_members ((k, x) :: ms') ++ [125])).length + 2
    = (3 * (123 :: (render_members ((k, x) :: ms') ++ [125])).length + 1) + 1 by omega,
    parse_json_object_succ, char_at_of_drop hsrc1']
  simp only [show ¬ (34 = 125) by omega, if_false]
  rw [parse_object_loop_members _ hne hok _ _ (0 + 1) [] [] (by simp) hsrc1
    (by simp only [List.length_cons, List.length_append, List.length_singleton]; omega)]
  simp

theorem render_members_eq_intercalate (ms : List (Bytes × Json)) :
    render_members ms = [44].intercalate (ms.map render_member) := by
  induction ms with
  | nil => simp [render_members, List.intercalate]
  | cons m ms ih =>
    obtain ⟨k, x⟩ := m
    cases ms with
    | nil => simp [render_members, render_member, List.intercalate]
    | cons m' ms' =>
      rw [render_members_cons, ih]
      simp [render_member, List.intercalate]

theorem denote_members_eq_zip (ms : List (Bytes × Json)) :
    denote_members ms = (ms.map Prod.fst).zip (ms.map (fun m => m.2.denote)) := by
  induction ms with
  | nil => rfl
  | cons m ms ih =>
    obtain ⟨k, x⟩ := m
    simp [denote_members, ih]

theorem forall₂_parse_members (ms : List (Bytes × Json)) (hok : members_ok ms = true) :
    List.Forall₂ (fun m v => parse_json m.2.render = .ok v) ms
      (ms.map (fun m => m.2.denote)) := by
  induction ms with
  | nil => simp
  | cons m ms ih =>
    obtain ⟨k, x⟩ := m
    obtain ⟨_, hx, hdx, _, hms⟩ := (members_ok_cons_iff k x ms).mp hok
    exact List.Forall₂.cons (parse_json_closed x hx (by omega)) (ih hms)

/-! ## Decimal text -/

theorem digits_value_append_one (ds : Bytes) (d : Nat) :
    digits_value (ds ++ [d]) = 10 * digits_value ds + (d - 48) := by
  simp [digits_value, List.foldl_append]

/-- What `digits_of` puts in front of `acc`, given enough fuel. -/
theorem digits_of_spec (fuel : Nat) : ∀ (n : Nat) (acc : Bytes), n < fuel →
    ∃ ds, digits_of fuel n acc = ds ++ acc ∧ ds ≠ [] ∧ (∀ c ∈ ds, isdigit c = true) ∧
      digits_value ds = n ∧ ∀ k, 1 ≤ k → n < 10 ^ k → ds.length ≤ k := by
  induction fuel with
  | zero => intro n acc h; omega
  | succ fuel ih =>
    intro n acc hn
    rw [digits_of]
    by_cases h10 : n < 10
    · rw [if_pos h10]
      refine ⟨[48 + n], rfl, by simp, ?_, ?_, ?_⟩
      · intro c hc
        simp only [List.mem_singleton] at hc
        subst hc
        exact (isdigit_iff _).mpr (by omega)
      · simp [digits_value]
      · intro k hk _
        simpa using hk
    · rw [if_neg h10]
      obtain ⟨ds, hds, _, hdig, hval, hlen⟩ := ih (n / 10) ((48 + n % 10) :: acc) (by omega)
      refine ⟨ds ++ [48 + n % 10], by rw [hds]; simp, by simp, ?_, ?_, ?_⟩
      · intro c hc
        rcases List.mem_append.mp hc with h | h
        · exact hdig c h
        · simp only [List.mem_singleton] at h
          subst h
          exact (isdigit_iff _).mpr (by omega)
      · rw [digits_value_append_one, hval]
        omega
      · intro k hk hnk
        obtain ⟨k', rfl⟩ : ∃ k', k = k' + 1 := ⟨k - 1, by omega⟩
        have hk' : 1 ≤ k' := by
          by_contra hcon
          have : k' = 0 := by omega
          subst this
          simp at hnk
          omega
        have := hlen k' hk' (by rw [Nat.pow_succ] at hnk; omega)
        simp only [List.length_append, List.length_singleton]
        omega

theorem to_string_nat_spec (n : Nat) :
    to_string_nat n ≠ [] ∧ (∀ c ∈ to_string_nat n, isdigit c = true) ∧
      digits_value (to_string_nat n) = n ∧ ∀ k, 1 ≤ k → n < 10 ^ k → (to_string_nat n).length ≤ k
    := by
  obtain ⟨ds, hds, h1, h2, h3, h4⟩ := digits_of_spec (n + 1) n [] (by omega)
  unfold to_string_nat
  rw [hds, List.append_nil]
  exact ⟨h1, h2, h3, h4⟩

theorem to_string_nat_length (n : Nat) (h : n < 2 ^ 64) : (to_string_nat n).length ≤ 20 :=
  (to_string_nat_spec n).2.2.2 20 (by omega) (by omega)

/-! ## The trees of the round trip and their texts -/

theorem var_closed_cons_iff (x : var) (xs : List var) :
    var.closed_list (x :: xs) = true ↔ x.closed = true ∧ var.closed_list xs = true := by
  simp [var.closed_list]

theorem var_closed_array_iff (xs : List var) :
    (var.ARRAY xs).closed = true ↔ xs ≠ [] ∧ var.closed_list xs = true := by
  cases xs <;> simp [var.closed]

mutual
/-- The text of a `closed` tree is in scope and stands for the tree. -/
theorem syn_spec : ∀ (v : var), v.closed = true →
    v.syn.closed = true ∧ v.syn.denote = v ∧ v.syn.depth = v.depth
  | .NULL, _ => ⟨rfl, rfl, rfl⟩
  | .BOOL _, _ => ⟨rfl, rfl, rfl⟩
  | .UINT u, h => by
    have hu : u < 2 ^ 64 := by simpa [var.closed] using h
    obtain ⟨h1, h2, h3, _⟩ := to_string_nat_spec u
    have h4 := to_string_nat_length u hu
    refine ⟨?_, ?_, rfl⟩
    · rw [var.syn, closed_uint_iff]
      exact ⟨h1, h2, by omega, by rw [h3]; exact hu⟩
    · rw [var.syn, Json.denote, h3]
  | .INT i, h => by
    have hi : -(2 ^ 63 : Int) ≤ i ∧ i < 0 := by simpa [var.closed] using h
    obtain ⟨h1, h2, h3, _⟩ := to_string_nat_spec i.natAbs
    have h4 := to_string_nat_length i.natAbs (by omega)
    refine ⟨?_, ?_, rfl⟩
    · rw [var.syn, closed_nint_iff]
      exact ⟨h1, h2, by omega, by rw [h3]; omega⟩
    · rw [var.syn, Json.denote, h3]
      congr 1
      omega
  | .ARRAY xs, h => by
    obtain ⟨hne, hcl⟩ := (var_closed_array_iff xs).mp h
    obtain ⟨h1, h2, h3⟩ := syn_list_spec xs hcl
    refine ⟨?_, ?_, ?_⟩
    · rw [var.syn, closed_arr_iff]
      refine ⟨?_, h1⟩
      cases xs with
      | nil => exact absurd rfl hne
      | cons x xs => simp [var.syn_list]
    · rw [var.syn, denote_arr, h2]
    · rw [var.syn, depth_arr, h3, var.depth]
  | .ERROR _, h => by simp [var.closed] at h
  | .FLOAT _, h => by simp [var.closed] at h
  | .CHAR _, h => by simp [var.closed] at h
  | .STR _, h => by simp [var.closed] at h
  | .MAP _, h => by simp [var.closed] at h
/-- The texts of a list of `closed` trees are in scope and stand for the trees. -/
theorem syn_list_spec : ∀ (xs : List var), var.closed_list xs = true →
    Json.closed_list (var.syn_list xs) = true ∧ Json.denote_list (var.syn_list xs) = xs ∧
      Json.depth_list (var.syn_list xs) = var.depth_list xs
  | [], _ => ⟨rfl, rfl, rfl⟩
  | x :: xs, h => by
    obtain ⟨hx, hxs⟩ := (var_closed_cons_iff x xs).mp h
    obtain ⟨h1, h2, h3⟩ := syn_spec x hx
    obtain ⟨h4, h5, h6⟩ := syn_list_spec xs hxs
    refine ⟨?_, ?_, ?_⟩
    · rw [var.syn_list, closed_list_cons_iff]; exact ⟨h1, h4⟩
    · rw [var.syn_list, denote_list_cons, h2, h5]
    · rw [var.syn_list, depth_list_cons, h3, h6, var.depth_list]
end

theorem to_string_array_cons (x : var) (xs : List var) (i : Nat) :
    to_string_array (x :: xs) i
      = (if i > 0 then txt ", " else []) ++ to_string x ++ to_string_array xs (i + 1) := by
  rw [to_string_array]

theorem to_string_array_eq (xs : List var) :
    to_string (.ARRAY xs) = txt "[" ++ to_string_array xs 0 ++ txt "]" := by
  rw [to_string]

theorem to_string_map_eq (m : List (Bytes × var)) :
    to_string (.MAP m) = txt "\x7b\n" ++ to_string_map m 0 m.length ++ txt "\x7d" := by
  rw [to_string]

theorem to_string_map_cons (k : Bytes) (v : var) (es : List (Bytes × var)) (curr size : Nat) :
    to_string_map ((k, v) :: es) curr size
      = txt "\t\"" ++ k ++ txt "\": " ++ indent (to_string v)
        ++ (if curr + 1 < size then txt "," else []) ++ txt "\n"
        ++ to_string_map es (curr + 1) size := by
  rw [to_string_map]

theorem to_string_uint (u : Nat) : to_string (.UINT u) = to_string_nat u := by
  rw [to_string]

theorem to_string_negative (i : Int) (h : i < 0) :
    to_string (.INT i) = 45 :: to_string_nat i.natAbs := by
  rw [to_string, to_string_int, if_pos h]

mutual
/-- The scan turns the rendering of a `closed` tree into its text without white space. -/
theorem sanitize_to_string : ∀ (v : var), v.closed = true →
    ∀ (rest : Bytes) (st : List Nat) (out : Bytes) (st' : List Nat),
    st.length + v.depth ≤ 127 → (∀ k, sanitize_loop rest k st = .ok (.ok (out, st'))) →
    ∀ i, sanitize_loop (to_string v ++ rest) i st = .ok (.ok (v.syn.render ++ out, st'))
  | .NULL, _, rest, st, out, st', _, h => by
    intro i
    exact sanitize_loop_plain_all (txt "null") (by decide) rest st out st' h i
  | .BOOL true, _, rest, st, out, st', _, h => by
    intro i
    exact sanitize_loop_plain_all (txt "true") (by decide) rest st out st' h i
  | .BOOL false, _, rest, st, out, st', _, h => by
    intro i
    exact sanitize_loop_plain_all (txt "false") (by decide) rest st out st' h i
  | .UINT u, _, rest, st, out, st', _, h => by
    intro i
    rw [to_string_uint, var.syn, Json.render]
    exact sanitize_loop_plain_all _
      (fun c hc => plain_of_isdigit ((to_string_nat_spec u).2.1 c hc)) rest st out st' h i
  | .INT n, hc, rest, st, out, st', _, h => by
    intro i
    have hn : -(2 ^ 63 : Int) ≤ n ∧ n < 0 := by simpa [var.closed] using hc
    rw [to_string_negative n hn.2, var.syn, Json.render]
    refine sanitize_loop_plain_all _ (fun c hcd => ?_) rest st out st' h i
    rcases List.mem_cons.mp hcd with h1 | h1
    · subst h1; decide
    · exact plain_of_isdigit ((to_string_nat_spec n.natAbs).2.1 c h1)
  | .ARRAY xs, hc, rest, st, out, st', hdepth, h => by
    intro i
    obtain ⟨hne, hcl⟩ := (var_closed_array_iff xs).mp hc
    match xs, hne, hcl, hdepth with
    | x :: xs', _, hcl, hdepth =>
      obtain ⟨hx, hxs⟩ := (var_closed_cons_iff x xs').mp hcl
      simp only [var.depth, var.depth_list] at hdepth
      have hclose : ∀ k, sanitize_loop (93 :: rest) k (93 :: st) = .ok (.ok (93 :: out, st')) :=
        fun k => sanitize_loop_close 93 (Or.inl rfl) rest k st out st' (h _)
      have htail := sanitize_to_string_tail xs' hxs 1 (by omega) (93 :: rest) (93 :: st)
        (93 :: out) st' (by simp only [List.length_cons]; omega) hclose
      have hval := sanitize_to_string x hx _ (93 :: st) _ st'
        (by simp only [List.length_cons]; omega) htail (i + 1)
      have := sanitize_loop_open_bracket _ i st _ st' (by omega) hval
      rw [to_string_array_eq, to_string_array_cons, var.syn, var.syn_list, render_arr,
        render_list_cons]
      simpa [txt] using this
  | .ERROR _, hc, _, _, _, _, _, _ => by simp [var.closed] at hc
  | .FLOAT _, hc, _, _, _, _, _, _ => by simp [var.closed] at hc
  | .CHAR _, hc, _, _, _, _, _, _ => by simp [var.closed] at hc
  | .STR _, hc, _, _, _, _, _, _ => by simp [var.closed] at hc
  | .MAP _, hc, _, _, _, _, _, _ => by simp [var.closed] at hc
/-- The scan turns the rendering of the elements after the first into their texts, each
behind its comma. -/
theorem sanitize_to_string_tail : ∀ (xs : List var), var.closed_list xs = true →
    ∀ (idx : Nat), idx > 0 → ∀ (rest : Bytes) (st : List Nat) (out : Bytes) (st' : List Nat),
    st.length + var.depth_list xs ≤ 127 →
    (∀ k, sanitize_loop rest k st = .ok (.ok (out, st'))) →
    ∀ i, sanitize_loop (to_string_array xs idx ++ rest) i st
      = .ok (.ok (Json.render_tail (var.syn_list xs) ++ out, st'))
  | [], _, idx, _, rest, st, out, st', _, h => by
    intro i
    simpa [to_string_array, var.syn_list, Json.render_tail] using h i
  | x :: xs, hcl, idx, hidx, rest, st, out, st', hdepth, h => by
    intro i
    obtain ⟨hx, hxs⟩ := (var_closed_cons_iff x xs).mp hcl
    simp only [var.depth_list] at hdepth
    have htail := sanitize_to_string_tail xs hxs (idx + 1) (by omega) rest st out st'
      (by omega) h
    have hval := sanitize_to_string x hx _ st _ st' (by omega) htail
    have hsp : ∀ k, sanitize_loop (32 :: (to_string x ++ (to_string_array xs (idx + 1) ++ rest)))
        k st = .ok (.ok (x.syn.render ++ (Json.render_tail (var.syn_list xs) ++ out), st')) :=
      fun k => by rw [sanitize_loop_drop 32 (by decide)]; exact hval (k + 1)
    have := sanitize_loop_plain_all [44] (by decide) _ st _ st' hsp i
    rw [to_string_array_cons, if_pos hidx, var.syn_list, Json.render_tail]
    simpa [txt] using this
end

mutual
/-- The rendering of a `closed` tree holds no newline. -/
theorem to_string_no_newline : ∀ (v : var), v.closed = true → ∀ c ∈ to_string v, c ≠ 10
  | .NULL, _ => by decide
  | .BOOL true, _ => by decide
  | .BOOL false, _ => by decide
  | .UINT u, _ => by
    intro c hc
    rw [to_string_uint] at hc
    have := (isdigit_iff c).mp ((to_string_nat_spec u).2.1 c hc)
    omega
  | .INT n, h => by
    intro c hc
    have hn : -(2 ^ 63 : Int) ≤ n ∧ n < 0 := by simpa [var.closed] using h
    rw [to_string_negative n hn.2] at hc
    rcases List.mem_cons.mp hc with h1 | h1
    · omega
    · have := (isdigit_iff c).mp ((to_string_nat_spec n.natAbs).2.1 c h1)
      omega
  | .ARRAY xs, h => by
    intro c hc
    obtain ⟨_, hcl⟩ := (var_closed_array_iff xs).mp h
    rw [to_string_array_eq] at hc
    simp only [txt, List.mem_append] at hc
    rcases hc with (h1 | h1) | h1
    · simp at h1; omega
    · exact to_string_array_no_newline xs hcl 0 c h1
    · simp at h1; omega
  | .ERROR _, h => by simp [var.closed] at h
  | .FLOAT _, h => by simp [var.closed] at h
  | .CHAR _, h => by simp [var.closed] at h
  | .STR _, h => by simp [var.closed] at h
  | .MAP _, h => by simp [var.closed] at h
/-- The rendering of a list of `closed` trees holds no newline. -/
theorem to_string_array_no_newline : ∀ (xs : List var), var.closed_list xs = true →
    ∀ (idx : Nat), ∀ c ∈ to_string_array xs idx, c ≠ 10
  | [], _, _ => by simp [to_string_array]
  | x :: xs, h, idx => by
    intro c hc
    obtain ⟨hx, hxs⟩ := (var_closed_cons_iff x xs).mp h
    rw [to_string_array_cons] at hc
    simp only [List.mem_append] at hc
    rcases hc with (h1 | h1) | h1
    · split at h1
      · simp [txt] at h1; omega
      · simp at h1
    · exact to_string_no_newline x hx c h1
    · exact to_string_array_no_newline xs hxs (idx + 1) c h1
end

theorem indent_of_no_newline (t : Bytes) (h : ∀ c ∈ t, c ≠ 10) : indent t = t := by
  induction t with
  | nil => rfl
  | cons c t ih =>
    rw [indent, if_neg (h c (List.mem_cons_self _ _)),
      ih (fun x hx => h x (List.mem_cons_of_mem _ hx))]

theorem entries_ok_cons_iff (d : Nat) (k : Bytes) (v : var) (es : List (Bytes × var)) :
    entries_ok d ((k, v) :: es) = true ↔
      quotable 128 k = true ∧ v.closed = true ∧ v.depth ≤ d ∧ (∀ e ∈ es, e.1 ≠ k) ∧
        entries_ok d es = true := by
  simp [entries_ok, and_assoc]

/-- The members that the entries of a Map in scope are rendered as. -/
theorem members_of_entries (es : List (Bytes × var)) (h : entries_ok 126 es = true) :
    members_ok (es.map (fun e => (e.1, e.2.syn))) = true ∧
      denote_members (es.map (fun e => (e.1, e.2.syn))) = es := by
  induction es with
  | nil => exact ⟨rfl, rfl⟩
  | cons e es ih =>
    obtain ⟨k, v⟩ := e
    obtain ⟨hk, hv, hd, hdist, hes⟩ := (entries_ok_cons_iff 126 k v es).mp h
    obtain ⟨h1, h2, h3⟩ := syn_spec v hv
    obtain ⟨h4, h5⟩ := ih hes
    refine ⟨?_, ?_⟩
    · show members_ok ((k, v.syn) :: es.map (fun e => (e.1, e.2.syn))) = true
      rw [members_ok_cons_iff]
      refine ⟨hk, h1, by omega, ?_, h4⟩
      intro m hm
      obtain ⟨e', he', rfl⟩ := List.mem_map.mp hm
      exact hdist e' he'
    · show denote_members ((k, v.syn) :: es.map (fun e => (e.1, e.2.syn))) = (k, v) :: es
      rw [denote_members, h2, h5]

/-- The scan turns the rendering of the entries of a Map in scope into the text of its
members without white space. -/
theorem sanitize_to_string_map (es : List (Bytes × var)) (h : entries_ok 126 es = true)
    (curr size : Nat) (hsize : size = curr + es.length)
    (rest : Bytes) (st : List Nat) (out : Bytes) (st' : List Nat) (hst : st.length ≤ 1)
    (hrest : ∀ k, sanitize_loop rest k st = .ok (.ok (out, st'))) (i : Nat) :
    sanitize_loop (to_string_map es curr size ++ rest) i st
      = .ok (.ok (render_members (es.map (fun e => (e.1, e.2.syn))) ++ out, st')) := by
  induction es generalizing curr i with
  | nil => simpa [to_string_map, render_members] using hrest i
  | cons e es ih =>
    obtain ⟨k, v⟩ := e
    obtain ⟨hk, hv, hd, _, hes⟩ := (entries_ok_cons_iff 126 k v es).mp h
    simp only [List.length_cons] at hsize
    have hnext : ∀ p, sanitize_loop (to_string_map es (curr + 1) size ++ rest) p st
        = .ok (.ok (render_members (es.map (fun e => (e.1, e.2.syn))) ++ out, st')) :=
      fun p => ih hes (curr + 1) (by omega) p
    have hsep : ∀ p, sanitize_loop ((if curr + 1 < size then txt "," else [])
          ++ (10 :: (to_string_map es (curr + 1) size ++ rest))) p st
        = .ok (.ok ((if (es.map (fun e => (e.1, e.2.syn))).isEmpty then []
            else 44 :: render_members (es.map (fun e => (e.1, e.2.syn)))) ++ out, st')) := by
      intro p
      cases es with
      | nil =>
        rw [if_neg (by simp at hsize; omega)]
        simp only [List.nil_append, List.map_nil, List.isEmpty_nil, if_true]
        rw [sanitize_loop_drop 10 (by decide)]
        simpa [to_string_map, render_members] using hrest (p + 1)
      | cons e' es' =>
        rw [if_pos (by simp at hsize; omega)]
        have hnl : ∀ q, sanitize_loop (10 :: (to_string_map (e' :: es') (curr + 1) size ++ rest))
            q st = .ok (.ok (render_members ((e' :: es').map (fun e => (e.1, e.2.syn))) ++ out,
              st')) :=
          fun q => by rw [sanitize_loop_drop 10 (by decide)]; exact hnext (q + 1)
        have := sanitize_loop_plain_all [44] (by decide) _ st _ st' hnl p
        simpa [txt] using this
    have hval := sanitize_to_string v hv _ st _ st' (by omega) hsep
    have hcolon : ∀ p, sanitize_loop (58 :: 32 :: (to_string v
          ++ ((if curr + 1 < size then txt "," else [])
          ++ (10 :: (to_string_map es (curr + 1) size ++ rest))))) p st
        = .ok (.ok (58 :: (v.syn.render
          ++ ((if (es.map (fun e => (e.1, e.2.syn))).isEmpty then []
            else 44 :: render_members (es.map (fun e => (e.1, e.2.syn)))) ++ out)), st')) := by
      intro p
      have hsp : ∀ q, sanitize_loop (32 :: (to_string v
          ++ ((if curr + 1 < size then txt "," else [])
          ++ (10 :: (to_string_map es (curr + 1) size ++ rest))))) q st
          = .ok (.ok (v.syn.render
          ++ ((if (es.map (fun e => (e.1, e.2.syn))).isEmpty then []
            else 44 :: render_members (es.map (fun e => (e.1, e.2.syn)))) ++ out), st')) :=
        fun q => by rw [sanitize_loop_drop 32 (by decide)]; exact hval (q + 1)
      have := sanitize_loop_plain_all [58] (by decide) _ st _ st' hsp p
      simpa using this
    have hq := sanitize_loop_quoted 128 k hk _ st _ st' hcolon (i + 1)
    rw [to_string_map_cons, indent_of_no_newline _ (to_string_no_newline v hv)]
    show sanitize_loop _ i st
      = .ok (.ok (render_members ((k, v.syn) :: es.map (fun e => (e.1, e.2.syn))) ++ out, st'))
    rw [render_members_cons]
    have htab : sanitize_loop (9 :: 34 :: (k ++ 34 :: 58 :: 32 :: (to_string v
          ++ ((if curr + 1 < size then txt "," else [])
          ++ (10 :: (to_string_map es (curr + 1) size ++ rest)))))) i st
        = .ok (.ok (34 :: (k ++ 34 :: 58 :: (v.syn.render
          ++ ((if (es.map (fun e => (e.1, e.2.syn))).isEmpty then []
            else 44 :: render_members (es.map (fun e => (e.1, e.2.syn)))) ++ out))), st')) := by
      rw [sanitize_loop_drop 9 (by decide)]; exact hq
    simpa [txt] using htab

/-- The pass turns the rendering of a Map in scope into its object text. -/
theorem sanitize_to_string_of_map (m : List (Bytes × var)) (h : entries_ok 126 m = true) :
    sanitize (to_string (.MAP m))
      = .ok (.ok (123 :: (render_members (m.map (fun e => (e.1, e.2.syn))) ++ [125]))) := by
  rw [sanitize_ok_iff]
  refine ⟨?_, by simp⟩
  have hclose : ∀ k, sanitize_loop [125] k [125] = .ok (.ok ([125], [])) := fun k =>
    sanitize_loop_close 125 (Or.inr rfl) [] k [] [] [] (by rw [sanitize_loop])
  have hbody := sanitize_to_string_map m h 0 m.length (by omega) [125] [125] [125] []
    (by simp) hclose
  have hnl : sanitize_loop (10 :: (to_string_map m 0 m.length ++ [125])) 1 [125]
      = .ok (.ok (render_members (m.map (fun e => (e.1, e.2.syn))) ++ [125], [])) := by
    rw [sanitize_loop_drop 10 (by decide)]; exact hbody 2
  have := sanitize_loop_open_brace _ 0 [] _ [] (by simp) hnl
  rw [to_string_map_eq]
  simpa [txt] using this

/-- The pass turns the rendering of a `closed` tree into its text without white space. -/
theorem sanitize_to_string_closed (v : var) (hc : v.closed = true) (hd : v.depth ≤ 127) :
    sanitize (to_string v) = .ok (.ok v.syn.render) := by
  rw [sanitize_ok_iff]
  have := sanitize_to_string v hc [] [] [] [] (by simpa using hd)
    (fun k => by rw [sanitize_loop]) 0
  simp only [List.append_nil] at this
  obtain ⟨c, r, hcr, _⟩ := render_head v.syn (syn_spec v hc).1
  exact ⟨this, by rw [hcr]; simp⟩

/-- The result of `parse_json` is determined by the outcome of the pass. -/
theorem parse_json_congr {src src' : Bytes} {t : Bytes} (h : sanitize src = .ok (.ok t))
    (h' : sanitize src' = .ok (.ok t)) : parse_json src = parse_json src' := by
  rw [parse_json_of_sanitize h, parse_json_of_sanitize h']

/-! ## The fuel of the descent never runs out -/

theorem advances_ok (i : Nat) (v : var) (j : Nat) (h : i ≤ j) : advances i (.ok (v, j)) := by
  refine ⟨by simp, ?_⟩
  intro v' j' heq
  simp only [Except.ok.injEq, Prod.mk.injEq] at heq
  omega

theorem advances_error (i : Nat) (f : Fault) (h : f ≠ .fuel) : advances i (.error f) := by
  refine ⟨by simpa using h, ?_⟩
  intro v j heq
  cases heq

theorem advances_mono {i j : Nat} {r : Except Fault (var × Nat)} (h : advances j r)
    (hij : i ≤ j) : advances i r :=
  ⟨h.1, fun v k hk => Nat.le_trans hij (h.2 v k hk)⟩

theorem char_at_error {src : Bytes} {i : Nat} {f : Fault} (h : char_at src i = .error f) :
    f = .bad_read := by
  unfold char_at at h
  split at h
  · cases h
  · split at h
    · cases h
    · simp only [Except.error.injEq] at h
      exact h.symm

theorem char_at_lt {src : Bytes} {i c : Nat} (h : char_at src i = .ok c) (hc : c ≠ 0) :
    i < src.length := by
  unfold char_at at h
  split at h
  · rename_i x hx
    exact (List.getElem?_eq_some_iff.mp hx).1
  · split at h
    · simp only [Except.ok.injEq] at h
      exact absurd h.symm hc
    · cases h

theorem number_loop_advances (rest : Bytes) : ∀ (i : Nat) (dec : Bool) (tmp : Bytes),
    number_loop rest i dec tmp ≠ .error .fuel ∧
    (∀ r, number_loop rest i dec tmp = .ok (.error r) → i ≤ r.2) ∧
    (∀ t d j, number_loop rest i dec tmp = .ok (.ok (t, d, j)) → i ≤ j) := by
  induction rest with
  | nil =>
    intro i dec tmp
    simp only [number_loop]
    refine ⟨by simp, by simp, ?_⟩
    intro t d j h
    simp only [Except.ok.injEq, Prod.mk.injEq] at h
    omega
  | cons c rest ih =>
    intro i dec tmp
    rw [number_loop]
    split
    · split
      · refine ⟨by simp, ?_, by simp⟩
        intro r h
        simp only [Except.ok.injEq, Except.error.injEq] at h
        rw [← h]
      · split
        · exact ⟨by simp, by simp, by simp⟩
        · obtain ⟨h1, h2, h3⟩ := ih (i + 1) true (tmp ++ [c])
          exact ⟨h1, fun r hr => by have := h2 r hr; omega,
            fun t d j hj => by have := h3 t d j hj; omega⟩
    · split
      · refine ⟨by simp, by simp, ?_⟩
        intro t d j h
        simp only [Except.ok.injEq, Prod.mk.injEq] at h
        omega
      · split
        · exact ⟨by simp, by simp, by simp⟩
        · obtain ⟨h1, h2, h3⟩ := ih (i + 1) dec (tmp ++ [c])
          exact ⟨h1, fun r hr => by have := h2 r hr; omega,
            fun t d j hj => by have := h3 t d j hj; omega⟩

theorem stoll_ne_fuel (s : Bytes) : stoll s ≠ .error .fuel := by
  unfold stoll
  simp only
  split
  · simp
  · split <;> split <;> simp

theorem stoull_ne_fuel (s : Bytes) : stoull s ≠ .error .fuel := by
  unfold stoull
  simp only
  split
  · simp
  · split <;> simp

theorem stod_numeral_ne_fuel (s : Bytes) : stod_numeral s ≠ .error .fuel := by
  unfold stod_numeral
  simp only
  split <;> split <;> simp

theorem map_advances {α : Type} (r : Except Fault α) (g : α → var) (j i : Nat)
    (h : r ≠ .error .fuel) (hij : i ≤ j) : advances i (r.map (fun d => (g d, j))) := by
  cases r with
  | error f => exact advances_error i f (by simpa using h)
  | ok a => exact advances_ok i _ j hij

theorem finish_number_advances (tmp : Bytes) (dec neg : Bool) (i j : Nat) (hij : i ≤ j) :
    advances i (finish_number tmp dec neg j) := by
  unfold finish_number
  split
  · exact advances_error i _ (by simp)
  · split
    · exact map_advances _ var.FLOAT j i (stod_numeral_ne_fuel tmp) hij
    · split
      · exact map_advances _ var.INT j i (stoll_ne_fuel tmp) hij
      · exact map_advances _ var.UINT j i (stoull_ne_fuel tmp) hij

theorem parse_number_advances (src : Bytes) (i first : Nat) :
    advances i (parse_number src i first) := by
  unfold parse_number
  obtain ⟨h1, h2, h3⟩ := number_loop_advances (src.drop (i + 1)) (i + 1) false [first]
  split
  · rename_i f hf
    exact advances_error i f (fun h => h1 (by rw [hf, h]))
  · rename_i r hr
    have := h2 r hr
    exact advances_ok i r.1 r.2 (by omega)
  · rename_i t d j hj
    have := h3 t d j hj
    exact finish_number_advances t d _ i j (by omega)

theorem scan_quoted_advances (cap : Nat) (rest : Bytes) : ∀ (i : Nat) (tmp : Bytes),
    scan_quoted cap rest i tmp ≠ .error .fuel ∧
    ∀ t j, scan_quoted cap rest i tmp = .ok (t, j) → i < j := by
  induction rest with
  | nil =>
    intro i tmp
    simp only [scan_quoted]
    split <;> exact ⟨by simp, by simp⟩
  | cons c rest ih =>
    intro i tmp
    rw [scan_quoted]
    split
    · split
      · exact ⟨by simp, by simp⟩
      · refine ⟨by simp, ?_⟩
        intro t j h
        simp only [Except.ok.injEq, Prod.mk.injEq] at h
        omega
    · split
      · exact ⟨by simp, by simp⟩
      · obtain ⟨h1, h2⟩ := ih (i + 1) (tmp ++ [c])
        exact ⟨h1, fun t j hj => by have := h2 t j hj; omega⟩

theorem parse_string_advances (src : Bytes) (i : Nat) : advances i (parse_string src i) := by
  unfold parse_string
  obtain ⟨h1, h2⟩ := scan_quoted_advances 256 (src.drop (i + 1)) (i + 1) []
  split
  · rename_i f hf
    exact advances_error i f (fun h => h1 (by rw [hf, h]))
  · rename_i t j hj
    have := h2 t j hj
    exact advances_ok i _ j (by omega)

theorem match_literal_advances (expect : Bytes) (src : Bytes) (start : Nat) : ∀ (i : Nat),
    match_literal expect src i start ≠ .error .fuel ∧
    (∀ r, match_literal expect src i start = .ok (.error r) → i ≤ r.2) ∧
    (∀ j, match_literal expect src i start = .ok (.ok j) → i ≤ j) := by
  induction expect with
  | nil =>
    intro i
    simp only [match_literal]
    refine ⟨by simp, by simp, ?_⟩
    intro j h
    simp only [Except.ok.injEq] at h
    omega
  | cons m ms ih =>
    intro i
    rw [match_literal]
    split
    · refine ⟨by simp, ?_, by simp⟩
      intro r h
      simp only [Except.ok.injEq, Except.error.injEq] at h
      rw [← h]
    · split
      · rename_i f hf
        have := char_at_error hf
        subst this
        exact ⟨by simp, by simp, by simp⟩
      · split
        · refine ⟨by simp, ?_, by simp⟩
          intro r h
          simp only [Except.ok.injEq, Except.error.injEq] at h
          rw [← h]
          simp
        · obtain ⟨h1, h2, h3⟩ := ih (i + 1)
          exact ⟨h1, fun r hr => by have := h2 r hr; omega,
            fun j hj => by have := h3 j hj; omega⟩

theorem parse_literal_advances (src : Bytes) (i : Nat) (expect : Bytes) (v : var) :
    advances i (parse_literal src i expect v) := by
  unfold parse_literal
  obtain ⟨h1, h2, h3⟩ := match_literal_advances expect src i (i + 1)
  split
  · rename_i f hf
    exact advances_error i f (fun h => h1 (by rw [hf, h]))
  · rename_i r hr
    have := h2 r hr
    exact advances_ok i r.1 r.2 (by omega)
  · rename_i j hj
    have := h3 j hj
    exact advances_ok i v j (by omega)

/-- With fuel for three calls per remaining byte, no routine of the descent runs out of
fuel, and none moves the cursor backwards. -/
theorem descent_advances (fuel : Nat) :
    (∀ src i, 3 * (src.length - i) + 1 ≤ fuel → advances i (parse_json_value fuel src i)) ∧
    (∀ src i, i < src.length → 3 * (src.length - i) ≤ fuel →
      advances i (parse_json_array fuel src i)) ∧
    (∀ src i arr index, 3 * (src.length - i) + 2 ≤ fuel →
      advances i (parse_json_array_loop fuel src i arr index)) ∧
    (∀ src i, i < src.length → 3 * (src.length - i) ≤ fuel →
      advances i (parse_json_object fuel src i)) ∧
    (∀ src i obj, 3 * (src.length - i) + 2 ≤ fuel →
      advances i (parse_json_object_loop fuel src i obj)) := by
  induction fuel with
  | zero =>
    exact ⟨fun src i h => by omega, fun src i hi h => by omega, fun _ _ _ _ h => by omega,
      fun src i hi h => by omega, fun _ _ _ h => by omega⟩
  | succ f ih =>
    obtain ⟨ihV, ihA, ihAL, ihO, ihOL⟩ := ih
    refine ⟨?_, ?_, ?_, ?_, ?_⟩
    · intro src i h
      rw [parse_json_value_succ]
      split
      · rename_i e he
        exact advances_error i e (by rw [char_at_error he]; simp)
      · rename_i first hfirst
        split
        · exact parse_number_advances src i first
        · split
          · exact parse_string_advances src i
          · split
            · rename_i hc
              exact ihO src i (char_at_lt hfirst (by omega)) (by omega)
            · split
              · rename_i hc
                exact ihA src i (char_at_lt hfirst (by omega)) (by omega)
              · split
                · exact parse_literal_advances src i _ _
                · split
                  · exact parse_literal_advances src i _ _
                  · split
                    · exact parse_literal_advances src i _ _
                    · exact advances_ok i _ i (Nat.le_refl i)
    · intro src i hi h
      rw [parse_json_array_succ]
      split
      · rename_i e he
        exact advances_error i e (by rw [char_at_error he]; simp)
      · split
        · exact advances_ok i _ (i + 1) (by omega)
        · exact advances_mono (ihAL src (i + 1) _ _ (by omega)) (by omega)
    · intro src i arr index h
      rw [parse_json_array_loop_succ]
      have hv := ihV src i (by omega)
      split
      · rename_i e he
        exact advances_error i e (fun hfu => hv.1 (by rw [he, hfu]))
      · rename_i v j hj
        have hij := hv.2 v j hj
        split
        · rename_i e he
          exact advances_error i e (by rw [char_at_error he]; simp)
        · rename_i c hc
          split
          · rename_i h44
            have hlt := char_at_lt hc (by omega)
            exact advances_mono (ihAL src (j + 1) _ _ (by omega)) (by omega)
          · exact advances_ok i _ (j + 1) (by omega)
    · intro src i hi h
      rw [parse_json_object_succ]
      split
      · rename_i e he
        exact advances_error i e (by rw [char_at_error he]; simp)
      · split
        · exact advances_ok i _ (i + 1) (by omega)
        · exact advances_mono (ihOL src (i + 1) _ (by omega)) (by omega)
    · intro src i obj h
      rw [parse_json_object_loop_succ]
      split
      · rename_i e he
        exact advances_error i e (by rw [char_at_error he]; simp)
      · split
        · exact advances_ok i _ i (Nat.le_refl i)
        · obtain ⟨hs1, hs2⟩ := scan_quoted_advances 128 (src.drop (i + 1)) (i + 1) []
          split
          · rename_i e he
            exact advances_error i e (fun hfu => hs1 (by rw [he, hfu]))
          · rename_i label j hj
            have hij := hs2 label j hj
            split
            · exact advances_ok i _ j (by omega)
            · split
              · rename_i e he
                exact advances_error i e (by rw [char_at_error he]; simp)
              · split
                · exact advances_ok i _ j (by omega)
                · have hv := ihV src (j + 1) (by omega)
                  split
                  · rename_i e he
                    exact advances_error i e (fun hfu => hv.1 (by rw [he, hfu]))
                  · rename_i m k hk
                    have hjk := hv.2 m k hk
                    split
                    · exact advances_ok i _ k (by omega)
                    · split
                      · rename_i e he
                        exact advances_error i e (by rw [char_at_error he]; simp)
                      · rename_i c2 hc2
                        split
                        · split
                          · exact advances_ok i _ k (by omega)
                          · exact advances_ok i _ k (by omega)
                        · rename_i h44
                          have hlt := char_at_lt hc2 (by
                            intro h0; apply h44; rw [h0]; omega)
                          exact advances_mono (ihOL src (k + 1) _ (by omega)) (by omega)

theorem emit_error {c : Nat} {r : Pass} {f : Fault} (h : emit c r = .error f) :
    r = .error f := by
  match r, h with
  | .error g, h => simpa [emit] using h
  | .ok (.error e), h => simp [emit] at h
  | .ok (.ok (o, s)), h => simp [emit] at h

/-- The scan of the sanitization pass stops with no other fault than a write past `pairs`
or a read of `pairs[0]`. -/
theorem sanitize_faults (rest : Bytes) :
    (∀ i st f, sanitize_loop rest i st = .error f → f = .buffer_overflow ∨ f = .uninit_read) ∧
    (∀ i prev st f, sanitize_string rest i prev st = .error f →
      f = .buffer_overflow ∨ f = .uninit_read) := by
  induction rest with
  | nil =>
    refine ⟨fun i st f h => ?_, fun i prev st f h => ?_⟩
    · simp [sanitize_loop] at h
    · simp [sanitize_string] at h
  | cons c rest ih =>
    obtain ⟨ihL, ihS⟩ := ih
    refine ⟨fun i st f h => ?_, fun i prev st f h => ?_⟩
    · rw [sanitize_loop_cons] at h
      split at h
      · exact ihL _ _ _ h
      · split at h
        · exact ihS _ _ _ _ (emit_error h)
        · split at h
          · split at h
            · simp only [Except.error.injEq] at h
              exact Or.inl h.symm
            · exact ihL _ _ _ (emit_error h)
          · split at h
            · split at h
              · simp only [Except.error.injEq] at h
                exact Or.inl h.symm
              · exact ihL _ _ _ (emit_error h)
            · split at h
              · split at h
                · simp only [Except.error.injEq] at h
                  exact Or.inr h.symm
                · split at h
                  · exact ihL _ _ _ (emit_error h)
                  · cases h
              · exact ihL _ _ _ (emit_error h)
    · rw [sanitize_string_cons] at h
      split at h
      · exact ihL _ _ _ (emit_error h)
      · exact ihS _ _ _ _ (emit_error h)

/-- The fuel that `parse_json` supplies is never used up: whatever the input, `parse_json`
does not stop for lack of fuel. -/
theorem parse_json_fuel (src : Bytes) : parse_json src ≠ .error .fuel := by
  unfold parse_json
  split
  · rename_i f hf
    unfold sanitize at hf
    split at hf
    · rename_i g hg
      simp only [Except.error.injEq] at hf
      subst hf
      rcases (sanitize_faults src).1 0 [] g hg with h | h <;> rw [h] <;> simp
    · cases hf
    · split at hf
      · cases hf
      · split at hf <;> cases hf
  · simp
  · rename_i src_mod _
    have := (descent_advances (3 * src_mod.length + 3)).1 src_mod 0 (by omega)
    split
    · rename_i f hf
      intro hfu
      apply this.1
      rw [hf]
      simpa using hfu
    · simp

/-! ## The indexing operators -/

theorem map_find_assign (m : List (Bytes × var)) (k key : Bytes) (x : var) :
    map_find (map_assign m k x) key = if key = k then some x else map_find m key := by
  induction m with
  | nil =>
    simp only [map_assign, map_find]
    by_cases h : key = k
    · rw [if_pos h.symm, if_pos h]
    · rw [if_neg (fun h' => h h'.symm), if_neg h]
  | cons e m ih =>
    obtain ⟨k', v'⟩ := e
    by_cases hk : k' = k
    · subst hk
      simp only [map_assign, if_true, map_find]
      by_cases h : k' = key
      · rw [if_pos h, if_pos h.symm]
      · rw [if_neg h, if_neg (fun h' => h h'.symm), if_neg h]
    · simp only [map_assign, if_neg hk, map_find, ih]
      by_cases h : k' = key
      · have hn : ¬ key = k := fun h' => hk (h.trans h')
        simp only [if_pos h, if_neg hn]
      · simp only [if_neg h]

theorem map_find_append_fresh (m : List (Bytes × var)) (k key : Bytes) (x : var)
    (h : map_find m k = none) :
    map_find (m ++ [(k, x)]) key = if key = k then some x else map_find m key := by
  induction m with
  | nil =>
    simp only [List.nil_append, map_find]
    by_cases hk : key = k
    · rw [if_pos hk.symm, if_pos hk]
    · rw [if_neg (fun h' => hk h'.symm), if_neg hk]
  | cons e m ih =>
    obtain ⟨k', v'⟩ := e
    simp only [map_find] at h
    by_cases hk : k' = k
    · rw [if_pos hk] at h; cases h
    · rw [if_neg hk] at h
      have ih' := ih h
      simp only [List.cons_append, map_find]
      by_cases hq : k' = key
      · have hn : ¬ key = k := fun h' => hk (hq.trans h')
        simp only [if_pos hq, if_neg hn]
      · simp only [if_neg hq]
        exact ih'

theorem map_find_touch (m : List (Bytes × var)) (k key : Bytes) :
    map_find (map_touch m k) key
      = if key = k then some ((map_find m k).getD .NULL) else map_find m key := by
  unfold map_touch
  cases hf : map_find m k with
  | some v =>
    simp only [Option.getD_some]
    by_cases hk : key = k
    · rw [if_pos hk, hk, hf]
    · rw [if_neg hk]
  | none =>
    simp only [Option.getD_none]
    exact map_find_append_fresh m k key .NULL hf

theorem to_string_nat_injective {a b : Nat} (h : to_string_nat a = to_string_nat b) : a = b := by
  have ha := (to_string_nat_spec a).2.2.1
  have hb := (to_string_nat_spec b).2.2.1
  rw [h] at ha
  omega

/-- The re-keying loop leaves every key other than its decimal keys as it was. -/
theorem map_find_rekey_other (xs : List var) : ∀ (i : Nat) (m : List (Bytes × var))
    (key : Bytes), (∀ j, j < xs.length → key ≠ to_string_nat (i + j)) →
    map_find (rekey xs i m) key = map_find m key := by
  induction xs with
  | nil => intro i m key _; rfl
  | cons x xs ih =>
    intro i m key h
    rw [rekey, ih (i + 1) _ key (fun j hj => by
      have := h (j + 1) (by simp only [List.length_cons]; omega)
      rwa [show i + (j + 1) = i + 1 + j by omega] at this),
      map_find_assign, if_neg (by simpa using h 0 (by simp))]

/-- The re-keying loop stores element `j` under the decimal text of its index. -/
theorem map_find_rekey (xs : List var) : ∀ (i : Nat) (m : List (Bytes × var)) (j : Nat),
    j < xs.length → map_find (rekey xs i m) (to_string_nat (i + j)) = xs[j]? := by
  induction xs with
  | nil => intro i m j hj; simp at hj
  | cons x xs ih =>
    intro i m j hj
    rw [rekey]
    cases j with
    | zero =>
      rw [map_find_rekey_other xs (i + 1) _ _ (fun j' _ heq => by
        have := to_string_nat_injective heq
        omega), map_find_assign]
      simp
    | succ j' =>
      simp only [List.length_cons] at hj
      rw [show i + (j' + 1) = i + 1 + j' by omega, ih (i + 1) _ j' (by omega)]
      simp

theorem keys_map_assign (m : List (Bytes × var)) (k : Bytes) (x : var) :
    ∀ key, key ∈ (map_assign m k x).map Prod.fst ↔ key = k ∨ key ∈ m.map Prod.fst := by
  induction m with
  | nil => intro key; simp [map_assign]
  | cons e m ih =>
    obtain ⟨k', v'⟩ := e
    intro key
    by_cases hk : k' = k
    · subst hk
      simp [map_assign]
    · simp only [map_assign, if_neg hk, List.map_cons, List.mem_cons, ih]
      tauto

theorem nodup_map_assign (m : List (Bytes × var)) (k : Bytes) (x : var)
    (h : (m.map Prod.fst).Nodup) : ((map_assign m k x).map Prod.fst).Nodup := by
  induction m with
  | nil => simp [map_assign]
  | cons e m ih =>
    obtain ⟨k', v'⟩ := e
    simp only [List.map_cons, List.nodup_cons] at h
    by_cases hk : k' = k
    · subst hk
      simpa [map_assign] using h
    · simp only [map_assign, if_neg hk, List.map_cons, List.nodup_cons]
      refine ⟨?_, ih h.2⟩
      rw [keys_map_assign]
      rintro (h1 | h1)
      · exact hk h1
      · exact h.1 h1

theorem nodup_rekey (xs : List var) : ∀ (i : Nat) (m : List (Bytes × var)),
    (m.map Prod.fst).Nodup → ((rekey xs i m).map Prod.fst).Nodup := by
  induction xs with
  | nil => intro i m h; exact h
  | cons x xs ih =>
    intro i m h
    rw [rekey]
    exact ih (i + 1) _ (nodup_map_assign m _ x h)

theorem map_find_none_iff (m : List (Bytes × var)) (key : Bytes) :
    map_find m key = none ↔ key ∉ m.map Prod.fst := by
  induction m with
  | nil => simp [map_find]
  | cons e m ih =>
    obtain ⟨k', v'⟩ := e
    simp only [map_find, List.map_cons, List.mem_cons, not_or]
    by_cases hk : k' = key
    · rw [if_pos hk]
      simp [hk]
    · rw [if_neg hk, ih]
      exact ⟨fun h => ⟨fun h' => hk h'.symm, h⟩, fun h => h.2⟩

theorem nodup_map_touch (m : List (Bytes × var)) (k : Bytes)
    (h : (m.map Prod.fst).Nodup) : ((map_touch m k).map Prod.fst).Nodup := by
  unfold map_touch
  cases hf : map_find m k with
  | some v => exact h
  | none =>
    simp only [List.map_append, List.map_cons, List.map_nil]
    rw [List.nodup_append]
    refine ⟨h, by simp, ?_⟩
    intro a ha hb
    simp only [List.mem_singleton] at hb
    subst hb
    exact (map_find_none_iff m a).mp hf ha

theorem keys_map_touch (m : List (Bytes × var)) (k : Bytes) :
    ∀ key, key ∈ (map_touch m k).map Prod.fst ↔ key = k ∨ key ∈ m.map Prod.fst := by
  intro key
  unfold map_touch
  cases hf : map_find m k with
  | some v =>
    constructor
    · exact fun h => Or.inr h
    · rintro (h | h)
      · subst h
        by_contra hc
        rw [(map_find_none_iff m key).mpr hc] at hf
        cases hf
      · exact h
  | none =>
    simp only [List.map_append, List.map_cons, List.map_nil, List.mem_append,
      List.mem_singleton]
    tauto

theorem keys_rekey (xs : List var) : ∀ (i : Nat) (m : List (Bytes × var)) (key : Bytes),
    key ∈ (rekey xs i m).map Prod.fst
      ↔ key ∈ m.map Prod.fst ∨ ∃ j, j < xs.length ∧ key = to_string_nat (i + j) := by
  induction xs with
  | nil => intro i m key; simp [rekey]
  | cons x xs ih =>
    intro i m key
    rw [rekey, ih, keys_map_assign]
    constructor
    · rintro ((h | h) | ⟨j, hj, h⟩)
      · exact Or.inr ⟨0, by simp, by simpa using h⟩
      · exact Or.inl h
      · exact Or.inr ⟨j + 1, by simp only [List.length_cons]; omega,
          by rw [h, show i + 1 + j = i + (j + 1) by omega]⟩
    · rintro (h | ⟨j, hj, h⟩)
      · exact Or.inl (Or.inr h)
      · cases j with
        | zero => exact Or.inl (Or.inl (by simpa using h))
        | succ j' =>
          simp only [List.length_cons] at hj
          exact Or.inr ⟨j', by omega, by rw [h, show i + (j' + 1) = i + 1 + j' by omega]⟩

theorem size_succ_of_lt {i : Nat} (h : i + 1 < 2 ^ 64) : size_succ i = i + 1 :=
  Nat.mod_eq_of_lt h

theorem resize_eq_grow (xs : List var) {i : Nat} (h : i + 1 < 2 ^ 64) :
    (if i ≥ xs.length then resize xs (size_succ i) else xs) = grow xs i := by
  unfold grow resize
  rw [size_succ_of_lt h]
  split
  · rw [List.take_of_length_le (by omega)]
  · rfl

/-! ## The sanitization pass and the brackets of the text -/

theorem emit_meets (c : Nat) (r : Pass) (u : Bool) (m : Option (List Nat))
    (h : scan_meets r u m) : scan_meets (emit c r) u m := by
  match r, h with
  | .ok (.error e), h => exact h
  | .ok (.ok (o, s)), h => exact h

theorem below33_not_special {c : Nat} (h : below33 c = true) :
    c ≠ 34 ∧ c ≠ 91 ∧ c ≠ 93 ∧ c ≠ 123 ∧ c ≠ 125 := by
  unfold below33 at h
  simp only [Bool.or_eq_true, decide_eq_true_eq] at h
  omega

theorem brackets_outside_cons (c : Nat) (rest : Bytes) :
    brackets_outside (c :: rest) =
      if c = 34 then brackets_inside rest c
      else if c = 91 ∨ c = 93 ∨ c = 123 ∨ c = 125 then c :: brackets_outside rest
      else brackets_outside rest := by
  rw [brackets_outside]

theorem brackets_inside_cons (c : Nat) (rest : Bytes) (prev : Nat) :
    brackets_inside (c :: rest) prev =
      if c = 34 ∧ prev ≠ 92 then brackets_outside rest else brackets_inside rest c := by
  rw [brackets_inside]

theorem ends_in_literal_cons (c : Nat) (rest : Bytes) :
    ends_in_literal (c :: rest) = if c = 34 then ends_inside rest c else ends_in_literal rest := by
  rw [ends_in_literal]

theorem ends_inside_cons (c : Nat) (rest : Bytes) (prev : Nat) :
    ends_inside (c :: rest) prev =
      if c = 34 ∧ prev ≠ 92 then ends_in_literal rest else ends_inside rest c := by
  rw [ends_inside]

theorem match_brackets_cons (c : Nat) (bs st : List Nat) :
    match_brackets (c :: bs) st =
      if c = 91 then match_brackets bs (93 :: st)
      else if c = 123 then match_brackets bs (125 :: st)
      else
        match st with
        | [] => none
        | top :: below => if top = c then match_brackets bs below else none := by
  cases st <;> simp [match_brackets]

/-- The scan agrees with the brackets of the text, outside and inside a string literal, as
long as the nesting stays below 128 and no closing bracket comes at depth 0. -/
theorem sanitize_meets (src : Bytes) :
    (∀ i st, nesting_within (brackets_outside src) st.length = true →
      scan_meets (sanitize_loop src i st) (ends_in_literal src)
        (match_brackets (brackets_outside src) st)) ∧
    (∀ i prev st, nesting_within (brackets_inside src prev) st.length = true →
      scan_meets (sanitize_string src i prev st) (ends_inside src prev)
        (match_brackets (brackets_inside src prev) st)) := by
  induction src with
  | nil =>
    refine ⟨fun i st _ => ?_, fun i prev st _ => ?_⟩
    · simp [sanitize_loop, scan_meets, ends_in_literal, brackets_outside, match_brackets]
    · simp [sanitize_string, scan_meets, ends_inside, error, var.is_error]
  | cons c rest ih =>
    obtain ⟨ihL, ihS⟩ := ih
    refine ⟨fun i st hn => ?_, fun i prev st hn => ?_⟩
    · rw [sanitize_loop_cons]
      rw [brackets_outside_cons] at hn ⊢
      rw [ends_in_literal_cons]
      by_cases hw : below33 c = true
      · obtain ⟨h1, h2, h3, h4, h5⟩ := below33_not_special hw
        have hnb : ¬ (c = 91 ∨ c = 93 ∨ c = 123 ∨ c = 125) := by omega
        simp only [if_neg h1, if_neg hnb, if_pos hw] at hn ⊢
        exact ihL _ _ hn
      by_cases hq : c = 34
      · simp only [if_neg hw, if_pos hq] at hn ⊢
        exact emit_meets _ _ _ _ (ihS _ _ _ hn)
      by_cases hb : c = 91
      · subst hb
        simp only [true_or, if_true, nesting_within, Bool.and_eq_true, decide_eq_true_eq,
          if_neg hq] at hn
        simp only [if_neg hw, if_neg hq, true_or, if_true, match_brackets_cons,
          if_neg (show ¬ st.length ≥ 127 by omega)]
        exact emit_meets _ _ _ _ (ihL _ _ (by simpa using hn.2))
      by_cases hc : c = 123
      · subst hc
        simp only [or_true, true_or, if_true, nesting_within, Bool.and_eq_true,
          decide_eq_true_eq, if_neg hq] at hn
        simp only [if_neg hw, if_neg hq, if_neg hb, or_true, true_or, if_true,
          match_brackets_cons, if_neg (show ¬ st.length ≥ 127 by omega)]
        exact emit_meets _ _ _ _ (ihL _ _ (by simpa using hn.2))
      by_cases he : c = 93 ∨ c = 125
      · have hbr : c = 91 ∨ c = 93 ∨ c = 123 ∨ c = 125 := by omega
        simp only [if_neg hq, if_pos hbr] at hn
        rw [nesting_within, if_neg (by omega)] at hn
        simp only [Bool.and_eq_true, decide_eq_true_eq] at hn
        simp only [if_neg hw, if_neg hq, if_neg hb, if_neg hc, if_pos he, if_pos hbr,
          match_brackets_cons]
        cases st with
        | nil => simp at hn
        | cons top below =>
          simp only
          by_cases ht : top = c
          · simp only [if_pos ht]
            exact emit_meets _ _ _ _ (ihL _ _ (by simpa using hn.2))
          · simp only [if_neg ht]
            exact ⟨rfl, Or.inr rfl⟩
      · have hbr : ¬ (c = 91 ∨ c = 93 ∨ c = 123 ∨ c = 125) := by omega
        simp only [if_neg hw, if_neg hq, if_neg hb, if_neg hc, if_neg he, if_neg hbr] at hn ⊢
        exact emit_meets _ _ _ _ (ihL _ _ hn)
    · rw [sanitize_string_cons]
      rw [brackets_inside_cons] at hn ⊢
      rw [ends_inside_cons]
      by_cases hq : c = 34 ∧ prev ≠ 92
      · simp only [if_pos hq] at hn ⊢
        exact emit_meets _ _ _ _ (ihL _ _ hn)
      · simp only [if_neg hq] at hn ⊢
        exact emit_meets _ _ _ _ (ihS _ _ _ hn)

/-- The scan writes nothing exactly when every byte of the text is dropped. -/
theorem sanitize_loop_blank (src : Bytes) : ∀ (i : Nat) (st out st' : List Nat),
    sanitize_loop src i st = .ok (.ok (out, st')) →
    (out = [] ↔ ∀ c ∈ src, below33 c = true) := by
  induction src with
  | nil =>
    intro i st out st' h
    simp only [sanitize_loop, Except.ok.injEq, Prod.mk.injEq] at h
    simp [h.1.symm]
  | cons c rest ih =>
    intro i st out st' h
    rw [sanitize_loop_cons] at h
    by_cases hw : below33 c = true
    · rw [if_pos hw] at h
      rw [ih _ _ _ _ h]
      simp [hw]
    · rw [if_neg hw] at h
      have hout : ∃ tl, out = c :: tl := by
        split at h
        · obtain ⟨tl, h1, _⟩ := emit_ok h; exact ⟨tl, h1⟩
        · split at h
          · split at h
            · cases h
            · obtain ⟨tl, h1, _⟩ := emit_ok h; exact ⟨tl, h1⟩
          · split at h
            · split at h
              · cases h
              · obtain ⟨tl, h1, _⟩ := emit_ok h; exact ⟨tl, h1⟩
            · split at h
              · split at h
                · cases h
                · split at h
                  · obtain ⟨tl, h1, _⟩ := emit_ok h; exact ⟨tl, h1⟩
                  · cases h
              · obtain ⟨tl, h1, _⟩ := emit_ok h; exact ⟨tl, h1⟩
      obtain ⟨tl, rfl⟩ := hout
      constructor
      · intro h0; cases h0
      · intro hall
        exact absurd (hall c (List.mem_cons_self _ _)) hw

/-- A text without bytes to drop is copied as it is, outside and inside a literal. -/
theorem sanitize_loop_keep (src : Bytes) (h33 : ∀ c ∈ src, below33 c = false) :
    (∀ i st out st', sanitize_loop src i st = .ok (.ok (out, st')) → out = src) ∧
    (∀ i prev st out st', sanitize_string src i prev st = .ok (.ok (out, st')) → out = src) := by
  induction src with
  | nil =>
    refine ⟨fun i st out st' h => ?_, fun i prev st out st' h => ?_⟩
    · simp only [sanitize_loop, Except.ok.injEq, Prod.mk.injEq] at h
      exact h.1.symm
    · simp [sanitize_string] at h
  | cons c rest ih =>
    obtain ⟨ihL, ihS⟩ := ih (fun x hx => h33 x (List.mem_cons_of_mem _ hx))
    have hw : ¬ below33 c = true := by
      rw [h33 c (List.mem_cons_self _ _)]; simp
    refine ⟨fun i st out st' h => ?_, fun i prev st out st' h => ?_⟩
    · rw [sanitize_loop_cons, if_neg hw] at h
      split at h
      · obtain ⟨tl, rfl, h2⟩ := emit_ok h; rw [ihS _ _ _ _ _ h2]
      · split at h
        · split at h
          · cases h
          · obtain ⟨tl, rfl, h2⟩ := emit_ok h; rw [ihL _ _ _ _ h2]
        · split at h
          · split at h
            · cases h
            · obtain ⟨tl, rfl, h2⟩ := emit_ok h; rw [ihL _ _ _ _ h2]
          · split at h
            · split at h
              · cases h
              · split at h
                · obtain ⟨tl, rfl, h2⟩ := emit_ok h; rw [ihL _ _ _ _ h2]
                · cases h
            · obtain ⟨tl, rfl, h2⟩ := emit_ok h; rw [ihL _ _ _ _ h2]
    · rw [sanitize_string_cons] at h
      split at h
      · obtain ⟨tl, rfl, h2⟩ := emit_ok h; rw [ihL _ _ _ _ h2]
      · obtain ⟨tl, rfl, h2⟩ := emit_ok h; rw [ihS _ _ _ _ _ h2]

/-- A balanced sequence leaves the stack of expected closing brackets as it found it. -/
theorem match_brackets_balanced {w : List Nat} (h : Balanced w) :
    ∀ (rest st : List Nat), match_brackets (w ++ rest) st = match_brackets rest st := by
  induction h with
  | nil => intro rest st; rfl
  | @square w _ ih =>
    intro rest st
    rw [List.cons_append, match_brackets_cons, if_pos rfl, List.append_assoc, ih,
      List.singleton_append, match_brackets_cons, if_neg (by omega), if_neg (by omega)]
    simp
  | @curly w _ ih =>
    intro rest st
    rw [List.cons_append, match_brackets_cons, if_neg (by omega), if_pos rfl,
      List.append_assoc, ih, List.singleton_append, match_brackets_cons, if_neg (by omega),
      if_neg (by omega)]
    simp
  | @append u w _ _ ihu ihw =>
    intro rest st
    rw [List.append_assoc, ihu, ihw]

/-- A matched pair of brackets may be put anywhere into a balanced sequence. -/
theorem balanced_insert {w : List Nat} (h : Balanced w) (p : List Nat) (hp : Balanced p) :
    ∀ (u v : List Nat), w = u ++ v → Balanced (u ++ (p ++ v)) := by
  induction h with
  | nil =>
    intro u v huv
    obtain ⟨rfl, rfl⟩ := List.append_eq_nil.mp huv.symm
    simpa using hp
  | @square w hw ih =>
    intro u v huv
    cases u with
    | nil =>
      simp only [List.nil_append] at huv ⊢
      rw [← huv]
      exact Balanced.append hp (Balanced.square hw)
    | cons a u' =>
      simp only [List.cons_append, List.cons.injEq] at huv
      obtain ⟨rfl, huv⟩ := huv
      rcases List.eq_nil_or_concat v with rfl | ⟨v', b, rfl⟩
      · simp only [List.append_nil] at huv ⊢
        rw [← huv]
        have := Balanced.append (Balanced.square hw) hp
        simpa using this
      · rw [List.concat_eq_append, ← List.append_assoc] at huv
        obtain ⟨h1, h2⟩ := List.append_inj' huv rfl
        simp only [List.cons.injEq, and_true] at h2
        subst h2
        have := Balanced.square (ih u' v' h1)
        simpa [List.concat_eq_append] using this
  | @curly w hw ih =>
    intro u v huv
    cases u with
    | nil =>
      simp only [List.nil_append] at huv ⊢
      rw [← huv]
      exact Balanced.append hp (Balanced.curly hw)
    | cons a u' =>
      simp only [List.cons_append, List.cons.injEq] at huv
      obtain ⟨rfl, huv⟩ := huv
      rcases List.eq_nil_or_concat v with rfl | ⟨v', b, rfl⟩
      · simp only [List.append_nil] at huv ⊢
        rw [← huv]
        have := Balanced.append (Balanced.curly hw) hp
        simpa using this
      · rw [List.concat_eq_append, ← List.append_assoc] at huv
        obtain ⟨h1, h2⟩ := List.append_inj' huv rfl
        simp only [List.cons.injEq, and_true] at h2
        subst h2
        have := Balanced.curly (ih u' v' h1)
        simpa [List.concat_eq_append] using this
  | @append a b ha hb iha ihb =>
    intro u v huv
    rcases List.append_eq_append_iff.mp huv with ⟨a', rfl, rfl⟩ | ⟨c', rfl, rfl⟩
    · have := Balanced.append ha (ihb a' v rfl)
      simpa using this
    · have := Balanced.append (iha u c' rfl) hb
      simpa using this

/-- The opening brackets that a stack of expected closing brackets stands for, the bottom
of the stack first. -/
theorem match_brackets_sound : ∀ (bs st : List Nat), (∀ x ∈ st, x = 93 ∨ x = 125) →
    match_brackets bs st = some [] →
    Balanced ((st.reverse.map (fun x => if x = 93 then 91 else 123)) ++ bs) := by
  intro bs
  induction bs with
  | nil =>
    intro st _ h
    simp only [match_brackets, Option.some.injEq] at h
    subst h
    exact Balanced.nil
  | cons c bs ih =>
    intro st hst h
    rw [match_brackets_cons] at h
    by_cases hb : c = 91
    · subst hb
      rw [if_pos rfl] at h
      have := ih (93 :: st) (by
        intro x hx
        rcases List.mem_cons.mp hx with rfl | hx
        · exact Or.inl rfl
        · exact hst x hx) h
      simpa using this
    rw [if_neg hb] at h
    by_cases hc : c = 123
    · subst hc
      rw [if_pos rfl] at h
      have := ih (125 :: st) (by
        intro x hx
        rcases List.mem_cons.mp hx with rfl | hx
        · exact Or.inr rfl
        · exact hst x hx) h
      simpa using this
    rw [if_neg hc] at h
    cases st with
    | nil => simp at h
    | cons top below =>
      simp only at h
      by_cases ht : top = c
      · subst ht
        rw [if_pos rfl] at h
        have hrec := ih below (fun x hx => hst x (List.mem_cons_of_mem _ hx)) h
        have hpair : Balanced [if top = 93 then 91 else 123, top] := by
          rcases hst top (List.mem_cons_self _ _) with rfl | rfl
          · exact Balanced.square Balanced.nil
          · exact Balanced.curly Balanced.nil
        have := balanced_insert hrec _ hpair _ _ rfl
        simpa using this
      · rw [if_neg ht] at h
        cases h

/-- The stack machine accepts exactly the balanced bracket sequences. -/
theorem balanced_iff_match (bs : List Nat) :
    Balanced bs ↔ match_brackets bs [] = some [] := by
  constructor
  · intro h
    have := match_brackets_balanced h [] []
    simpa [match_brackets] using this
  · intro h
    have := match_brackets_sound bs [] (by simp) h
    simpa using this

/-- The two outcomes of the sanitization pass on a text whose bracket nesting stays below
128 and that has no closing bracket at depth 0: an Error value, when the text ends inside a
literal, its brackets are not balanced or every byte is dropped; the text for the parser
otherwise. -/
theorem sanitize_outcome (src : Bytes) (h : nesting_within (brackets_outside src) 0 = true) :
    (∃ msg, sanitize src = .ok (.error (.ERROR msg)) ∧
      (ends_in_literal src = true ∨ ¬ Balanced (brackets_outside src)
        ∨ ∀ c ∈ src, below33 c = true))
    ∨ (∃ t, sanitize src = .ok (.ok t) ∧ sanitize_loop src 0 [] = .ok (.ok (t, [])) ∧
      ends_in_literal src = false ∧ Balanced (brackets_outside src)
        ∧ ¬ ∀ c ∈ src, below33 c = true) := by
  have hm := (sanitize_meets src).1 0 [] h
  unfold sanitize
  cases hr : sanitize_loop src 0 [] with
  | error f => rw [hr] at hm; exact hm.elim
  | ok r =>
    cases r with
    | error e =>
      rw [hr] at hm
      obtain ⟨he, hcase⟩ := hm
      left
      cases e with
      | ERROR msg =>
        refine ⟨msg, rfl, ?_⟩
        rcases hcase with h1 | h1
        · exact Or.inl h1
        · refine Or.inr (Or.inl ?_)
          rw [balanced_iff_match, h1]
          simp
      | _ => simp [var.is_error] at he
    | ok p =>
      obtain ⟨out, st'⟩ := p
      rw [hr] at hm
      obtain ⟨hopen, hmatch⟩ := hm
      have hblank := sanitize_loop_blank src 0 [] out st' hr
      simp only
      by_cases ho : out = []
      · left
        rw [if_pos ho]
        exact ⟨_, rfl, Or.inr (Or.inr (hblank.mp ho))⟩
      · rw [if_neg ho]
        cases st' with
        | nil =>
          right
          refine ⟨out, rfl, rfl, hopen, (balanced_iff_match _).mpr hmatch, ?_⟩
          exact fun hb => ho (hblank.mpr hb)
        | cons top below =>
          left
          refine ⟨_, rfl, Or.inr (Or.inl ?_)⟩
          rw [balanced_iff_match, hmatch]
          simp

/-! ## The literal branch -/

/-- The matching loop returns an Error value when the text at the cursor does not begin with
the expected bytes. -/
theorem match_literal_mismatch (expect : Bytes) (src : Bytes) (start : Nat) :
    ∀ (i : Nat) (r : Bytes), i ≤ src.length → src.drop i = r → ¬ expect <+: r →
    ∃ msg j, match_literal expect src i start = .ok (.error (.ERROR msg, j)) := by
  induction expect with
  | nil => intro i r _ _ hp; exact absurd (List.nil_prefix) hp
  | cons m ms ih =>
    intro i r hi hr hp
    rw [match_literal]
    by_cases hend : i = src.length
    · rw [if_pos hend]
      exact ⟨_, _, rfl⟩
    · rw [if_neg hend]
      cases r with
      | nil =>
        have := List.drop_eq_nil_iff.mp hr
        omega
      | cons c r' =>
        rw [char_at_of_drop hr]
        simp only
        by_cases hc : c = m
        · subst hc
          simp only [ne_eq, not_true_eq_false, if_false]
          exact ih (i + 1) r' (length_of_drop_nil_cons hr) (drop_succ_of_drop hr)
            (fun hpre => hp ((List.prefix_cons_inj c).mpr hpre))
        · simp only [ne_eq, hc, not_false_eq_true, if_true]
          exact ⟨_, _, rfl⟩

/-- The literal branch returns an Error value on a text that starts with the first byte of
a word and does not begin with the word. -/
theorem parse_literal_mismatch (first : Nat) (expect : Bytes) (rest : Bytes) (v : var)
    (hp : ¬ (first :: expect) <+: (first :: rest)) :
    ∃ msg j, parse_literal (first :: rest) 0 expect v = .ok (.ERROR msg, j) := by
  unfold parse_literal
  obtain ⟨msg, j, h⟩ := match_literal_mismatch expect (first :: rest) 0 (0 + 1) rest
    (by simp) rfl
    (fun hpre => hp ((List.prefix_cons_inj first).mpr hpre))
  rw [h]
  exact ⟨msg, j, rfl⟩

/-! ## The rendering of a Map -/

theorem indent_eq_tab_after_newlines (s : Bytes) : indent s = tab_after_newlines s := by
  induction s with
  | nil => rfl
  | cons c s ih =>
    rw [indent, ih]
    unfold tab_after_newlines
    by_cases h : c = 10
    · simp [h]
    · simp [h]

theorem tab_after_newlines_append (a b : Bytes) :
    tab_after_newlines (a ++ b) = tab_after_newlines a ++ tab_after_newlines b := by
  unfold tab_after_newlines
  rw [List.flatMap_append]

theorem nested_zero (s : Bytes) : nested 0 s = s := rfl

theorem nested_succ (d : Nat) (s : Bytes) :
    nested (d + 1) s = nested d (tab_after_newlines s) := rfl

theorem nested_append (d : Nat) : ∀ (a b : Bytes),
    nested d (a ++ b) = nested d a ++ nested d b := by
  induction d with
  | zero => intro a b; rfl
  | succ d ih =>
    intro a b
    rw [nested_succ, nested_succ, nested_succ, tab_after_newlines_append, ih]

theorem tab_after_newlines_plain (s : Bytes) (h : ∀ c ∈ s, c ≠ 10) :
    tab_after_newlines s = s := by
  rw [← indent_eq_tab_after_newlines, indent_of_no_newline s h]

theorem nested_plain (d : Nat) (s : Bytes) (h : ∀ c ∈ s, c ≠ 10) : nested d s = s := by
  induction d with
  | zero => rfl
  | succ d ih => rw [nested_succ, tab_after_newlines_plain s h, ih]

theorem nested_newline (d : Nat) : nested d [10] = 10 :: List.replicate d 9 := by
  induction d with
  | zero => rfl
  | succ d ih =>
    rw [nested_succ, show tab_after_newlines [10] = [10] ++ [9] by rfl, nested_append, ih,
      nested_plain d [9] (by decide), List.replicate_succ']
    rfl

/-- The entry loop of `to_string` writes the lines of the entries; under `d` enclosing Maps
each line starts with `d + 1` tabs. -/
theorem nested_to_string_map (d : Nat) (es : List (Bytes × var)) : ∀ (curr size : Nat),
    size = curr + es.length →
    List.replicate d 9 ++ nested d (to_string_map es curr size)
      = entry_lines d (es.map (fun e => (e.1, to_string e.2))) ++ List.replicate d 9 := by
  induction es with
  | nil =>
    intro curr size _
    rw [to_string_map, nested_plain d [] (by simp)]
    simp [entry_lines]
  | cons e es ih =>
    obtain ⟨k, v⟩ := e
    intro curr size hsize
    simp only [List.length_cons] at hsize
    have hcomma : (if curr + 1 < size then txt "," else []) = (if es.isEmpty then [] else txt ",") := by
      cases es with
      | nil =>
        simp only [List.length_nil] at hsize
        simp only [List.isEmpty_nil, if_true]
        rw [if_neg (by omega)]
      | cons e' es' =>
        simp only [List.length_cons] at hsize
        simp only [List.isEmpty_cons, Bool.false_eq_true, if_false]
        rw [if_pos (by omega)]
    have hc : nested d (if es.isEmpty then [] else txt ",") = (if es.isEmpty then [] else txt ",") :=
      nested_plain d _ (by
        intro c hcm
        split at hcm
        · simp at hcm
        · have : c = 44 := by simpa [txt] using hcm
          omega)
    rw [to_string_map_cons, hcomma]
    simp only [nested_append, hc, indent_eq_tab_after_newlines, ← nested_succ]
    rw [nested_plain d (txt "\t\"") (by decide), nested_plain d (txt "\": ") (by decide),
      show txt "\n" = [10] by rfl, nested_newline]
    have hemp : (es.map (fun e => (e.1, to_string e.2))).isEmpty = es.isEmpty := by
      cases es <;> rfl
    simp only [List.map_cons, entry_lines, entry_line, hemp]
    have hrec := ih (curr + 1) size (by omega)
    rw [List.replicate_succ', show txt "\t\"" = [9, 34] by rfl,
      show txt "\": " = 34 :: txt ": " by rfl]
    simp only [List.append_assoc, List.cons_append, List.nil_append, List.singleton_append]
    rw [hrec]

/-- The rendering of a Map that lies under `d` enclosing Maps. -/
theorem nested_to_string (d : Nat) (m : List (Bytes × var)) :
    nested d (to_string (.MAP m)) = map_text d (m.map (fun e => (e.1, to_string e.2))) := by
  rw [to_string_map_eq, nested_append, nested_append,
    show txt "\x7b\n" = txt "\x7b" ++ [10] by rfl, nested_append,
    nested_plain d (txt "\x7b") (by decide), nested_plain d (txt "\x7d") (by decide),
    nested_newline]
  unfold map_text
  have h := nested_to_string_map d m 0 m.length (by simp)
  simp only [List.append_assoc, List.cons_append, List.nil_append, List.singleton_append]
  rw [← List.append_assoc (List.replicate d 9), h]
  simp

/-! ## A comma before the closing brace -/

theorem members_fit_cons_iff (k : Bytes) (x : Json) (ms : List (Bytes × Json)) :
    members_fit ((k, x) :: ms) = true ↔
      quotable 128 k = true ∧ x.closed = true ∧ x.depth ≤ 126 ∧ members_fit ms = true := by
  simp [members_fit, and_assoc]

/-- The scan copies the members of an object text whose values are in scope. -/
theorem sanitize_members_fit (ms : List (Bytes × Json)) (hok : members_fit ms = true)
    (rest : Bytes) (st : List Nat) (out : Bytes) (st' : List Nat) (hst : st.length ≤ 1)
    (h : ∀ k, sanitize_loop rest k st = .ok (.ok (out, st'))) (i : Nat) :
    sanitize_loop (render_members ms ++ rest) i st
      = .ok (.ok (render_members ms ++ out, st')) := by
  induction ms generalizing i with
  | nil => simpa [render_members] using h i
  | cons m ms ih =>
    obtain ⟨k, x⟩ := m
    obtain ⟨hk, hx, hdx, hms⟩ := (members_fit_cons_iff k x ms).mp hok
    have htail : ∀ p, sanitize_loop ((if ms.isEmpty then [] else 44 :: render_members ms) ++ rest)
        p st = .ok (.ok ((if ms.isEmpty then [] else 44 :: render_members ms) ++ out, st')) := by
      intro p
      cases ms with
      | nil => simpa using h p
      | cons m' ms' =>
        have := sanitize_loop_plain_all [44] (by decide) _ st _ st' (fun q => ih hms q) p
        simpa using this
    have hval := sanitize_render x hx _ st _ st' (by omega) htail
    have hcolon : ∀ p, sanitize_loop (58 :: (x.render
        ++ ((if ms.isEmpty then [] else 44 :: render_members ms) ++ rest))) p st
        = .ok (.ok (58 :: (x.render
        ++ ((if ms.isEmpty then [] else 44 :: render_members ms) ++ out)), st')) := by
      intro p
      have := sanitize_loop_plain_all [58] (by decide) _ st _ st' hval p
      simpa using this
    have := sanitize_loop_quoted 128 k hk _ st _ st' hcolon i
    rw [render_members_cons]
    simpa using this

/-- The pass leaves an object text with a comma before its closing brace as it is. -/
theorem sanitize_object_trailing (ms : List (Bytes × Json)) (hok : members_fit ms = true) :
    sanitize (123 :: (render_members ms ++ [44, 125]))
      = .ok (.ok (123 :: (render_members ms ++ [44, 125]))) := by
  rw [sanitize_ok_iff]
  refine ⟨?_, by simp⟩
  have hclose : ∀ k, sanitize_loop [125] k [125] = .ok (.ok ([125], [])) := fun k =>
    sanitize_loop_close 125 (Or.inr rfl) [] k [] [] [] (by rw [sanitize_loop])
  have hcomma : ∀ k, sanitize_loop [44, 125] k [125] = .ok (.ok ([44, 125], [])) := fun k =>
    sanitize_loop_plain_all [44] (by decide) [125] [125] [125] [] hclose k
  exact sanitize_loop_open_brace _ 0 [] _ [] (by simp)
    (sanitize_members_fit ms hok [44, 125] [125] [44, 125] [] (by simp) hcomma 1)

/-- The member loop, on members followed by a comma and the closing brace, reads the
members, takes the comma as the announcement of another member and returns an Error value
at the brace, which is no label. -/
theorem parse_object_loop_trailing (ms : List (Bytes × Json)) (hne : ms ≠ [])
    (hok : members_fit ms = true) (fuel : Nat) (src : Bytes) (i : Nat) (suf : Bytes)
    (obj : var) (hsrc : src.drop i = render_members ms ++ 44 :: 125 :: suf)
    (hfuel : 3 * (render_members ms).length + 2 ≤ fuel) :
    parse_json_object_loop fuel src i obj
      = .ok (error (txt "JSON: invalid label given for member at position: "
          ++ to_string_nat (i + (render_members ms).length + 1)),
        i + (render_members ms).length + 1) := by
  induction ms generalizing fuel i obj with
  | nil => exact absurd rfl hne
  | cons m ms ih =>
    obtain ⟨k, x⟩ := m
    obtain ⟨hk, hx, _, hms⟩ := (members_fit_cons_iff k x ms).mp hok
    obtain ⟨hk1, hk2, _, hk4⟩ := (quotable_iff 128 k).mp hk
    rw [render_members_cons] at hsrc hfuel ⊢
    simp only [List.length_cons, List.length_append] at hfuel ⊢
    obtain ⟨f, rfl⟩ : ∃ f, fuel = f + 1 := ⟨fuel - 1, by omega⟩
    have hsrc0 : src.drop i = 34 :: (k ++ 34 :: (58 :: (x.render
        ++ ((if ms.isEmpty then [] else 44 :: render_members ms) ++ 44 :: 125 :: suf)))) := by
      simpa using hsrc
    have hsrc1 := drop_succ_of_drop hsrc0
    have hsrc2 : src.drop (i + 1 + k.length + 1) = 58 :: (x.render
        ++ ((if ms.isEmpty then [] else 44 :: render_members ms) ++ 44 :: 125 :: suf)) :=
      drop_succ_of_drop (drop_add_of_drop _ _ hsrc1)
    have hsrc3 := drop_succ_of_drop hsrc2
    have hsrc4 := drop_add_of_drop _ _ hsrc3
    have hstop : ∀ c r,
        ((if ms.isEmpty then [] else 44 :: render_members ms) ++ 44 :: 125 :: suf)
        = c :: r → c ≠ 46 ∧ isdigit c = false := by
      intro c r hcr
      cases ms with
      | nil =>
        simp only [List.isEmpty_nil, if_true, List.nil_append, List.cons.injEq] at hcr
        rw [← hcr.1]; decide
      | cons m' ms' =>
        simp only [List.isEmpty_cons, Bool.false_eq_true, if_false, List.cons_append,
          List.cons.injEq] at hcr
        rw [← hcr.1]; decide
    rw [parse_json_object_loop_succ, char_at_of_drop hsrc0]
    simp only [ne_eq, not_true_eq_false, if_false]
    rw [hsrc1, scan_quoted_body 128 k hk1 _ (i + 1) [] (by simpa using hk4)]
    simp only [List.nil_append]
    rw [if_neg (Nat.ne_of_lt (length_of_drop_nil_cons hsrc2)), char_at_of_drop hsrc2]
    simp only [ne_eq, not_true_eq_false, if_false]
    rw [parse_value_closed x hx f src _ _ hsrc3 hstop (by omega)]
    simp only [denote_not_error, Bool.false_eq_true, if_false]
    cases ms with
    | nil =>
      have hsrc5 : src.drop (i + 1 + k.length + 1 + 1 + x.render.length)
          = 44 :: 125 :: suf := by
        simpa using hsrc4
      have hsrc6 := drop_succ_of_drop hsrc5
      simp only [List.isEmpty_nil, if_true, List.length_nil] at hfuel ⊢
      obtain ⟨f', rfl⟩ : ∃ f', f = f' + 1 := ⟨f - 1, by omega⟩
      rw [char_at_of_drop hsrc5]
      simp only [ne_eq, not_true_eq_false, if_false]
      rw [parse_json_object_loop_succ, char_at_of_drop hsrc6]
      simp only [ne_eq, show ¬ (125 = 34) by omega, not_false_eq_true, if_true]
      rw [show i + 1 + k.length + 1 + 1 + x.render.length + 1
        = i + (k.length + (x.render.length + 0 + 1 + 1) + 1) + 1 by omega]
    | cons m' ms' =>
      have hsrc5 : src.drop (i + 1 + k.length + 1 + 1 + x.render.length)
          = 44 :: (render_members (m' :: ms') ++ 44 :: 125 :: suf) := by
        simpa using hsrc4
      simp only [List.isEmpty_cons, Bool.false_eq_true, if_false, List.length_cons] at hfuel ⊢
      rw [char_at_of_drop hsrc5]
      simp only [ne_eq, not_true_eq_false, if_false]
      rw [ih (by simp) hms f _ _ (drop_succ_of_drop hsrc5) (by omega)]
      rw [show i + 1 + k.length + 1 + 1 + x.render.length + 1
          + (render_members (m' :: ms')).length + 1
        = i + (k.length + (x.render.length + ((render_members (m' :: ms')).length + 1) + 1 + 1)
          + 1) + 1 by omega]

/-- An object text with a comma before its closing brace parses to an Error value. -/
theorem parse_json_object_trailing (ms : List (Bytes × Json)) (hne : ms ≠ [])
    (hok : members_fit ms = true) :
    parse_json (123 :: (render_members ms ++ [44, 125]))
      = .ok (.ERROR (txt "JSON: invalid label given for member at position: "
          ++ to_string_nat ((render_members ms).length + 2))) := by
  have hsrc0 : (123 :: (render_members ms ++ [44, 125])).drop 0
      = 123 :: (render_members ms ++ [44, 125]) := rfl
  have hsrc1 := drop_succ_of_drop hsrc0
  obtain ⟨m, ms', rfl⟩ := List.exists_cons_of_ne_nil hne
  obtain ⟨k, x⟩ := m
  have hsrc1' : (123 :: (render_members ((k, x) :: ms') ++ [44, 125])).drop (0 + 1)
      = 34 :: ((k ++ 34 :: 58 :: (x.render
        ++ (if ms'.isEmpty then [] else 44 :: render_members ms'))) ++ [44, 125]) := by
    rw [hsrc1, render_members_cons]; simp
  rw [parse_json_of_sanitize (sanitize_object_trailing _ hok), parse_json_value_succ,
    char_at_of_drop hsrc0]
  simp only [show ¬ ((48 ≤ 123 ∧ 123 ≤ 57) ∨ 123 = 45) by omega, if_false,
    show ¬ (123 = 34) by omega, if_true]
  rw [show 3 * (123 :: (render_members ((k, x) :: ms') ++ [44, 125])).length + 2
    = (3 * (123 :: (render_members ((k, x) :: ms') ++ [44, 125])).length + 1) + 1 by omega,
    parse_json_object_succ, char_at_of_drop hsrc1']
  simp only [show ¬ (34 = 125) by omega, if_false]
  rw [parse_object_loop_trailing _ hne hok _ _ (0 + 1) [] (.MAP []) hsrc1
    (by simp only [List.length_cons, List.length_append]; omega)]
  simp only [error]
  rw [show 0 + 1 + (render_members ((k, x) :: ms')).length + 1
    = (render_members ((k, x) :: ms')).length + 2 by omega]

/-- A comma before the closing brace is rejected after members whose values leave the
cursor behind their text: for every non-empty list of members with labels that fit the
label buffer and value texts in scope, `parse_json` of the object text with a comma before
the closing brace returns an Error value, the brace being no label. -/
theorem comma_before_brace_rejected (ms : List (Bytes × Json)) (hne : ms ≠ [])
    (hok : members_fit ms = true) :
    parse_json (123 :: ([44].intercalate (ms.map render_member) ++ [44, 125]))
      = .ok (.ERROR (txt "JSON: invalid label given for member at position: "
          ++ to_string_nat (([44].intercalate (ms.map render_member)).length + 2))) := by
  rw [← render_members_eq_intercalate]
  exact parse_json_object_trailing ms hne hok

/-- An object or an empty array as the value of a member or as an element leaves the cursor
on its own closing bracket, which the loop around it takes for its own: what follows the
value is not read. -/
theorem cursor_left_on_closer :
    parse_json (txt "\x7b\"a\":\x7b\x7d,\"b\":1\x7d") = .ok (.MAP [(txt "a", .MAP [])])
      ∧ parse_json (txt "[[],1]") = .ok (.ARRAY [.ARRAY []]) :=
  ⟨by rfl, by rfl⟩

/-! ## Copies own fresh heap objects -/

mutual
/-- The copy stands for the same value. -/
theorem copy_value : ∀ (x : Node) (next : Nat), (copy x next).1.value = x.value
  | .ARRAY _ xs, next => by
    rw [copy, Node.value, Node.value, copy_list_value xs (next + 1)]
  | .MAP _ m, next => by
    rw [copy, Node.value, Node.value, copy_entries_value m (next + 1)]
  | .ERROR _ _, _ => rfl
  | .STR _ _, _ => rfl
  | .NULL, _ => rfl
  | .INT _, _ => rfl
  | .UINT _, _ => rfl
  | .FLOAT _, _ => rfl
  | .CHAR _, _ => rfl
  | .BOOL _, _ => rfl
theorem copy_list_value : ∀ (xs : List Node) (next : Nat),
    Node.values (copy_list xs next).1 = Node.values xs
  | [], _ => rfl
  | x :: xs, next => by
    rw [copy_list, Node.values, Node.values, copy_value x next,
      copy_list_value xs (copy x next).2]
theorem copy_entries_value : ∀ (m : List (Bytes × Node)) (next : Nat),
    Node.entries (copy_entries m next).1 = Node.entries m
  | [], _ => rfl
  | (k, x) :: m, next => by
    rw [copy_entries, Node.entries, Node.entries, copy_value x next,
      copy_entries_value m (copy x next).2]
end

mutual
/-- The copy reaches heap objects made during the copy only. -/
theorem copy_within : ∀ (x : Node) (next : Nat),
    next ≤ (copy x next).2 ∧ (copy x next).1.within next (copy x next).2
  | .ARRAY _ xs, next => by
    obtain ⟨h1, h2⟩ := copy_list_within xs (next + 1)
    rw [copy]
    refine ⟨by simp only; omega, ?_⟩
    intro p hp
    simp only [Node.addrs, List.mem_cons] at hp
    rcases hp with rfl | hp
    · simp only; omega
    · have := h2 p hp
      simp only; omega
  | .MAP _ m, next => by
    obtain ⟨h1, h2⟩ := copy_entries_within m (next + 1)
    rw [copy]
    refine ⟨by simp only; omega, ?_⟩
    intro p hp
    simp only [Node.addrs, List.mem_cons] at hp
    rcases hp with rfl | hp
    · simp only; omega
    · have := h2 p hp
      simp only; omega
  | .ERROR _ _, next => by
    rw [copy]
    refine ⟨by simp, ?_⟩
    intro p hp
    simp only [Node.addrs, List.mem_singleton] at hp
    subst hp
    simp
  | .STR _ _, next => by
    rw [copy]
    refine ⟨by simp, ?_⟩
    intro p hp
    simp only [Node.addrs, List.mem_singleton] at hp
    subst hp
    simp
  | .NULL, _ => ⟨Nat.le_refl _, fun p hp => by simp [copy, Node.addrs] at hp⟩
  | .INT _, _ => ⟨Nat.le_refl _, fun p hp => by simp [copy, Node.addrs] at hp⟩
  | .UINT _, _ => ⟨Nat.le_refl _, fun p hp => by simp [copy, Node.addrs] at hp⟩
  | .FLOAT _, _ => ⟨Nat.le_refl _, fun p hp => by simp [copy, Node.addrs] at hp⟩
  | .CHAR _, _ => ⟨Nat.le_refl _, fun p hp => by simp [copy, Node.addrs] at hp⟩
  | .BOOL _, _ => ⟨Nat.le_refl _, fun p hp => by simp [copy, Node.addrs] at hp⟩
theorem copy_list_within : ∀ (xs : List Node) (next : Nat),
    next ≤ (copy_list xs next).2 ∧
      ∀ p ∈ Node.addrs_list (copy_list xs next).1, next ≤ p ∧ p < (copy_list xs next).2
  | [], next => ⟨Nat.le_refl _, fun p hp => by simp [copy_list, Node.addrs_list] at hp⟩
  | x :: xs, next => by
    obtain ⟨h1, h2⟩ := copy_within x next
    obtain ⟨h3, h4⟩ := copy_list_within xs (copy x next).2
    rw [copy_list]
    refine ⟨by simp only; omega, ?_⟩
    intro p hp
    simp only [Node.addrs_list, List.mem_append] at hp
    rcases hp with hp | hp
    · have := h2 p hp
      simp only; omega
    · have := h4 p hp
      simp only; omega
theorem copy_entries_within : ∀ (m : List (Bytes × Node)) (next : Nat),
    next ≤ (copy_entries m next).2 ∧
      ∀ p ∈ Node.addrs_entries (copy_entries m next).1,
        next ≤ p ∧ p < (copy_entries m next).2
  | [], next => ⟨Nat.le_refl _, fun p hp => by simp [copy_entries, Node.addrs_entries] at hp⟩
  | (k, x) :: m, next => by
    obtain ⟨h1, h2⟩ := copy_within x next
    obtain ⟨h3, h4⟩ := copy_entries_within m (copy x next).2
    rw [copy_entries]
    refine ⟨by simp only; omega, ?_⟩
    intro p hp
    simp only [Node.addrs_entries, List.mem_append] at hp
    rcases hp with hp | hp
    · have := h2 p hp
      simp only; omega
    · have := h4 p hp
      simp only; omega
end

mutual
/-- A variable does not hold an object whose address it does not reach. -/
theorem find_none : ∀ (b : Node) (p : Nat), p ∉ b.addrs → b.find p = none
  | .ARRAY q xs, p, h => by
    simp only [Node.addrs, List.mem_cons, not_or] at h
    rw [Node.find, if_neg (fun hq => h.1 hq.symm)]
    exact find_list_none xs p h.2
  | .MAP q m, p, h => by
    simp only [Node.addrs, List.mem_cons, not_or] at h
    rw [Node.find, if_neg (fun hq => h.1 hq.symm)]
    exact find_entries_none m p h.2
  | .ERROR q _, p, h => by
    simp only [Node.addrs, List.mem_singleton] at h
    rw [Node.find, if_neg (fun hq => h hq.symm)]
  | .STR q _, p, h => by
    simp only [Node.addrs, List.mem_singleton] at h
    rw [Node.find, if_neg (fun hq => h hq.symm)]
  | .NULL, _, _ => rfl
  | .INT _, _, _ => rfl
  | .UINT _, _, _ => rfl
  | .FLOAT _, _, _ => rfl
  | .CHAR _, _, _ => rfl
  | .BOOL _, _, _ => rfl
theorem find_list_none : ∀ (xs : List Node) (p : Nat), p ∉ Node.addrs_list xs →
    Node.find_list p xs = none
  | [], _, _ => rfl
  | x :: xs, p, h => by
    simp only [Node.addrs_list, List.mem_append, not_or] at h
    rw [Node.find_list, find_none x p h.1, find_list_none xs p h.2]
    rfl
theorem find_entries_none : ∀ (m : List (Bytes × Node)) (p : Nat),
    p ∉ Node.addrs_entries m → Node.find_entries p m = none
  | [], _, _ => rfl
  | (k, x) :: m, p, h => by
    simp only [Node.addrs_entries, List.mem_append, not_or] at h
    rw [Node.find_entries, find_none x p h.1, find_entries_none m p h.2]
    rfl
end

mutual
/-- A variable that shares no heap object with `b` is as it was after a statement on `b`. -/
theorem sync_disjoint (b : Node) : ∀ (a : Node), (∀ p ∈ a.addrs, p ∉ b.addrs) →
    Node.sync b a = a
  | .ARRAY q xs, h => by
    have hq := find_none b q (h q (by simp [Node.addrs]))
    rw [Node.sync, hq, sync_list_disjoint b xs (fun p hp => h p (by simp [Node.addrs, hp]))]
    rfl
  | .MAP q m, h => by
    have hq := find_none b q (h q (by simp [Node.addrs]))
    rw [Node.sync, hq, sync_entries_disjoint b m (fun p hp => h p (by simp [Node.addrs, hp]))]
    rfl
  | .ERROR q _, h => by
    have hq := find_none b q (h q (by simp [Node.addrs]))
    rw [Node.sync, hq]
    rfl
  | .STR q _, h => by
    have hq := find_none b q (h q (by simp [Node.addrs]))
    rw [Node.sync, hq]
    rfl
  | .NULL, _ => rfl
  | .INT _, _ => rfl
  | .UINT _, _ => rfl
  | .FLOAT _, _ => rfl
  | .CHAR _, _ => rfl
  | .BOOL _, _ => rfl
theorem sync_list_disjoint (b : Node) : ∀ (xs : List Node),
    (∀ p ∈ Node.addrs_list xs, p ∉ b.addrs) → Node.sync_list b xs = xs
  | [], _ => rfl
  | x :: xs, h => by
    rw [Node.sync_list, sync_disjoint b x (fun p hp => h p (by simp [Node.addrs_list, hp])),
      sync_list_disjoint b xs (fun p hp => h p (by simp [Node.addrs_list, hp]))]
theorem sync_entries_disjoint (b : Node) : ∀ (m : List (Bytes × Node)),
    (∀ p ∈ Node.addrs_entries m, p ∉ b.addrs) → Node.sync_entries b m = m
  | [], _ => rfl
  | (k, x) :: m, h => by
    rw [Node.sync_entries,
      sync_disjoint b x (fun p hp => h p (by simp [Node.addrs_entries, hp])),
      sync_entries_disjoint b m (fun p hp => h p (by simp [Node.addrs_entries, hp]))]
end

theorem within_null (lo hi : Nat) : Node.NULL.within lo hi := fun p hp => by
  simp [Node.addrs] at hp

theorem getD_within {xs : List Node} {lo hi : Nat} (h : ∀ x ∈ xs, x.within lo hi) (i : Nat) :
    (xs.getD i .NULL).within lo hi := by
  rw [List.getD_eq_getElem?_getD]
  cases hx : xs[i]? with
  | none => exact within_null lo hi
  | some x =>
    obtain ⟨hi', hget⟩ := List.getElem?_eq_some_iff.mp hx
    exact h x (hget ▸ List.getElem_mem hi')

theorem subscript_nat_shape (x : Node) (i next : Nat) :
    (∃ p xs, x.subscript_nat i next = (.ARRAY p xs, (x.subscript_nat i next).2)) ∨
    (∃ p m, x.subscript_nat i next = (.MAP p m, (x.subscript_nat i next).2)) := by
  cases x with
  | MAP p m => exact Or.inr ⟨p, _, rfl⟩
  | ARRAY p xs => exact Or.inl ⟨p, _, rfl⟩
  | _ => exact Or.inl ⟨next, _, rfl⟩

/-- After the integer index operator with an index below `2 ^ 64 - 1` the vector has an
element at the index. -/
theorem subscript_nat_slot (x : Node) (i next p : Nat) (xs : List Node)
    (hi : i + 1 < 2 ^ 64) (hs : (x.subscript_nat i next).1 = .ARRAY p xs) : i < xs.length := by
  have hsucc : size_succ i = i + 1 := Nat.mod_eq_of_lt hi
  cases x with
  | ARRAY q ys =>
    simp only [Node.subscript_nat, Node.ARRAY.injEq] at hs
    rw [← hs.2]
    split
    · simp only [resize_nodes, hsucc, List.length_append, List.length_take,
        List.length_replicate]
      omega
    · omega
  | MAP q m => simp [Node.subscript_nat] at hs
  | _ =>
    simp only [Node.subscript_nat, Node.ARRAY.injEq] at hs
    rw [← hs.2, hsucc, List.length_replicate]
    omega

theorem values_eq_map (xs : List Node) : Node.values xs = xs.map Node.value := by
  induction xs with
  | nil => rfl
  | cons x xs ih => rw [Node.values, ih]; rfl

theorem entries_eq_map (m : List (Bytes × Node)) :
    Node.entries m = m.map (fun e => (e.1, e.2.value)) := by
  induction m with
  | nil => rfl
  | cons e m ih =>
    obtain ⟨k, x⟩ := e
    rw [Node.entries, ih]; rfl

theorem values_resize (xs : List Node) (n : Nat) :
    Node.values (resize_nodes xs n) = resize (Node.values xs) n := by
  simp only [values_eq_map, resize_nodes, resize, List.length_map, List.map_append,
    List.map_take, List.map_replicate, Node.value]

theorem values_index_grow (xs : List Node) (i : Nat) :
    Node.values (if i ≥ xs.length then resize_nodes xs (size_succ i) else xs)
      = (if i ≥ (Node.values xs).length then resize (Node.values xs) (size_succ i)
          else Node.values xs) := by
  have hlen : (Node.values xs).length = xs.length := by
    rw [values_eq_map, List.length_map]
  rw [hlen]
  split
  · exact values_resize xs _
  · rfl

theorem entries_find (m : List (Bytes × Node)) (key : Bytes) :
    (slot_find m key).map Node.value = map_find (Node.entries m) key := by
  induction m with
  | nil => rfl
  | cons e m ih =>
    obtain ⟨k, x⟩ := e
    rw [slot_find, Node.entries, map_find]
    by_cases hk : k = key
    · simp only [if_pos hk]; rfl
    · simp only [if_neg hk]; exact ih

theorem entries_assign (m : List (Bytes × Node)) (key : Bytes) (x : Node) :
    Node.entries (slot_assign m key x) = map_assign (Node.entries m) key x.value := by
  induction m with
  | nil => rfl
  | cons e m ih =>
    obtain ⟨k, y⟩ := e
    rw [slot_assign, Node.entries, map_assign]
    by_cases hk : k = key
    · simp only [if_pos hk]; rfl
    · simp only [if_neg hk]
      rw [Node.entries, ih]

theorem entries_touch (m : List (Bytes × Node)) (key : Bytes) :
    Node.entries (slot_touch m key) = map_touch (Node.entries m) key := by
  unfold slot_touch map_touch
  rw [← entries_find]
  cases slot_find m key with
  | some x => rfl
  | none =>
    simp only [Option.map_none']
    rw [entries_eq_map, entries_eq_map]
    simp [Node.value]

theorem rekey_nodes_value : ∀ (xs : List Node) (i : Nat) (m : List (Bytes × Node))
    (next : Nat),
    Node.entries (rekey_nodes xs i m next).1 = rekey (Node.values xs) i (Node.entries m)
  | [], _, _, _ => rfl
  | x :: xs, i, m, next => by
    rw [rekey_nodes, rekey_nodes_value xs (i + 1), entries_assign, copy_value, Node.values,
      rekey]

/-- The integer index operator on the heap objects computes `subscript_nat` on the value. -/
theorem subscript_nat_value (x : Node) (i next : Nat) :
    (x.subscript_nat i next).1.value = subscript_nat x.value i := by
  cases x with
  | ARRAY p xs =>
    simp only [Node.subscript_nat, Node.value, subscript_nat, values_index_grow]
  | MAP p m =>
    simp only [Node.subscript_nat, Node.value, subscript_nat, entries_touch]
  | _ =>
    simp only [Node.subscript_nat, Node.value, subscript_nat, values_eq_map, List.map_replicate]

/-- The string index operator on the heap objects computes `subscript_str` on the value. -/
theorem subscript_str_value (x : Node) (key : Bytes) (next : Nat) :
    (x.subscript_str key next).1.value = subscript_str x.value key := by
  cases x with
  | ARRAY p xs =>
    simp only [Node.subscript_str, Node.value, subscript_str, as_map, entries_touch,
      rekey_nodes_value]
    rfl
  | MAP p m =>
    simp only [Node.subscript_str, Node.value, subscript_str, as_map, entries_touch]
  | _ =>
    simp only [Node.subscript_str, Node.value, subscript_str, as_map, entries_touch]
    rfl

theorem map_assign_touch (m : List (Bytes × var)) (key : Bytes) (v : var) :
    map_assign (map_touch m key) key v = map_assign m key v := by
  unfold map_touch
  cases hf : map_find m key with
  | some _ => rfl
  | none =>
    simp only
    induction m with
    | nil => simp [map_assign]
    | cons e m ih =>
      obtain ⟨k, y⟩ := e
      rw [map_find] at hf
      by_cases hk : k = key
      · rw [if_pos hk] at hf; cases hf
      · rw [if_neg hk] at hf
        have := ih hf
        simp only [List.cons_append, map_assign, if_neg hk]
        exact congrArg _ this

theorem values_set (xs : List Node) (i : Nat) (x : Node) :
    Node.values (xs.set i x) = (Node.values xs).set i x.value := by
  simp only [values_eq_map, List.map_set]

/-- The statement `x[i] = src` on the heap objects, for an index below `2 ^ 64 - 1`,
computes `assign_nat` on the values. -/
theorem exec_assign_nat_value (x src : Node) (i next : Nat) (hi : i + 1 < 2 ^ 64) :
    (exec [.nat i] (.assign src) x next).map (fun r => r.1.value)
      = some (assign_nat x.value i src.value) := by
  have hsucc : size_succ i = i + 1 := Nat.mod_eq_of_lt hi
  rcases subscript_nat_shape x i next with ⟨p, xs, hs⟩ | ⟨p, m, hs⟩
  · have hlt := subscript_nat_slot x i next p xs hi (by rw [hs])
    have hval := subscript_nat_value x i next
    rw [hs] at hval
    simp only [Node.value] at hval
    rw [exec, hs]
    simp only [List.getElem?_eq_getElem hlt, exec, Option.map_some', Node.value, values_set,
      copy_value, hval]
    cases x with
    | ARRAY q ys =>
      simp only [Node.value, subscript_nat, assign_nat, var.ARRAY.injEq] at hval ⊢
      rw [hval, resize_eq_grow _ hi]
    | MAP q m => simp [Node.subscript_nat] at hs
    | _ =>
      simp only [Node.value, subscript_nat, assign_nat, var.ARRAY.injEq, hsucc] at hval ⊢
      rw [hval]
  · cases x with
    | MAP q m' =>
      simp only [exec, Node.subscript_nat, Option.map_some', Node.value, assign_nat,
        entries_assign, entries_touch, copy_value, map_assign_touch]
    | ARRAY q ys => simp [Node.subscript_nat] at hs
    | _ => simp [Node.subscript_nat] at hs

/-- The statement `x[key] = src` on the heap objects computes `assign_str` on the values. -/
theorem exec_assign_str_value (x src : Node) (key : Bytes) (next : Nat) :
    (exec [.key key] (.assign src) x next).map (fun r => r.1.value)
      = some (assign_str x.value key src.value) := by
  cases x with
  | ARRAY p xs =>
    simp only [exec, Node.subscript_str, Option.map_some', Node.value, assign_str, as_map,
      entries_assign, entries_touch, copy_value, map_assign_touch, rekey_nodes_value]
    rfl
  | MAP p m =>
    simp only [exec, Node.subscript_str, Option.map_some', Node.value, assign_str, as_map,
      entries_assign, entries_touch, copy_value, map_assign_touch]
  | _ =>
    simp only [exec, Node.subscript_str, Option.map_some', Node.value, assign_str, as_map,
      entries_assign, entries_touch, copy_value, map_assign_touch]
    rfl

/-- A variable that shares its vector with `b`, as after a copy of the pointer instead of
the object, does see a statement on `b`. -/
theorem shared_object_is_seen :
    (run [([.nat 2], .touch)] (Vars.mk 1 (.ARRAY 0 []) (.ARRAY 0 []))).map Vars.a
      = some (.ARRAY 0 [.NULL, .NULL, .NULL]) := by rfl

/-! ## The claims -/

/-- C1, as stated, fails: the String `abc` contains no Float node, yet its rendering `abc`
parses to an Error; and the Int 1 comes back as the UInt 1, a different Kind. -/
theorem round_trip_counterexample :
    parse_json (to_string (.STR (txt "abc")))
      = .ok (.ERROR (txt "JSON: invalid token \x27a\x27 at position: 0")) ∧
    parse_json (to_string (.INT 1)) = .ok (.UINT 1) :=
  ⟨by rfl, by rfl⟩

/-- C1, amended. `parse_json (to_string v)` returns `v` itself for every tree `v` that is
built from Null, Bool, UInt below `2 ^ 64`, negative Int from `-2 ^ 63` on and non-empty Arrays
of such trees nested at most 127 deep; for the empty Array; and for every Map whose keys are
pairwise distinct, shorter than 128 bytes, free of double-quote and zero bytes and not ending
in a backslash, and whose values are such trees nested at most 126 deep. -/
theorem round_trip (v : var) (h : v.round_trips = true) :
    parse_json (to_string v) = .ok v := by
  have hclosed : ∀ w : var, w.closed = true → w.depth ≤ 127 →
      parse_json (to_string w) = .ok w := by
    intro w hc hd
    obtain ⟨h1, h2, h3⟩ := syn_spec w hc
    rw [parse_json_congr (sanitize_to_string_closed w hc hd)
      (sanitize_closed w.syn h1 (by omega)), parse_json_closed w.syn h1 (by omega), h2]
  match v, h with
  | .ARRAY [], _ => rfl
  | .ARRAY (x :: xs), h =>
    have h' : (var.ARRAY (x :: xs)).closed = true ∧ (var.ARRAY (x :: xs)).depth ≤ 127 := by
      simpa [var.round_trips] using h
    exact hclosed _ h'.1 h'.2
  | .MAP [], _ => rfl
  | .MAP (e :: es), h =>
    have h' : entries_ok 126 (e :: es) = true := by simpa [var.round_trips] using h
    obtain ⟨h1, h2⟩ := members_of_entries (e :: es) h'
    rw [parse_json_congr (sanitize_to_string_of_map _ h') (sanitize_object _ h1),
      parse_json_object_text _ (by simp) h1, h2]
  | .NULL, _ => rfl
  | .BOOL true, _ => rfl
  | .BOOL false, _ => rfl
  | .UINT u, h =>
    have h' : (var.UINT u).closed = true ∧ (var.UINT u).depth ≤ 127 := by
      simpa [var.round_trips] using h
    exact hclosed _ h'.1 h'.2
  | .INT n, h =>
    have h' : (var.INT n).closed = true ∧ (var.INT n).depth ≤ 127 := by
      simpa [var.round_trips] using h
    exact hclosed _ h'.1 h'.2
  | .ERROR _, h => simp [var.round_trips, var.closed] at h
  | .FLOAT _, h => simp [var.round_trips, var.closed] at h
  | .CHAR _, h => simp [var.round_trips, var.closed] at h
  | .STR _, h => simp [var.round_trips, var.closed] at h


/-- C1, amended, at a Map with an Array value and a Bool value. -/
theorem round_trip_witness :
    parse_json (to_string (.MAP [(txt "a", .ARRAY [.UINT 1, .INT (-2), .NULL, .ARRAY [.BOOL true]]),
        (txt "b c", .BOOL false)]))
      = .ok (.MAP [(txt "a", .ARRAY [.UINT 1, .INT (-2), .NULL, .ARRAY [.BOOL true]]),
        (txt "b c", .BOOL false)]) :=
  round_trip _ (by decide)


/-- C2. On the one-byte text `-`, which has no numeral, label or string of 128 bytes or more,
`parse_json` does not return: `std::stoll` throws `std::invalid_argument` in the number
branch and nothing catches it. -/
theorem parse_json_throws : parse_json (txt "-") = .error .invalid_argument := by rfl

/-- C3. On the text `[x]` the parse of the element yields an Error, and `parse_json` returns
an Array holding that Error instead of the Error itself. -/
theorem array_keeps_error :
    parse_json (txt "[x]")
      = .ok (.ARRAY [.ERROR (txt "JSON: invalid token \x27x\x27 at position: 1")]) := by rfl

/-- C6. On the String `99999999999999999999`, a digit string too large for 64 bits, `to_int`
and `to_uint` do not return: `std::out_of_range` is thrown and only
`std::invalid_argument` is caught. -/
theorem accessor_throws :
    to_int (.STR (txt "99999999999999999999")) = .error .out_of_range ∧
    to_uint (.STR (txt "99999999999999999999")) = .error .out_of_range :=
  ⟨by rfl, by rfl⟩

/-- C10. The sanitization pass is idempotent: when it succeeds on a text with output `t`, it
also succeeds on `t`, with output `t` again. -/
theorem sanitize_idempotent (src t : Bytes) (h : sanitize src = .ok (.ok t)) :
    sanitize t = .ok (.ok t) := by
  rw [sanitize_ok_iff] at h ⊢
  exact ⟨(sanitize_rescan src).1 0 [] t [] h.1 0, h.2⟩

/-- C10, at the text ` [ 1 , "a b" ] `. -/
theorem sanitize_idempotent_witness :
    sanitize (txt " [ 1 , \"a b\" ] ") = .ok (.ok (txt "[1,\"a b\"]")) ∧
    sanitize (txt "[1,\"a b\"]") = .ok (.ok (txt "[1,\"a b\"]")) :=
  ⟨by rfl, sanitize_idempotent (txt " [ 1 , \"a b\" ] ") (txt "[1,\"a b\"]") (by rfl)⟩

/-- C9, as stated, fails: the text made of a quote, one backslash and a quote is rejected
as an unterminated string instead of yielding the one-byte String. -/
theorem string_verbatim_counterexample :
    parse_json (txt "\"\\\"")
      = .ok (.ERROR (txt "JSON: unterminated string at position: 2")) := by rfl

/-- C9, amended. For every byte string `s` of at most 255 bytes that holds no double quote
and no zero byte and does not end in a backslash, `parse_json` of a quote, `s` and a quote
is the String with text `s`. -/
theorem string_verbatim (s : Bytes) (hq : ∀ c ∈ s, c ≠ 34) (hz : ∀ c ∈ s, c ≠ 0)
    (hl : s.getLast? ≠ some 92) (hlen : s.length ≤ 255) :
    parse_json (34 :: (s ++ [34])) = .ok (.STR s) := by
  rw [parse_json_of_sanitize (sanitize_quoted s hq hl),
    parse_json_value_string (r := s ++ [34]) _ (by simp),
    parse_string_body s [] (by simp) hq hlen, c_str_of_no_zero s hz]

/-- C9, amended, at the text `"a\b c"`. -/
theorem string_verbatim_witness : parse_json (txt "\"a\\b c\"") = .ok (.STR (txt "a\\b c")) :=
  string_verbatim (txt "a\\b c") (by decide) (by decide) (by decide) (by decide)

set_option maxRecDepth 100000 in
/-- C8, as stated, fails: a minus sign followed by the 127-digit numeral `0...01` makes the
number branch write its terminating zero past the 128-byte buffer `tmp`. -/
theorem number_shape_counterexample :
    (List.replicate 126 48 ++ [49]).length = 127 ∧
    digits_value (List.replicate 126 48 ++ [49]) = 1 ∧
    parse_json (45 :: (List.replicate 126 48 ++ [49])) = .error .buffer_overflow :=
  ⟨by rfl, by rfl, by rfl⟩

/-- C8, amended. (1) A non-empty digit string of at most 127 bytes with value below `2 ^ 64`
parses to the UInt of that value. (2) A minus sign followed by a non-empty digit string of
at most 126 bytes with value at most `2 ^ 63` parses to the Int of the negated value.
(3) A numeral of at most 127 bytes (a digit or minus sign, then digits) with exactly one
point and at least one digit parses to a Float. (4) A numeral of at most 127 bytes with a
second point parses to an Error. -/
theorem number_shape :
    (∀ d : Bytes, d ≠ [] → (∀ c ∈ d, isdigit c = true) → d.length ≤ 127 →
      digits_value d < 2 ^ 64 → parse_json d = .ok (.UINT (digits_value d))) ∧
    (∀ d : Bytes, d ≠ [] → (∀ c ∈ d, isdigit c = true) → d.length ≤ 126 →
      digits_value d ≤ 2 ^ 63 → parse_json (45 :: d) = .ok (.INT (-(digits_value d : Int)))) ∧
    (∀ (first : Nat) (a b : Bytes), (isdigit first = true ∨ first = 45) →
      (∀ c ∈ a, isdigit c = true) → (∀ c ∈ b, isdigit c = true) →
      (isdigit first = true ∨ a ≠ [] ∨ b ≠ []) → (first :: (a ++ 46 :: b)).length ≤ 127 →
      ∃ x, parse_json (first :: (a ++ 46 :: b)) = .ok (.FLOAT x)) ∧
    (∀ (first : Nat) (a b rest : Bytes), (isdigit first = true ∨ first = 45) →
      (∀ c ∈ a, isdigit c = true) → (∀ c ∈ b, isdigit c = true) →
      (∀ c ∈ rest, isdigit c = true ∨ c = 46) →
      (first :: (a ++ 46 :: (b ++ 46 :: rest))).length ≤ 127 →
      ∃ msg, parse_json (first :: (a ++ 46 :: (b ++ 46 :: rest))) = .ok (.ERROR msg)) := by
  refine ⟨?_, ?_, ?_, ?_⟩
  · intro d hne hd hlen hv
    match d, hne, hd, hlen, hv with
    | c :: ds, hne, hd, hlen, hv =>
      have hc := hd c (List.mem_cons_self _ _)
      have hc' := (isdigit_iff c).mp hc
      simp only [List.length_cons] at hlen
      rw [parse_json_of_sanitize (sanitize_plain _ hne (fun x hx => plain_of_isdigit (hd x hx))),
        parse_json_value_number (r := ds) _ (by simp) (Or.inl hc),
        parse_number_digits ds [] (by simp) (fun x hx => hd x (List.mem_cons_of_mem _ hx))
          (by simp) (by omega),
        show decide (c = 45) = false from decide_eq_false (by omega),
        finish_number_uint (c :: ds) _ hne hd (by simp only [List.length_cons]; omega) hv]
  · intro d hne hd hlen hv
    rw [parse_json_of_sanitize (sanitize_plain _ (by simp) (fun x hx => by
        rcases List.mem_cons.mp hx with h | h
        · subst h; decide
        · exact plain_of_isdigit (hd x h))),
      parse_json_value_number (r := d) _ (by simp) (Or.inr rfl),
      parse_number_digits d [] (by simp) hd (by simp) hlen,
      show decide (45 = 45) = true from rfl, finish_number_int d _ hne hd hlen hv]
  · intro first a b hf ha hb hdig hlen
    simp only [List.length_cons, List.length_append] at hlen
    have hplain : ∀ x ∈ first :: (a ++ 46 :: b),
        below33 x = false ∧ x ≠ 34 ∧ x ≠ 91 ∧ x ≠ 93 ∧ x ≠ 123 ∧ x ≠ 125 := by
      intro x hx
      apply plain_of_numeral
      simp only [List.mem_cons, List.mem_append] at hx
      rcases hx with h | h | h | h
      · subst h; rcases hf with h | h
        · exact Or.inl h
        · exact Or.inr (Or.inl h)
      · exact Or.inl (ha x h)
      · exact Or.inr (Or.inr h)
      · exact Or.inl (hb x h)
    have hex : ∃ c ∈ first :: (a ++ 46 :: b), isdigit c = true := by
      rcases hdig with h | h | h
      · exact ⟨first, List.mem_cons_self _ _, h⟩
      · obtain ⟨c, r, rfl⟩ := List.exists_cons_of_ne_nil h
        exact ⟨c, by simp, ha c (List.mem_cons_self _ _)⟩
      · obtain ⟨c, r, rfl⟩ := List.exists_cons_of_ne_nil h
        exact ⟨c, by simp, hb c (List.mem_cons_self _ _)⟩
    obtain ⟨x, hx⟩ := finish_number_float (first :: (a ++ 46 :: b)) (first = 45)
      (0 + 1 + a.length + 1 + b.length)
      (by simp only [List.length_cons, List.length_append]; omega) hex
    refine ⟨x, ?_⟩
    rw [parse_json_of_sanitize (sanitize_plain _ (by simp) hplain),
      parse_json_value_number (r := a ++ 46 :: b) _ (by simp) hf,
      parse_number_point a b [] (by simp) ha hb (by simp) (by omega), hx]
  · intro first a b rest hf ha hb hr hlen
    simp only [List.length_cons, List.length_append] at hlen
    have hplain : ∀ x ∈ first :: (a ++ 46 :: (b ++ 46 :: rest)),
        below33 x = false ∧ x ≠ 34 ∧ x ≠ 91 ∧ x ≠ 93 ∧ x ≠ 123 ∧ x ≠ 125 := by
      intro x hx
      apply plain_of_numeral
      simp only [List.mem_cons, List.mem_append] at hx
      rcases hx with h | h | h | h | h | h
      · subst h; rcases hf with h | h
        · exact Or.inl h
        · exact Or.inr (Or.inl h)
      · exact Or.inl (ha x h)
      · exact Or.inr (Or.inr h)
      · exact Or.inl (hb x h)
      · exact Or.inr (Or.inr h)
      · rcases hr x h with h | h
        · exact Or.inl h
        · exact Or.inr (Or.inr h)
    obtain ⟨msg, hmsg⟩ := @parse_number_second_point (first :: (a ++ 46 :: (b ++ 46 :: rest)))
      0 first a b rest (by simp) ha hb (by omega)
    refine ⟨msg, ?_⟩
    rw [parse_json_of_sanitize (sanitize_plain _ (by simp) hplain),
      parse_json_value_number (r := a ++ 46 :: (b ++ 46 :: rest)) _ (by simp) hf, hmsg]

/-- C8, amended, at the texts `18446744073709551615`, `-9223372036854775808`, `-1.5` and
`1.2.3`. -/
theorem number_shape_witness :
    parse_json (txt "18446744073709551615") = .ok (.UINT 18446744073709551615) ∧
    parse_json (txt "-9223372036854775808") = .ok (.INT (-9223372036854775808)) ∧
    (∃ x, parse_json (txt "-1.5") = .ok (.FLOAT x)) ∧
    (∃ msg, parse_json (txt "1.2.3") = .ok (.ERROR msg)) :=
  ⟨number_shape.1 (txt "18446744073709551615") (by decide) (by decide) (by decide) (by decide),
   number_shape.2.1 (txt "9223372036854775808") (by decide) (by decide) (by decide) (by decide),
   number_shape.2.2.1 45 (txt "1") (txt "5") (by decide) (by decide) (by decide) (by decide)
     (by decide),
   number_shape.2.2.2 49 [] (txt "2") (txt "3") (by decide) (by decide) (by decide) (by decide)
     (by decide)⟩

/-- C7, as stated, fails: `"abc"` does not parse as a numeral, yet `to_bool` returns true
and `to_char` returns the byte `a`. -/
theorem string_coercion_counterexample :
    stoll (txt "abc") = .error .invalid_argument ∧
    to_bool (.STR (txt "abc")) = true ∧ to_char (.STR (txt "abc")) = .ok 97 :=
  ⟨by rfl, by rfl, by rfl⟩

/-- C7, amended. For every String whose text `std::stoll` cannot convert, `to_int` and
`to_uint` return 0; `to_bool` returns whether the text is non-empty and `to_char` returns
its first byte, the zero byte for the empty text. -/
theorem string_coercion (s : Bytes) (h : stoll s = .error .invalid_argument) :
    to_int (.STR s) = .ok 0 ∧ to_uint (.STR s) = .ok 0 ∧
    to_bool (.STR s) = !s.isEmpty ∧ to_char (.STR s) = .ok (s.headD 0) := by
  refine ⟨?_, ?_, rfl, ?_⟩
  · simp only [to_int, h]
  · simp only [to_uint, stoull_invalid_of s ((stoll_invalid_iff s).mp h)]
  · cases s <;> rfl

/-- C7, amended, at the text `abc`. -/
theorem string_coercion_witness :
    to_int (.STR (txt "abc")) = .ok 0 ∧ to_uint (.STR (txt "abc")) = .ok 0 ∧
    to_bool (.STR (txt "abc")) = !(txt "abc").isEmpty ∧
    to_char (.STR (txt "abc")) = .ok ((txt "abc").headD 0) :=
  string_coercion (txt "abc") (by rfl)

set_option maxRecDepth 100000 in
/-- C4, as stated, fails: `1e5` and `2` are well-formed JSON numbers, yet `[1e5,2]` parses
to an Array of one element; and with the well-formed 128-byte number `0.00...0` as first
element the number branch writes past its 128-byte buffer. -/
theorem array_compositional_counterexample :
    parse_json (txt "1e5") = .ok (.UINT 1) ∧ parse_json (txt "2") = .ok (.UINT 2) ∧
    parse_json (txt "[1e5,2]") = .ok (.ARRAY [.UINT 1]) ∧
    parse_json (txt "[0." ++ List.replicate 126 48 ++ txt ",2]") = .error .buffer_overflow :=
  ⟨by rfl, by rfl, by rfl, by rfl⟩

/-- C4, amended. For every non-empty list of value texts in scope (literals, numerals and
string literals that fit their buffers, non-empty arrays of such texts, bracket nesting at
most 126), `parse_json` of a bracket, the texts with commas in between and a bracket is an
Array whose elements are, one by one, what `parse_json` yields for each text; and
`parse_json` of `[]` is the empty Array. -/
theorem array_compositional :
    (∀ ts : List Json, ts ≠ [] → Json.closed_list ts = true → Json.depth_list ts ≤ 126 →
      ∃ vs, parse_json (91 :: ([44].intercalate (ts.map Json.render) ++ [93])) = .ok (.ARRAY vs) ∧
        List.Forall₂ (fun t v => parse_json t.render = .ok v) ts vs) ∧
    parse_json (txt "[]") = .ok (.ARRAY []) := by
  refine ⟨fun ts hne hcl hd => ⟨Json.denote_list ts, ?_, ?_⟩, by rfl⟩
  · have := parse_json_closed (.arr ts) ((closed_arr_iff ts).mpr ⟨hne, hcl⟩)
      (by rw [depth_arr]; omega)
    rw [render_arr, denote_arr, render_list_eq_intercalate] at this
    exact this
  · exact forall₂_parse_closed ts hcl (by omega)

/-- C4, amended, at the texts `1`, `2`, `3`: the Array of `[1,2,3]` has three elements, and
its element 1 converts to the integer 2. -/
theorem array_compositional_witness :
    (∃ vs, parse_json (txt "[1,2,3]") = .ok (.ARRAY vs) ∧
      List.Forall₂ (fun t v => parse_json t.render = .ok v)
        [Json.uint (txt "1"), Json.uint (txt "2"), Json.uint (txt "3")] vs) ∧
    (parse_json (txt "[1,2,3]")).map (fun v => to_int (get_nat v 1)) = .ok (.ok 2) :=
  ⟨array_compositional.1 [Json.uint (txt "1"), Json.uint (txt "2"), Json.uint (txt "3")]
    (by simp) (by decide) (by decide), by rfl⟩

/-- C5, as stated, fails: the label `a\` holds no double quote and is shorter than 128
bytes, yet the object text with this label and the value text `1` is rejected as an
unterminated string. -/
theorem object_compositional_counterexample :
    parse_json (txt "1") = .ok (.UINT 1) ∧
    parse_json (txt "\x7b\"a\\\":1\x7d")
      = .ok (.ERROR (txt "JSON: unterminated string at position: 7")) :=
  ⟨by rfl, by rfl⟩

/-- C5, amended. For every non-empty list of members whose labels are pairwise distinct,
shorter than 128 bytes, free of double-quote and zero bytes and not ending in a backslash,
and whose value texts are in scope (literals, numerals and string literals that fit their
buffers, non-empty arrays of such texts, bracket nesting at most 126), `parse_json` of the
object text is a Map with exactly these labels as keys, in which each label maps to what
`parse_json` yields for its value text; and `parse_json` of the text of an opening and a
closing brace is the empty Map. -/
theorem object_compositional :
    (∀ ms : List (Bytes × Json), ms ≠ [] → members_ok ms = true →
      ∃ vs, parse_json (123 :: ([44].intercalate (ms.map render_member) ++ [125]))
          = .ok (.MAP ((ms.map Prod.fst).zip vs)) ∧
        List.Forall₂ (fun m v => parse_json m.2.render = .ok v) ms vs) ∧
    parse_json (txt "\x7b\x7d") = .ok (.MAP []) := by
  refine ⟨fun ms hne hok => ⟨ms.map (fun m => m.2.denote), ?_, ?_⟩, by rfl⟩
  · rw [← render_members_eq_intercalate, ← denote_members_eq_zip]
    exact parse_json_object_text ms hne hok
  · exact forall₂_parse_members ms hok

/-- C5, amended, at the member `"x":true`: the Map has the one key `x`, and its entry
converts to the boolean true. -/
theorem object_compositional_witness :
    (∃ vs, parse_json (txt "\x7b\"x\":true\x7d") = .ok (.MAP ([txt "x"].zip vs)) ∧
      List.Forall₂ (fun m v => parse_json m.2.render = .ok v) [(txt "x", Json.bool true)] vs) ∧
    (parse_json (txt "\x7b\"x\":true\x7d")).map (fun v => to_bool (get_str v (txt "x")))
      = .ok true :=
  ⟨object_compositional.1 [(txt "x", Json.bool true)] (by simp) (by decide), by rfl⟩


/-- C14: for a fresh Null value, `v[0] = x` followed by `v["k"] = y` leaves a Map with
exactly the two entries `"0" ↦ x` and `"k" ↦ y`: its key set is `"0"`, `"k"`, and looking the
two keys up gives `x` and `y`. -/
theorem implicit_builder (x y : var) :
    let v := assign_str (assign_nat .NULL 0 x) (txt "k") y
    v = .MAP [(txt "0", x), (txt "k", y)]
      ∧ (∀ key, key ∈ (as_map v).map Prod.fst ↔ key = txt "0" ∨ key = txt "k")
      ∧ get_str v (txt "0") = x ∧ get_str v (txt "k") = y := by
  have h : assign_str (assign_nat .NULL 0 x) (txt "k") y = .MAP [(txt "0", x), (txt "k", y)] :=
    rfl
  simp only [h]
  refine ⟨trivial, ?_, rfl, rfl⟩
  intro key
  simp [as_map]

/-- C13: string indexing re-keys an Array (of fewer than `2 ^ 31` elements, the range of the
loop counter): the value becomes a Map in which the decimal text of every `j < n` maps to
element `j`, whose keys are exactly those decimal texts and the looked-up key `k`, each key
once, and in which `k` maps to Null when it is not one of the decimal keys. -/
theorem string_index_rekeys (xs : List var) (k : Bytes) (_hn : xs.length < 2 ^ 31) :
    ∃ m, subscript_str (.ARRAY xs) k = .MAP m
      ∧ (∀ j, j < xs.length → map_find m (to_string_nat j) = xs[j]?)
      ∧ (∀ key, key ∈ m.map Prod.fst ↔ key = k ∨ ∃ j, j < xs.length ∧ key = to_string_nat j)
      ∧ ((∀ j, j < xs.length → k ≠ to_string_nat j) → map_find m k = some .NULL)
      ∧ (m.map Prod.fst).Nodup := by
  refine ⟨map_touch (rekey xs 0 []) k, rfl, ?_, ?_, ?_, ?_⟩
  · intro j hj
    have h := map_find_rekey xs 0 [] j hj
    rw [Nat.zero_add] at h
    rw [map_find_touch]
    split
    · rename_i hk
      rw [← hk, h, List.getElem?_eq_getElem hj]
      rfl
    · exact h
  · intro key
    rw [keys_map_touch, keys_rekey]
    simp
  · intro hk
    rw [map_find_touch, if_pos rfl, map_find_rekey_other xs 0 [] k (by simpa using hk)]
    rfl
  · exact nodup_map_touch _ k (nodup_rekey xs 0 [] (by simp))

/-- An instance of C13: the Array `[true, null]` indexed with the key `"k"`. -/
theorem string_index_rekeys_witness :
    ∃ m, subscript_str (.ARRAY [.BOOL true, .NULL]) (txt "k") = .MAP m
      ∧ (∀ j, j < [var.BOOL true, var.NULL].length →
          map_find m (to_string_nat j) = [var.BOOL true, var.NULL][j]?)
      ∧ (∀ key, key ∈ m.map Prod.fst
          ↔ key = txt "k" ∨ ∃ j, j < [var.BOOL true, var.NULL].length ∧ key = to_string_nat j)
      ∧ ((∀ j, j < [var.BOOL true, var.NULL].length → txt "k" ≠ to_string_nat j) →
          map_find m (txt "k") = some .NULL)
      ∧ (m.map Prod.fst).Nodup :=
  string_index_rekeys [.BOOL true, .NULL] (txt "k") (by decide)

set_option maxRecDepth 100000 in
/-- C19 fails at nesting depth 128 and at a closing bracket outside all brackets. The pass
pushes with `*++pair`, so slot 0 of `pairs` is never written and 127 slots remain: on 128
opening brackets followed by 128 closing brackets the last push writes `pairs[128]`, behind
the array, while the same text at depth 127 is accepted; and on the text `]` the comparison
`*pair == src[i]` reads `pairs[0]`, which was never written. -/
theorem pairs_stack_bounds :
    sanitize (List.replicate 128 91 ++ List.replicate 128 93) = .error .buffer_overflow
      ∧ sanitize (List.replicate 127 91 ++ List.replicate 127 93)
          = .ok (.ok (List.replicate 127 91 ++ List.replicate 127 93))
      ∧ sanitize (txt "]") = .error .uninit_read
      ∧ parse_json (List.replicate 128 91 ++ List.replicate 128 93) = .error .buffer_overflow
      ∧ parse_json (txt "]") = .error .uninit_read :=
  ⟨by rfl, by rfl, by rfl, by rfl, by rfl⟩

/-- C20 fails on the text `["\","]` (bracket, quote, backslash, quote, comma, quote,
bracket). The sanitization pass accepts it unchanged: for it the quote after the backslash
does not end the literal, the next quote does. The parser ends the first literal at the quote
after the backslash (cursor 4), takes the comma as a separator and scans for the closing
quote of a second literal from position 6 on; there is none, and the scan reads position 8 of
a text of 7 bytes. -/
theorem parser_reads_past_end :
    sanitize (txt "[\"\\\",\"]") = .ok (.ok (txt "[\"\\\",\"]"))
      ∧ (txt "[\"\\\",\"]").length = 7
      ∧ parse_string (txt "[\"\\\",\"]") 1 = .ok (.STR [92], 4)
      ∧ char_at (txt "[\"\\\",\"]") 8 = .error .bad_read
      ∧ parse_string (txt "[\"\\\",\"]") 5 = .error .bad_read
      ∧ parse_json (txt "[\"\\\",\"]") = .error .bad_read :=
  ⟨by rfl, by rfl, by rfl, by rfl, by rfl, by rfl⟩

/-- C11, as stated, fails: the text made of a quote, two backslashes and a quote is one
string literal, closed by its second quote, with no bracket, and four bytes remain after
stripping; yet the sanitization pass returns an Error, because it does not take a quote that
follows a backslash byte as the end of a literal. -/
theorem sanitize_balanced_counterexample :
    txt "\"\\\\\"" = [34, 92, 92, 34]
      ∧ sanitize (txt "\"\\\\\"")
          = .ok (.error (.ERROR (txt "JSON: unterminated string at position: 3")))
      ∧ parse_json (txt "\"\\\\\"")
          = .ok (.ERROR (txt "JSON: unterminated string at position: 3")) :=
  ⟨by rfl, by rfl, by rfl⟩

/-- C11, amended. A string literal runs from a quote to the next quote that does not follow
a backslash byte. For every text whose brackets outside string literals nest below 128 deep
and have no closing bracket at depth 0, the sanitization pass returns an Error value, which
`parse_json` returns, if and only if the text ends inside a literal, or its brackets outside
literals are not a properly nested and matched sequence, or every byte is dropped; otherwise
it hands a text to the structural parser. -/
theorem sanitize_accepts_balanced (src : Bytes)
    (h : nesting_within (brackets_outside src) 0 = true) :
    ((∃ msg, sanitize src = .ok (.error (.ERROR msg)) ∧ parse_json src = .ok (.ERROR msg))
      ↔ (ends_in_literal src = true ∨ ¬ Balanced (brackets_outside src)
          ∨ ∀ c ∈ src, below33 c = true))
    ∧ ((∃ t, sanitize src = .ok (.ok t))
      ↔ ¬ (ends_in_literal src = true ∨ ¬ Balanced (brackets_outside src)
          ∨ ∀ c ∈ src, below33 c = true)) := by
  rcases sanitize_outcome src h with ⟨msg, hs, hc⟩ | ⟨t, hs, _, h1, h2, h3⟩
  · refine ⟨⟨fun _ => hc, fun _ => ⟨msg, hs, ?_⟩⟩, ⟨?_, fun hn => absurd hc hn⟩⟩
    · unfold parse_json; rw [hs]
    · rintro ⟨t, ht⟩
      rw [hs] at ht
      cases ht
  · have hnot : ¬ (ends_in_literal src = true ∨ ¬ Balanced (brackets_outside src)
        ∨ ∀ c ∈ src, below33 c = true) := by
      rintro (h4 | h4 | h4)
      · rw [h1] at h4; cases h4
      · exact h4 h2
      · exact h3 h4
    refine ⟨⟨?_, fun hc => absurd hc hnot⟩, ⟨fun _ => hnot, fun _ => ⟨t, hs⟩⟩⟩
    rintro ⟨msg, hm, _⟩
    rw [hs] at hm
    cases hm

/-- C11 at the text `[1,2`, whose opening bracket is never closed, with the Error values
that `parse_json` returns on it and on the empty text. -/
theorem sanitize_accepts_balanced_witness :
    (((∃ msg, sanitize (txt "[1,2") = .ok (.error (.ERROR msg))
          ∧ parse_json (txt "[1,2") = .ok (.ERROR msg))
        ↔ (ends_in_literal (txt "[1,2") = true ∨ ¬ Balanced (brackets_outside (txt "[1,2"))
            ∨ ∀ c ∈ txt "[1,2", below33 c = true))
      ∧ ((∃ t, sanitize (txt "[1,2") = .ok (.ok t))
        ↔ ¬ (ends_in_literal (txt "[1,2") = true ∨ ¬ Balanced (brackets_outside (txt "[1,2"))
            ∨ ∀ c ∈ txt "[1,2", below33 c = true)))
    ∧ parse_json (txt "[1,2") = .ok (.ERROR (txt "JSON: unterminated array definition"))
    ∧ parse_json (txt "") = .ok (.ERROR (txt "JSON: source string was empty")) :=
  ⟨sanitize_accepts_balanced (txt "[1,2") (by rfl), by rfl, by rfl⟩

/-- C18, as stated, fails: the text made of `t`, the byte 128, `r`, `u`, `e` has no byte
below 33, starts with `t` and does not begin with `true`; the sanitization pass drops the
byte 128, which as a signed `char` compares below 33, and `parse_json` returns Bool true. -/
theorem literal_matching_counterexample :
    (∀ c ∈ [116, 128, 114, 117, 101], 33 ≤ c)
      ∧ ¬ txt "true" <+: [116, 128, 114, 117, 101]
      ∧ sanitize [116, 128, 114, 117, 101] = .ok (.ok (txt "true"))
      ∧ parse_json [116, 128, 114, 117, 101] = .ok (.BOOL true) :=
  ⟨by decide, by decide, by rfl, by rfl⟩

/-- C18, amended. The texts `true`, `false` and `null` parse to Bool true, Bool false and
Null; and for every text all of whose bytes are from 33 to 127 (the pass drops a byte that
is below 33 or is 128 or more), whose brackets outside string literals nest below 128 deep
with no closing bracket at depth 0, that starts with `t`, `f` or `n` and does not begin with
the word `true`, `false` or `null` respectively, `parse_json` returns an Error value. -/
theorem literal_matching (text : Bytes) (hb : ∀ c ∈ text, 33 ≤ c ∧ c < 128)
    (hn : nesting_within (brackets_outside text) 0 = true)
    (hw : (text.head? = some 116 ∧ ¬ txt "true" <+: text)
      ∨ (text.head? = some 102 ∧ ¬ txt "false" <+: text)
      ∨ (text.head? = some 110 ∧ ¬ txt "null" <+: text)) :
    parse_json (txt "true") = .ok (.BOOL true)
      ∧ parse_json (txt "false") = .ok (.BOOL false)
      ∧ parse_json (txt "null") = .ok .NULL
      ∧ ∃ msg, parse_json text = .ok (.ERROR msg) := by
  have h33 : ∀ c ∈ text, below33 c = false := by
    intro c hc
    have := hb c hc
    simp only [below33, Bool.or_eq_false_iff, decide_eq_false_iff_not]
    omega
  refine ⟨by rfl, by rfl, by rfl, ?_⟩
  rcases sanitize_outcome text hn with ⟨msg, hs, _⟩ | ⟨t, hs, hl, _, _, _⟩
  · refine ⟨msg, ?_⟩
    unfold parse_json
    rw [hs]
  · have ht : t = text := (sanitize_loop_keep text h33).1 0 [] t [] hl
    subst ht
    rw [parse_json_of_sanitize hs]
    cases t with
    | nil => simp at hw
    | cons first rest =>
      have h0 : (first :: rest).drop 0 = first :: rest := rfl
      rw [show 3 * (first :: rest).length + 3 = (3 * (first :: rest).length + 2) + 1 by omega,
        parse_json_value_succ, char_at_of_drop h0]
      simp only [List.head?_cons, Option.some.injEq] at hw
      rcases hw with ⟨rfl, hp⟩ | ⟨rfl, hp⟩ | ⟨rfl, hp⟩
      · obtain ⟨msg, j, h⟩ := parse_literal_mismatch 116 (txt "rue") rest (.BOOL true) hp
        simp only [show ¬ ((48 ≤ 116 ∧ 116 ≤ 57) ∨ 116 = 45) by omega,
          show ¬ (116 = 34) by omega, show ¬ (116 = 123) by omega, show ¬ (116 = 91) by omega,
          if_false, if_true, h]
        exact ⟨msg, rfl⟩
      · obtain ⟨msg, j, h⟩ := parse_literal_mismatch 102 (txt "alse") rest (.BOOL false) hp
        simp only [show ¬ ((48 ≤ 102 ∧ 102 ≤ 57) ∨ 102 = 45) by omega,
          show ¬ (102 = 34) by omega, show ¬ (102 = 123) by omega, show ¬ (102 = 91) by omega,
          show ¬ (102 = 116) by omega, if_false, if_true, h]
        exact ⟨msg, rfl⟩
      · obtain ⟨msg, j, h⟩ := parse_literal_mismatch 110 (txt "ull") rest .NULL hp
        simp only [show ¬ ((48 ≤ 110 ∧ 110 ≤ 57) ∨ 110 = 45) by omega,
          show ¬ (110 = 34) by omega, show ¬ (110 = 123) by omega, show ¬ (110 = 91) by omega,
          show ¬ (110 = 116) by omega, show ¬ (110 = 102) by omega, if_false, if_true, h]
        exact ⟨msg, rfl⟩

/-- C18 at the text `tru`, which ends before the word is complete. -/
theorem literal_matching_witness :
    parse_json (txt "true") = .ok (.BOOL true)
      ∧ parse_json (txt "false") = .ok (.BOOL false)
      ∧ parse_json (txt "null") = .ok .NULL
      ∧ ∃ msg, parse_json (txt "tru") = .ok (.ERROR msg) :=
  literal_matching (txt "tru") (by decide) (by rfl) (Or.inl ⟨by rfl, by decide⟩)

/-- C16, as stated, fails in its last part: the single-entry Map with the key `a`, newline,
`b` and a Null value renders in four lines, the third of which, `b": null`, lies inside the
entry of the Map and has no leading tab, because the key is written as it is and only the
text of the value gets tabs after its newlines. -/
theorem map_rendering_counterexample :
    to_string (.MAP [(txt "a\nb", .NULL)]) = txt "\x7b\n\t\"a\nb\": null\n\x7d"
      ∧ (to_string (.MAP [(txt "a\nb", .NULL)])).splitOn 10
          = [txt "\x7b", txt "\t\"a", txt "b\": null", txt "\x7d"] :=
  ⟨by rfl, by decide⟩

/-- C16, amended. For every Map, `to_string` is an opening brace and a newline, then for
each entry in order a tab, the key in double quotes, a colon and a blank, the text of the
value with a tab inserted after every newline, a comma unless the entry is the last, and a
newline, then the closing brace; a single-entry Map renders as stated; the tab insertion of
the code is the one described; and under `d` enclosing Maps, each of which inserts its tabs,
the line of every entry starts with `d + 1` tabs followed by the quote of the key and the
closing brace follows `d` tabs. -/
theorem map_rendering (m : List (Bytes × var)) (d : Nat) :
    to_string (.MAP m) = map_text 0 (m.map (fun e => (e.1, to_string e.2)))
      ∧ (∀ k v, to_string (.MAP [(k, v)])
          = txt "\x7b\n\t\"" ++ k ++ txt "\": " ++ indent (to_string v) ++ txt "\n\x7d")
      ∧ (∀ s, indent s = tab_after_newlines s)
      ∧ nested d (to_string (.MAP m)) = map_text d (m.map (fun e => (e.1, to_string e.2))) := by
  refine ⟨nested_to_string 0 m, ?_, indent_eq_tab_after_newlines, nested_to_string d m⟩
  intro k v
  rw [to_string_map_eq, to_string_map_cons, to_string_map]
  simp [txt]

/-- C15 fails on a member whose value is an object, empty or not, a case the claim names:
`parse_json_object` returns with the cursor on its closing brace, the member loop of the
enclosing object takes that brace for its own, and the trailing comma is never read. The
texts `{"a":{},}` and `{"a":{"b":1},}` parse to Maps; after a member whose value is a
number the comma is read and `{"a":1,}` is an Error. -/
theorem trailing_comma_unnoticed :
    parse_json (txt "\x7b\"a\":\x7b\x7d,\x7d") = .ok (.MAP [(txt "a", .MAP [])])
      ∧ parse_json (txt "\x7b\"a\":\x7b\"b\":1\x7d,\x7d")
          = .ok (.MAP [(txt "a", .MAP [(txt "b", .UINT 1)])])
      ∧ parse_json (txt "\x7b\"a\":1,\x7d")
          = .ok (.ERROR (txt "JSON: invalid label given for member at position: 7")) :=
  ⟨by rfl, by rfl, by rfl⟩

end hirzel
